import Mathlib

/-!
# launchrctl/scaffold: a shallow embedding

Go strings are modelled as lists of runes (`Str`).  Every function of the
repository that is embedded here keeps its Go name; the functions of the Go
standard library that the repository calls (`strings.Map`, `strings.Trim`,
`filepath.Join`, `os.MkdirAll`, ...) are modelled next to their first use and
carry the name of the library function.
-/

set_option autoImplicit false

namespace Scaffold

/-- A Go string, as the sequence of runes a `range` loop or `strings.Map` sees
(a byte that is not valid UTF-8 is seen as the rune U+FFFD). -/
abbrev Str := List Char

/-! ## Go standard library: package `strings` -/

/-- Go `strings.Map(mapping, s)` for a mapping that never returns a negative rune. -/
def stringsMap (mapping : Char → Char) (s : Str) : Str :=
  s.map mapping

/-- Go `strings.HasPrefix(s, pre)`. -/
def stringsHasPrefix (s pre : Str) : Bool :=
  pre.isPrefixOf s

/-- Go `strings.Contains(s, substr)`. -/
def stringsContains (s substr : Str) : Bool :=
  s.tails.any (fun t => substr.isPrefixOf t)

/-- Go `strings.ContainsAny(s, chars)`. -/
def stringsContainsAny (s chars : Str) : Bool :=
  s.any (fun c => chars.contains c)

/-- Go `strings.ReplaceAll(s, "--", "-")`: the non-overlapping occurrences of
`--`, found from the left, are each replaced by one hyphen. -/
def replaceAllDoubleHyphen : Str → Str
  | [] => []
  | [c] => [c]
  | a :: b :: rest =>
    if a = '-' ∧ b = '-' then '-' :: replaceAllDoubleHyphen rest
    else a :: replaceAllDoubleHyphen (b :: rest)

/-- Go `strings.TrimLeft(s, cutset)`. -/
def stringsTrimLeft (s cutset : Str) : Str :=
  s.dropWhile (fun c => cutset.contains c)

/-- Go `strings.TrimRight(s, cutset)`. -/
def stringsTrimRight (s cutset : Str) : Str :=
  s.rdropWhile (fun c => cutset.contains c)

/-- Go `strings.Trim(s, cutset)`. -/
def stringsTrim (s cutset : Str) : Str :=
  stringsTrimRight (stringsTrimLeft s cutset) cutset

/-- Go `strings.TrimPrefix(s, pre)`. -/
def stringsTrimPrefix (s pre : Str) : Str :=
  if stringsHasPrefix s pre then s.drop pre.length else s

/-- Go `strings.Split(s, ",")` (a one-rune separator): always at least one piece. -/
def stringsSplit (s : Str) (sep : Char) : List Str :=
  s.splitOn sep

/-- The white space of Go `unicode.IsSpace` in the Latin-1 range plus the
Unicode space separators, as used by `strings.TrimSpace`. -/
def unicodeIsSpace (c : Char) : Bool :=
  let n := c.toNat
  (9 ≤ n && n ≤ 13) || n = 0x20 || n = 0x85 || n = 0xA0 || n = 0x1680 ||
  (0x2000 ≤ n && n ≤ 0x200A) || n = 0x2028 || n = 0x2029 || n = 0x202F ||
  n = 0x205F || n = 0x3000

/-- Go `strings.TrimSpace(s)`. -/
def stringsTrimSpace (s : Str) : Str :=
  (s.dropWhile unicodeIsSpace).rdropWhile unicodeIsSpace

/-- Go `slices.Compact(s)`: every run of consecutive equal elements is
replaced by a single copy. -/
def slicesCompact : List Str → List Str
  | [] => []
  | [a] => [a]
  | a :: b :: rest =>
    if a = b then slicesCompact (b :: rest) else a :: slicesCompact (b :: rest)

/-! ## generator.go: `sanitizeForPath` -/

/-- The predicate of the mapping callback of `sanitizeForPath`
(generator.go:172): runes that are kept as they are. -/
def isPathSafeRune (r : Char) : Bool :=
  ('a'.toNat ≤ r.toNat && r.toNat ≤ 'z'.toNat) ||
  ('A'.toNat ≤ r.toNat && r.toNat ≤ 'Z'.toNat) ||
  ('0'.toNat ≤ r.toNat && r.toNat ≤ '9'.toNat) || r = '-' || r = '_'

/-- The mapping callback of `sanitizeForPath` (generator.go:171-176). -/
def sanitizeRune (r : Char) : Char :=
  if isPathSafeRune r then r else '-'

/-- The loop `for strings.Contains(s, "--") { s = strings.ReplaceAll(s, "--", "-") }`
(generator.go:179-181), with a bound on the number of iterations. -/
def collapseHyphens : Nat → Str → Str
  | 0, s => s
  | fuel + 1, s =>
    if stringsContains s "--".toList then
      collapseHyphens fuel (replaceAllDoubleHyphen s)
    else s

/-- Go `sanitizeForPath` (generator.go:169-192).  Every iteration of the
collapsing loop shortens the string, so its length bounds the iterations. -/
def sanitizeForPath (s : Str) : Str :=
  let s1 := stringsMap sanitizeRune s
  let s2 := collapseHyphens s1.length s1
  let s3 := stringsTrim s2 "-".toList
  if s3 = [] then "action".toList else s3

/-! ## metadata.go: `isValidName` -/

/-- Go `isLetter` (metadata.go:550-552), on the numeric value of the rune. -/
def isLetter (char : Nat) : Bool :=
  ('a'.toNat ≤ char && char ≤ 'z'.toNat) || ('A'.toNat ≤ char && char ≤ 'Z'.toNat)

/-- Go `isDigit` (metadata.go:555-557). -/
def isDigit (char : Nat) : Bool :=
  '0'.toNat ≤ char && char ≤ '9'.toNat

/-- The first byte of the UTF-8 encoding of a rune: what `name[0]` reads when
the rune is the first of the string. -/
def utf8FirstByte (c : Char) : Nat :=
  let n := c.toNat
  if n < 0x80 then n
  else if n < 0x800 then 0xC0 + n / 0x40
  else if n < 0x10000 then 0xE0 + n / 0x1000
  else 0xF0 + n / 0x40000

/-- The number of bytes of the UTF-8 encoding of a rune: the step of the byte
index in a `range` loop over a string. -/
def utf8Len (c : Char) : Nat :=
  let n := c.toNat
  if n < 0x80 then 1 else if n < 0x800 then 2 else if n < 0x10000 then 3 else 4

/-- The errors `isValidName` builds with `fmt.Errorf` (metadata.go:526-542);
each keeps the values that are formatted into its message. -/
inductive NameError where
  | empty (subject : Str)
  | whitespace (subject : Str)
  | notLetterFirst (subject : Str)
  | invalidChar (subject : Str) (char : Char) (position : Nat)
  deriving DecidableEq, Repr

/-- The loop `for i, char := range name` of `isValidName` (metadata.go:540-544):
the first rune that is no letter, underscore or digit, with its byte index. -/
def firstInvalidChar : Nat → Str → Option (Char × Nat)
  | _, [] => none
  | i, char :: rest =>
    if !isLetter char.toNat && char != '_' && !isDigit char.toNat then some (char, i)
    else firstInvalidChar (i + utf8Len char) rest

/-- Go `isValidName` (metadata.go:524-547); `none` is the `nil` error. -/
def isValidName (subject name : Str) : Option NameError :=
  match name with
  | [] => some (.empty subject)
  | first :: _ =>
    if stringsContainsAny name [' ', '\t', '\n', '\r', '\x0c', '\x0b'] then
      some (.whitespace subject)
    else if !isLetter (utf8FirstByte first) then
      some (.notLetterFirst subject)
    else
      match firstInvalidChar 0 name with
      | some (char, i) => some (.invalidChar subject char i)
      | none => none

/-- The shape of the strings `sanitizeForPath` returns: non-empty, made of
runes the mapping keeps, without a doubled hyphen, without a hyphen at either end. -/
def IsSanitized (r : Str) : Prop :=
  r ≠ [] ∧ (∀ c ∈ r, isPathSafeRune c = true) ∧ ¬ "--".toList <:+: r ∧
    r.head? ≠ some '-' ∧ r.getLast? ≠ some '-'

/-- The runes `isValidName` accepts anywhere in a name: an ASCII letter, an
ASCII digit or the underscore. -/
def isNameRune (c : Char) : Bool :=
  isLetter c.toNat || isDigit c.toNat || c = '_'

/-! ## The data model (launchr `action.Definition`, metadata.go:21-25) -/

/-- The JSON-schema types of launchr `jsonschema.Type`. -/
inductive JsonType where
  | string | number | integer | boolean | array | object | null
  deriving DecidableEq, Repr

/-- A Go value of interface type `any`, by dynamic type: the kinds of value a
parameter default can hold.  A `float64` is kept as its IEEE-754 bit pattern. -/
inductive GoAny where
  | nil
  | str (s : Str)
  | int (n : Int)
  | float64 (bits : Nat)
  | bool (b : Bool)
  | slice (items : List GoAny)

/-- Go `v == n` for `v` of type `any` and `n` an untyped integer constant: the
constant is converted to `int`, and two interface values are equal only when
their dynamic types are identical and their values are equal. -/
def GoAny.eqIntConst : GoAny → Int → Bool
  | .int m, n => m == n
  | _, _ => false

/-- launchr `action.DefParameter`, the fields the scaffold reads or writes;
`items` is the pointer `Items` (`none` is `nil`). -/
structure DefParameter where
  name : Str
  title : Str
  description : Str
  type : JsonType
  required : Bool
  default : GoAny
  items : Option JsonType

/-- launchr `action.DefAction`. -/
structure DefAction where
  title : Str
  description : Str
  aliases : List Str
  arguments : List DefParameter
  options : List DefParameter

/-- launchr `action.DefRuntimeContainer`, the fields the scaffold writes. -/
structure DefRuntimeContainer where
  image : Str
  env : List Str
  extraHosts : List Str
  deriving DecidableEq, Repr

/-- launchr `action.DefRuntimeShell`, the field the scaffold writes. -/
structure DefRuntimeShell where
  env : List Str
  deriving DecidableEq, Repr

/-- launchr `action.DefRuntime`; `type` is a `DefRuntimeType`, a Go string.
The two configuration pointers are never `nil` once `getDefaultValues` has
run, so they are kept as plain values. -/
structure DefRuntime where
  type : Str
  container : DefRuntimeContainer
  shell : DefRuntimeShell
  deriving DecidableEq, Repr

/-- Go `templateValues` (metadata.go:21-25) with the embedded
`action.Definition` flattened into it. -/
structure TemplateValues where
  action : DefAction
  runtime : DefRuntime
  wd : Str
  id : Str
  containerPreset : Str

/-- The constant `runtimePlugin` (generator.go:15). -/
def runtimePlugin : Str := "plugin".toList

/-- The constant `runtimeContainer` (generator.go:16). -/
def runtimeContainer : Str := "container".toList

/-- The constant `runtimeShell` (generator.go:17). -/
def runtimeShell : Str := "shell".toList

/-! ## External collaborators of the metadata collector -/

/-- The live registry, launchr `action.Manager`: `Get(id)` reports whether an
action with that ID exists. -/
abbrev ActionManager := Str → Bool

/-- The two functions of launchr package `jsonschema` that the scaffold calls. -/
structure JsonSchema where
  convertStringToType : Str → JsonType → Except Str GoAny
  ensureType : JsonType → GoAny → Except Str GoAny

/-- What one `form.Run()` of the form engine leaves behind: the values of the
variables bound to its fields, or an error. -/
inductive FormAnswer where
  | aborted
  | main (title description aliases runtimeType wd preset id : Str)
  | confirm (yes : Bool)
  | parameter (name title description : Str) (type : JsonType) (required : Bool)
      (itemsType : JsonType) (defaultStr : Str)
  | container (image envStr extraHosts : Str)
  | shell (envStr : Str)

/-- The errors of the metadata collector. -/
inductive CollectError where
  | idEmpty
  | name (e : NameError)
  | idExists (id : Str)
  | form
  | cast (msg : Str)
  | nilItems
  deriving DecidableEq, Repr

/-! ## metadata.go: the metadata collector -/

/-- Go `metadataCollector` (metadata.go:16-19). -/
structure MetadataCollector where
  actionManager : ActionManager
  interactive : Bool

/-- Go `newMetadataCollector` (metadata.go:28-33). -/
def newMetadataCollector (manager : ActionManager) (interactive : Bool) : MetadataCollector :=
  { actionManager := manager, interactive := interactive }

/-- Go `metadataCollector.validate` (metadata.go:35-52).  The Go function
writes the sanitized ID through the pointer, so the values are returned
together with the error (`none` is `nil`). -/
def MetadataCollector.validate (m : MetadataCollector) (values : TemplateValues) :
    TemplateValues × Option CollectError :=
  if values.id = [] then (values, some .idEmpty)
  else
    let values := { values with id := sanitizeForPath values.id }
    match isValidName "action ID".toList values.id with
    | some err => (values, some (.name err))
    | none =>
      if m.actionManager values.id then (values, some (.idExists values.id))
      else (values, none)

/-- The loop body of the element conversion in `castParamStrToType`
(metadata.go:511-520). -/
def castItems (lib : JsonSchema) (pdef : DefParameter) : List Str → Except CollectError (List GoAny)
  | [] => .ok []
  | item :: rest =>
    match pdef.items with
    | none => .error .nilItems
    | some itemsType =>
      match lib.convertStringToType item itemsType with
      | .error msg => .error (.cast msg)
      | .ok r =>
        let r := if itemsType = .number && r.eqIntConst 0 then GoAny.str "0.0".toList else r
        match castItems lib pdef rest with
        | .error e => .error e
        | .ok rs => .ok (r :: rs)

/-- Go `castParamStrToType` (metadata.go:504-522).  Reading `pdef.Items.Type`
through a `nil` pointer panics in Go; that is the error `nilItems` here. -/
def castParamStrToType (lib : JsonSchema) (v : Str) (pdef : DefParameter) :
    Except CollectError GoAny :=
  if pdef.type ≠ .array then
    match lib.convertStringToType v pdef.type with
    | .error msg => .error (.cast msg)
    | .ok r => .ok r
  else
    match castItems lib pdef (stringsSplit v ',') with
    | .error e => .error e
    | .ok res => .ok (.slice res)

/-- The alias block of `attachInteractiveForm` (metadata.go:160-167):
`aliases` is `values.Action.Aliases` before the block, the result is its
value after it. -/
def parseAliases (aliasesStr : Str) (aliases : List Str) : List Str :=
  if aliasesStr ≠ [] then
    aliases ++ (slicesCompact (stringsSplit aliasesStr ',')).map stringsTrimSpace
  else aliases

/-- The environment block shared by `collectContainerConfig` and
`collectShellConfig` (metadata.go:436-450, 485-499): the trimmed non-empty
lines that contain `=`, so that `strings.SplitN(line, "=", 2)` has two parts. -/
def parseEnv (envStr : Str) : List Str :=
  if envStr ≠ [] then
    ((stringsSplit envStr '\n').map stringsTrimSpace).filter
      (fun line => line ≠ [] && line.contains '=')
  else []

/-- The validator of the `Parameter Name` field (metadata.go:260-277). -/
def parameterNameValidator (params : List DefParameter) (str : Str) : Option CollectError :=
  if str = [] then some .form
  else
    match isValidName "parameter".toList str with
    | some err => some (.name err)
    | none => if params.any (fun p => p.name = str) then some .form else none

/-- The validator of both `Default Value (optional)` fields
(metadata.go:322-329, 335-342). -/
def defaultValueValidator (lib : JsonSchema) (param : DefParameter) (v : Str) :
    Option CollectError :=
  if v = [] then none
  else
    match castParamStrToType lib v param with
    | .error e => some e
    | .ok _ => none

/-- The validator of the `Action ID` field (metadata.go:137-150). -/
def actionIdValidator (m : MetadataCollector) (str : Str) : Option CollectError :=
  match isValidName "action ID".toList str with
  | some err => some (.name err)
  | none =>
    let safeID := sanitizeForPath str
    if m.actionManager safeID then some (.idExists safeID) else none

/-- Go `strings.ToLower` on the ASCII letters; other runes are kept. -/
def stringsToLower (s : Str) : Str :=
  s.map (fun c => if 'A'.toNat ≤ c.toNat ∧ c.toNat ≤ 'Z'.toNat then Char.ofNat (c.toNat + 32) else c)

/-- Go `metadataCollector.collectParameters` (metadata.go:244-395), driven by
the answers the form engine returns.  An answer that a field validator
rejects, an answer of another form and the end of the answers all end the form
with an error.  The result is the parameter list and the remaining answers. -/
def collectParameters (lib : JsonSchema) (params : List DefParameter) :
    List FormAnswer → Except CollectError (List DefParameter × List FormAnswer)
  | .parameter name title description type required itemsType defaultStr :: rest =>
    let param : DefParameter :=
      { name := name, title := title, description := description, type := type,
        required := required, default := .nil, items := some itemsType }
    match parameterNameValidator params name, defaultValueValidator lib param defaultStr with
    | none, none =>
      let defaultVal : Except CollectError GoAny :=
        if defaultStr ≠ [] then castParamStrToType lib defaultStr param
        else
          match lib.ensureType type .nil with
          | .error msg => .error (.cast msg)
          | .ok d => .ok (if type = .number then .str "0.0".toList else d)
      match defaultVal with
      | .error e => .error e
      | .ok d =>
        let param :=
          { param with
            default := d
            items := if type ≠ .array then none else some itemsType
            name := stringsToLower name }
        let params := params ++ [param]
        match rest with
        | .confirm true :: rest2 => collectParameters lib params rest2
        | .confirm false :: rest2 => .ok (params, rest2)
        | _ => .error .form
    | _, _ => .error .form
  | _ => .error .form

/-- Go `metadataCollector.collectContainerConfig` (metadata.go:398-461). -/
def collectContainerConfig : List FormAnswer →
    Except CollectError (DefRuntimeContainer × List FormAnswer)
  | .container image envStr extraHostsStr :: rest =>
    if image = [] then .error .form
    else
      let extraHosts :=
        if extraHostsStr ≠ [] then (stringsSplit extraHostsStr ',').map stringsTrimSpace else []
      .ok ({ image := image, env := parseEnv envStr, extraHosts := extraHosts }, rest)
  | _ => .error .form

/-- Go `metadataCollector.collectShellConfig` (metadata.go:464-502). -/
def collectShellConfig : List FormAnswer →
    Except CollectError (DefRuntimeShell × List FormAnswer)
  | .shell envStr :: rest => .ok ({ env := parseEnv envStr }, rest)
  | _ => .error .form

/-- Go `metadataCollector.collectRuntimeData` (metadata.go:224-241). -/
def collectRuntimeData (values : TemplateValues) (script : List FormAnswer) :
    Except CollectError (TemplateValues × List FormAnswer) :=
  if values.runtime.type = runtimeContainer then
    match collectContainerConfig script with
    | .error e => .error e
    | .ok (container, rest) =>
      .ok ({ values with runtime := { values.runtime with container := container } }, rest)
  else if values.runtime.type = runtimeShell then
    match collectShellConfig script with
    | .error e => .error e
    | .ok (shell, rest) =>
      .ok ({ values with runtime := { values.runtime with shell := shell } }, rest)
  else .ok (values, script)

/-- The confirm-then-collect step that `attachInteractiveForm` runs for the
arguments and again for the options (metadata.go:169-213). -/
def confirmAndCollect (lib : JsonSchema) (params : List DefParameter) :
    List FormAnswer → Except CollectError (List DefParameter × List FormAnswer)
  | .confirm true :: rest => collectParameters lib params rest
  | .confirm false :: rest => .ok (params, rest)
  | _ => .error .form

/-- Go `metadataCollector.attachInteractiveForm` (metadata.go:76-222). -/
def MetadataCollector.attachInteractiveForm (m : MetadataCollector) (lib : JsonSchema)
    (values : TemplateValues) : List FormAnswer → Except CollectError TemplateValues
  | .main title description aliasesStr runtimeType wd preset id :: rest =>
    if stringsTrimSpace title = [] then .error .form
    else if (actionIdValidator m id).isSome then .error .form
    else
      let values : TemplateValues :=
        { values with
          action :=
            { values.action with
              title := title
              description := description
              aliases := parseAliases aliasesStr values.action.aliases },
          runtime := { values.runtime with type := runtimeType },
          wd := wd, containerPreset := preset, id := id }
      match confirmAndCollect lib values.action.arguments rest with
      | .error e => .error e
      | .ok (arguments, rest) =>
        let values := { values with action := { values.action with arguments := arguments } }
        match confirmAndCollect lib values.action.options rest with
        | .error e => .error e
        | .ok (options, rest) =>
          let values := { values with action := { values.action with options := options } }
          match collectRuntimeData values rest with
          | .error e => .error e
          | .ok (values, _) => .ok values
  | _ => .error .form

/-- Go `metadataCollector.collectActionInfo` (metadata.go:55-74): the returned
pointer (`none` is `nil`) and the error (`none` is `nil`). -/
def MetadataCollector.collectActionInfo (m : MetadataCollector) (lib : JsonSchema)
    (script : List FormAnswer) (values : TemplateValues) :
    Option TemplateValues × Option CollectError :=
  let collected : Except CollectError TemplateValues :=
    if m.interactive then m.attachInteractiveForm lib values script else .ok values
  match collected with
  | .error e => (none, some e)
  | .ok values =>
    let values :=
      if values.runtime.type = runtimeContainer then
        let container := { values.runtime.container with image := values.id ++ ":latest".toList }
        { values with runtime := { values.runtime with container := container } }
      else values
    match m.validate values with
    | (values, some err) => (some values, some err)
    | (values, none) => (some values, none)

/-! ## Go standard library: packages `path` and `path/filepath` (Unix) -/

/-- The element pass of Go `path.Clean`: empty and `.` elements are dropped,
a `..` element removes the element before it, is dropped at the root and is
kept at the start of a relative path.  `stack` holds the elements kept so
far, the last one first. -/
def cleanElements (rooted : Bool) : List Str → List Str → List Str
  | [], stack => stack.reverse
  | e :: es, stack =>
    if e = [] ∨ e = ".".toList then cleanElements rooted es stack
    else if e = "..".toList then
      match stack with
      | top :: below =>
        if top = "..".toList then cleanElements rooted es (e :: stack)
        else cleanElements rooted es below
      | [] => if rooted then cleanElements rooted es [] else cleanElements rooted es [e]
    else cleanElements rooted es (e :: stack)

/-- Go `path.Clean` and `filepath.Clean`. -/
def pathClean (p : Str) : Str :=
  if p = [] then ".".toList
  else
    let rooted := p.head? = some '/'
    let body := "/".toList.intercalate (cleanElements rooted (p.splitOn '/') [])
    let out := if rooted then '/' :: body else body
    if out = [] then ".".toList else out

/-- Go `path.Join`: the non-empty elements are joined with `/` and cleaned;
no non-empty element gives `""`. -/
def pathJoin (elem : List Str) : Str :=
  if elem.all (fun e => e = []) then []
  else pathClean ("/".toList.intercalate (elem.filter (fun e => e ≠ [])))

/-- Go `filepath.Join` on Unix: the elements from the first non-empty one on
are joined with `/` and cleaned; no non-empty element gives `""`. -/
def filepathJoin (elem : List Str) : Str :=
  match elem.dropWhile (fun e => e = []) with
  | [] => []
  | es => pathClean ("/".toList.intercalate es)

/-- Go `filepath.Dir`. -/
def pathDir (p : Str) : Str :=
  pathClean (p.rdropWhile (fun c => c ≠ '/'))

/-- Go `path.Base`. -/
def pathBase (p : Str) : Str :=
  if p = [] then ".".toList
  else
    let last := (p.rdropWhile (fun c => c = '/')).rtakeWhile (fun c => c ≠ '/')
    if last = [] then "/".toList else last

/-- Go `path.Split`: the path up to and including the last slash, and the rest. -/
def pathSplit (p : Str) : Str × Str :=
  (p.rdropWhile (fun c => c ≠ '/'), p.rtakeWhile (fun c => c ≠ '/'))

/-! ## Go standard library: `path.Match`

`path.Match` works on the bytes of the pattern and of the name, so both are
taken in their UTF-8 encoding here. -/

/-- The UTF-8 encoding of a rune. -/
def utf8Encode (c : Char) : List Nat :=
  let n := c.toNat
  if n < 0x80 then [n]
  else if n < 0x800 then [0xC0 + n / 0x40, 0x80 + n % 0x40]
  else if n < 0x10000 then [0xE0 + n / 0x1000, 0x80 + n / 0x40 % 0x40, 0x80 + n % 0x40]
  else [0xF0 + n / 0x40000, 0x80 + n / 0x1000 % 0x40, 0x80 + n / 0x40 % 0x40, 0x80 + n % 0x40]

/-- The bytes of a Go string. -/
def utf8Bytes (s : Str) : List Nat :=
  s.flatMap utf8Encode

/-- A UTF-8 continuation byte. -/
def isContinuation (b : Nat) : Bool :=
  0x80 ≤ b && b ≤ 0xBF

/-- Go `utf8.DecodeRuneInString`: the first rune of the bytes and its width; a
byte that starts no valid encoding is the rune U+FFFD of width 1, no byte at
all is U+FFFD of width 0. -/
def decodeRune : List Nat → Nat × Nat
  | [] => (0xFFFD, 0)
  | b0 :: rest =>
    if b0 < 0x80 then (b0, 1)
    else if 0xC2 ≤ b0 && b0 ≤ 0xDF then
      match rest with
      | b1 :: _ =>
        if isContinuation b1 then ((b0 - 0xC0) * 0x40 + (b1 - 0x80), 2) else (0xFFFD, 1)
      | _ => (0xFFFD, 1)
    else if 0xE0 ≤ b0 && b0 ≤ 0xEF then
      match rest with
      | b1 :: b2 :: _ =>
        let lo := if b0 = 0xE0 then 0xA0 else 0x80
        let hi := if b0 = 0xED then 0x9F else 0xBF
        if lo ≤ b1 && b1 ≤ hi && isContinuation b2 then
          ((b0 - 0xE0) * 0x1000 + (b1 - 0x80) * 0x40 + (b2 - 0x80), 3)
        else (0xFFFD, 1)
      | _ => (0xFFFD, 1)
    else if 0xF0 ≤ b0 && b0 ≤ 0xF4 then
      match rest with
      | b1 :: b2 :: b3 :: _ =>
        let lo := if b0 = 0xF0 then 0x90 else 0x80
        let hi := if b0 = 0xF4 then 0x8F else 0xBF
        if lo ≤ b1 && b1 ≤ hi && isContinuation b2 && isContinuation b3 then
          ((b0 - 0xF0) * 0x40000 + (b1 - 0x80) * 0x1000 + (b2 - 0x80) * 0x40 + (b3 - 0x80), 4)
        else (0xFFFD, 1)
      | _ => (0xFFFD, 1)
    else (0xFFFD, 1)

/-- The scan of `scanChunk` (path/match.go) for the end of a chunk: the index
of the first `*` outside a character class, or the length of the pattern. -/
def scanChunkEnd : Bool → List Nat → Nat
  | _, [] => 0
  | inrange, c :: rest =>
    if c = 92 then -- a backslash: the next byte is skipped
      match rest with
      | [] => 1
      | _ :: rest2 => 2 + scanChunkEnd inrange rest2
    else if c = 91 then 1 + scanChunkEnd true rest -- [
    else if c = 93 then 1 + scanChunkEnd false rest -- ]
    else if c = 42 then (if inrange then 1 + scanChunkEnd inrange rest else 0) -- *
    else 1 + scanChunkEnd inrange rest

/-- Go `scanChunk` (path/match.go): whether the pattern starts with stars,
the chunk after them up to the next star outside a class, and the rest. -/
def scanChunk (pattern : List Nat) : Bool × List Nat × List Nat :=
  let p := pattern.dropWhile (fun c => c = 42)
  let i := scanChunkEnd false p
  (pattern.head? = some 42, p.take i, p.drop i)

/-- Go `getEsc` (path/match.go): a possibly escaped rune of a character
class and the chunk after it; an error is `ErrBadPattern`. -/
def getEsc (chunk : List Nat) : Except Unit (Nat × List Nat) :=
  match chunk with
  | [] => .error ()
  | c :: rest =>
    if c = 45 || c = 93 then .error () -- a hyphen or a closing bracket
    else if c = 92 && rest = [] then .error ()
    else
      let chunk1 := if c = 92 then rest else chunk
      let nchunk := chunk1.drop (decodeRune chunk1).2
      if ((decodeRune chunk1).1 = 0xFFFD && (decodeRune chunk1).2 = 1) || nchunk = [] then
        .error ()
      else .ok ((decodeRune chunk1).1, nchunk)

/-- The loop over the ranges of a character class in `matchChunk`
(path/match.go): whether the rune `r` is in one of them, and the chunk after
the closing bracket.  Every round takes at least one byte of the chunk, which
bounds the rounds. -/
def classRanges (r : Nat) : Nat → List Nat → Nat → Bool → Except Unit (Bool × List Nat)
  | 0, _, _, _ => .error ()
  | fuel + 1, chunk, nrange, isMatch =>
    if chunk.head? = some 93 && 0 < nrange then .ok (isMatch, chunk.tail)
    else
      match getEsc chunk with
      | .error e => .error e
      | .ok (lo, chunk) =>
        if chunk.head? = some 45 then
          match getEsc chunk.tail with
          | .error e => .error e
          | .ok (hi, chunk) =>
            classRanges r fuel chunk (nrange + 1) (isMatch || (lo ≤ r && r ≤ hi))
        else classRanges r fuel chunk (nrange + 1) (isMatch || (lo ≤ r && r ≤ lo))

/-- The loop of Go `matchChunk` (path/match.go): `some rest` when the chunk
matches the beginning of `s`, `none` when it does not; an error is
`ErrBadPattern`.  Every round takes at least one byte of the chunk. -/
def matchChunkLoop : Nat → List Nat → List Nat → Bool → Except Unit (Option (List Nat))
  | 0, _, _, _ => .error ()
  | fuel + 1, chunk, s, failed0 =>
    match chunk with
    | [] => .ok (if failed0 then none else some s)
    | c :: rest =>
      let failed := failed0 || s.isEmpty
      if c = 91 then -- a character class
        let r := if failed then 0 else (decodeRune s).1
        let s1 := if failed then s else s.drop (decodeRune s).2
        let negated := rest.head? = some 94
        let chunk1 := if negated then rest.tail else rest
        match classRanges r (chunk1.length + 1) chunk1 0 false with
        | .error e => .error e
        | .ok (isMatch, chunk2) =>
          matchChunkLoop fuel chunk2 s1 (failed || (isMatch == decide negated))
      else if c = 63 then -- a question mark
        matchChunkLoop fuel rest (if failed then s else s.drop (decodeRune s).2)
          (failed || s.head? = some 47)
      else if c = 92 then -- a backslash
        match rest with
        | [] => .error ()
        | c2 :: rest2 =>
          matchChunkLoop fuel rest2 (if failed then s else s.tail) (failed || s.head? ≠ some c2)
      else
        matchChunkLoop fuel rest (if failed then s else s.tail) (failed || s.head? ≠ some c)

/-- Go `matchChunk` (path/match.go). -/
def matchChunk (chunk s : List Nat) : Except Unit (Option (List Nat)) :=
  matchChunkLoop (chunk.length + 1) chunk s false

/-- The loop of `path.Match` that looks for a match of the chunk after a star,
skipping one more byte of the name in every round, never a slash; `last` says
that the chunk is the last of the pattern. -/
def matchAfterStar (chunk : List Nat) (last : Bool) : List Nat → Except Unit (Option (List Nat))
  | [] => .ok none
  | b :: name =>
    if b = 47 then .ok none
    else
      match matchChunk chunk name with
      | .error e => .error e
      | .ok (some t) =>
        if last && t ≠ [] then matchAfterStar chunk last name else .ok (some t)
      | .ok none => matchAfterStar chunk last name

/-- The check at the end of `path.Match` that the rest of the pattern is well
formed. -/
def checkPattern : Nat → List Nat → Except Unit Unit
  | 0, _ => .ok ()
  | fuel + 1, pattern =>
    if pattern = [] then .ok ()
    else
      match matchChunk (scanChunk pattern).2.1 [] with
      | .error e => .error e
      | .ok _ => checkPattern fuel (scanChunk pattern).2.2

/-- The loop of Go `path.Match` over the chunks of the pattern.  Every round
takes at least one byte of the pattern. -/
def pathMatchLoop : Nat → List Nat → List Nat → Except Unit Bool
  | 0, _, _ => .error ()
  | fuel + 1, pattern, name =>
    if pattern = [] then .ok (name = [])
    else
      let star := (scanChunk pattern).1
      let chunk := (scanChunk pattern).2.1
      let rest := (scanChunk pattern).2.2
      if star && chunk = [] then .ok (!name.contains 47)
      else
        match matchChunk chunk name with
        | .error e => .error e
        | .ok found =>
          match (match found with
                 | some t => if t = [] || rest ≠ [] then some t else none
                 | none => none) with
          | some t => pathMatchLoop fuel rest t
          | none =>
            match (if star then matchAfterStar chunk (rest = []) name else .ok none) with
            | .error e => .error e
            | .ok (some t) => pathMatchLoop fuel rest t
            | .ok none =>
              match checkPattern rest.length rest with
              | .error e => .error e
              | .ok _ => .ok false

/-- Go `path.Match(pattern, name)`; an error is `ErrBadPattern`. -/
def pathMatch (pattern name : Str) : Except Unit Bool :=
  pathMatchLoop ((utf8Bytes pattern).length + 1) (utf8Bytes pattern) (utf8Bytes name)

/-! ## The output file system (package `os`) -/

/-- The part of the file system the generator can see: the directories and
the regular files with their contents, by cleaned path.  The working directory
`.` and the root `/` always exist. -/
structure FileSys where
  dirs : List Str
  files : List (Str × Str)
  deriving DecidableEq, Repr

/-- The warnings the deferred cleanup of `generate` prints
(generator.go:50, 61). -/
inductive Warning where
  | notRemovingOutside (actionDir : Str)
  | cleanupFailed (actionDir : Str)
  deriving DecidableEq, Repr

/-- The state the generator works on: the file system, the pending I/O
faults (one entry is taken by every call that changes the file system; `true`
makes that call fail) and the warnings printed so far. -/
structure World where
  fs : FileSys
  faults : List Bool
  warnings : List Warning
  deriving DecidableEq, Repr

/-- Whether `p` is an existing directory: `os.Stat(p)` succeeds and
`info.IsDir()` holds. -/
def FileSys.isDir (fs : FileSys) (p : Str) : Bool :=
  p = ".".toList || p = "/".toList || fs.dirs.contains p

/-- Whether `p` is an existing regular file. -/
def FileSys.isFile (fs : FileSys) (p : Str) : Bool :=
  fs.files.any (fun f => f.1 = p)

/-- Whether `q` is `p` or lies below `p`. -/
def isUnder (p q : Str) : Bool :=
  q = p || (p ++ "/".toList).isPrefixOf q

/-- The proper ancestors of a cleaned path that `os.MkdirAll` creates when
they are missing: its proper prefixes that end right before a `/`. -/
def ancestorsOf (p : Str) : List Str :=
  p.inits.filter (fun q => q ≠ [] && q ≠ p && (p.drop q.length).head? = some '/')

/-- Takes the next pending fault. -/
def World.nextFault (w : World) : Bool × World :=
  match w.faults with
  | [] => (false, w)
  | f :: rest => (f, { w with faults := rest })

/-- Adds a warning to the log. -/
def World.warn (w : World) (msg : Warning) : World :=
  { w with warnings := w.warnings ++ [msg] }

/-- The errors of the generator. -/
inductive GenError where
  | mkdir (path : Str)
  | readDir (dirPath : Str)
  | noMatch (pattern : Str)
  | badPattern
  | read (file : Str)
  | parse (file : Str)
  | definition (e : GenError)
  | create (path : Str)
  | execute (name : Str)
  | remove (path : Str)
  | depthExceeded
  deriving DecidableEq, Repr

/-- Go `os.MkdirAll(path, 0750)`: nothing to do when the directory exists;
otherwise the missing ancestors and the directory are created, which fails
for the empty path and when one of them is a regular file. -/
def osMkdirAll (w : World) (path : Str) : Option GenError × World :=
  if w.fs.isDir path then (none, w)
  else
    let (fault, w) := w.nextFault
    if fault || path = [] || (ancestorsOf path ++ [path]).any w.fs.isFile then
      (some (.mkdir path), w)
    else
      let missing := (ancestorsOf path ++ [path]).filter (fun d => !w.fs.isDir d)
      (none, { w with fs := { w.fs with dirs := w.fs.dirs ++ missing } })

/-- Go `os.Create(path)`: the file is created or truncated, which fails when
its directory is missing or the path is a directory. -/
def osCreate (w : World) (path : Str) : Option GenError × World :=
  let (fault, w) := w.nextFault
  if fault || w.fs.isDir path || !w.fs.isDir (pathDir path) then (some (.create path), w)
  else
    let others := w.fs.files.filter (fun f => f.1 ≠ path)
    (none, { w with fs := { w.fs with files := others ++ [(path, [])] } })

/-- The writes of one `Template.Execute` to the file opened at `path`: the
file then holds `content`; a failed write leaves it as it was. -/
def osWrite (w : World) (path content : Str) : Option GenError × World :=
  let (fault, w) := w.nextFault
  if fault then (some (.execute path), w)
  else
    let others := w.fs.files.filter (fun f => f.1 ≠ path)
    (none, { w with fs := { w.fs with files := others ++ [(path, content)] } })

/-- Go `os.RemoveAll(path)`: the path and everything below it is removed; a
path that does not exist is no error; `.` and `/` cannot be removed.  A failed
call is taken to have removed nothing. -/
def osRemoveAll (w : World) (path : Str) : Option GenError × World :=
  let (fault, w) := w.nextFault
  if fault || path = ".".toList || path = "/".toList then (some (.remove path), w)
  else
    (none, { w with fs :=
      { dirs := w.fs.dirs.filter (fun d => !isUnder path d),
        files := w.fs.files.filter (fun f => !isUnder path f.1) } })

/-! ## The template store (`embed.FS`) and package `text/template` -/

/-- The tree `parse.Parse` builds for one template: what `Execute` writes for
given values, with whether it ran to the end, and whether the tree is empty
(`parse.IsEmptyTree`).  The calls a tree makes of other templates are part of
what it writes. -/
structure Tree where
  execute : TemplateValues → Str × Bool
  isEmpty : Bool

/-- What `Template.Parse` makes of the text of a file: the tree of the text
itself and the trees of its `define` blocks with their names. -/
structure ParsedText where
  root : Tree
  defines : List (Str × Tree)

/-- A template of a template set: its name (for a file, the base name of the
file) and what `Execute` writes for given values, with whether it ran to the
end. -/
structure Template where
  name : Str
  execute : TemplateValues → Str × Bool

/-- A node of the embedded file system: a file, with what its text parses to
(`none` when it does not parse), or a directory with its entries in the order
`fs.ReadDir` returns them. -/
inductive FsNode where
  | file (name : Str) (parsed : Option ParsedText)
  | dir (name : Str) (entries : List FsNode)

/-- The name of an entry, `entry.Name()`. -/
def FsNode.name : FsNode → Str
  | .file name _ => name
  | .dir name _ => name

/-- Whether an entry is a directory, `entry.IsDir()`. -/
def FsNode.isDir : FsNode → Bool
  | .file _ _ => false
  | .dir _ _ => true

mutual
/-- The number of directory levels below a node. -/
def FsNode.height : FsNode → Nat
  | .file _ _ => 0
  | .dir _ entries => heightOfEntries entries + 1
/-- The number of directory levels in a list of entries. -/
def heightOfEntries : List FsNode → Nat
  | [] => 0
  | e :: es => max e.height (heightOfEntries es)
end

/-- Go `fs.ValidPath` for a path other than `.`, on its elements. -/
def validElement (e : Str) : Bool :=
  e ≠ [] && e ≠ ".".toList && e ≠ "..".toList && !e.contains '/'

/-- The directory reached from `entries` along the elements of a path. -/
def lookupDir : List FsNode → List Str → Option (List FsNode)
  | entries, [] => some entries
  | entries, e :: es =>
    match entries.find? (fun n => n.name = e) with
    | some (.dir _ sub) => lookupDir sub es
    | _ => none

/-- Go `fs.ReadDir(templateFS, path)`, `none` for an error: the path has to be
`.` or a valid slash-separated path that names a directory. -/
def fsReadDir (templateFS : List FsNode) (path : Str) : Option (List FsNode) :=
  if path = ".".toList then some templateFS
  else if (path.splitOn '/').all validElement then lookupDir templateFS (path.splitOn '/')
  else none

/-- The entry a path names, from `entries` along the elements of the path. -/
def lookupNode (entries : List FsNode) (es : List Str) : Option FsNode :=
  match es.getLast? with
  | none => none
  | some last =>
    match lookupDir entries es.dropLast with
    | none => none
    | some sub => sub.find? (fun n => n.name = last)

/-- Go `fs.Stat(templateFS, path)`, as whether it succeeds: the path has to be
`.` or a valid slash-separated path that names a file or a directory. -/
def fsStat (templateFS : List FsNode) (path : Str) : Bool :=
  path = ".".toList ||
    ((path.splitOn '/').all validElement && (lookupNode templateFS (path.splitOn '/')).isSome)

/-- Go `fs.ReadFile(templateFS, path)`, `none` for an error: the path has to
be a valid slash-separated path that names a file.  The text that is read is
given by what it parses to. -/
def fsReadFile (templateFS : List FsNode) (path : Str) : Option (Option ParsedText) :=
  if (path.splitOn '/').all validElement then
    match lookupNode templateFS (path.splitOn '/') with
    | some (.file _ parsed) => some parsed
    | _ => none
  else none

/-- Go `hasMeta` (io/fs/glob.go). -/
def hasMeta (path : Str) : Bool :=
  path.any (fun c => c = '*' || c = '?' || c = '[' || c = '\\')

/-- Go `cleanGlobPath` (io/fs/glob.go). -/
def cleanGlobPath (path : Str) : Str :=
  if path = [] then ".".toList else path.dropLast

/-- The loop over the entries in Go `glob` (io/fs/glob.go): the entries whose
name matches the pattern are appended to `m` with the directory in front. -/
def globEntries (dir pattern : Str) : List FsNode → List Str → Except GenError (List Str)
  | [], m => .ok m
  | info :: infos, m =>
    match pathMatch pattern info.name with
    | .error _ => .error .badPattern
    | .ok matched =>
      globEntries dir pattern infos (if matched then m ++ [pathJoin [dir, info.name]] else m)

/-- Go `glob` (io/fs/glob.go): the entries of `dir` that match `pattern`,
appended to `m`; a directory that cannot be read adds nothing. -/
def glob (templateFS : List FsNode) (dir pattern : Str) (m : List Str) :
    Except GenError (List Str) :=
  match fsReadDir templateFS dir with
  | none => .ok m
  | some infos => globEntries dir pattern infos m

/-- The loop over the matched directories in Go `globWithLimit`
(io/fs/glob.go). -/
def globAll (templateFS : List FsNode) (file : Str) : List Str → List Str →
    Except GenError (List Str)
  | [], m => .ok m
  | d :: ds, m =>
    match glob templateFS d file m with
    | .error e => .error e
    | .ok m2 => globAll templateFS file ds m2

/-- Go `globWithLimit` (io/fs/glob.go).  The recursive call is on a proper
prefix of the pattern, so the length of the pattern bounds the recursion. -/
def globWithLimit (templateFS : List FsNode) : Nat → Str → Nat → Except GenError (List Str)
  | 0, _, _ => .error .badPattern
  | fuel + 1, pattern, depth =>
    if 10000 < depth then .error .badPattern
    else
      match pathMatch pattern [] with
      | .error _ => .error .badPattern
      | .ok _ =>
        if !hasMeta pattern then
          if fsStat templateFS pattern then .ok [pattern] else .ok []
        else
          let dir := cleanGlobPath (pathSplit pattern).1
          let file := (pathSplit pattern).2
          if !hasMeta dir then glob templateFS dir file []
          else if dir = pattern then .error .badPattern
          else
            match globWithLimit templateFS fuel dir (depth + 1) with
            | .error e => .error e
            | .ok m => globAll templateFS file m []

/-- Go `fs.Glob(templateFS, pattern)`. -/
def fsGlob (templateFS : List FsNode) (pattern : Str) : Except GenError (List Str) :=
  globWithLimit templateFS (pattern.length + 1) pattern 0

/-- Go `Template.associate` and `AddParseTree` (text/template): the tree is
entered in the set under the name, in the place of a template of that name; an
empty tree does not replace a template that is there.  The set is kept in the
order in which the names came in. -/
def associate (set : List Template) (name : Str) (tree : Tree) : List Template :=
  if set.any (fun t => t.name = name) then
    if tree.isEmpty then set
    else set.map (fun t => if t.name = name then { name := name, execute := tree.execute } else t)
  else set ++ [{ name := name, execute := tree.execute }]

/-- Go `Template.Parse` on the text of a file, for the template `name` of the
set: the tree of the text and the trees of its `define` blocks are entered. -/
def addParsed (set : List Template) (name : Str) (parsed : ParsedText) : List Template :=
  parsed.defines.foldl (fun acc d => associate acc d.1 d.2) (associate set name parsed.root)

/-- The constant `templatesFilesDir` (templates.go:20). -/
def templatesFilesDir : Str := "templates/files".toList

/-- The constant `templatesDefinitionDir` (templates.go:21). -/
def templatesDefinitionDir : Str := "templates/definition".toList

/-! ## templates.go: the template manager -/

/-- The loop over the entries in `getTemplateSubdirectories`
(templates.go:34-44); `recurse` is the recursive call and `directories` the
slice built so far. -/
def subdirectoriesLoop (recurse : Str → Except GenError (List Str)) (dirPath : Str) :
    List FsNode → List Str → Except GenError (List Str)
  | [], directories => .ok directories
  | entry :: entries, directories =>
    if entry.isDir then
      let subDirPath := pathJoin [dirPath, entry.name]
      match recurse subDirPath with
      | .error err => .error err
      | .ok subDirs =>
        subdirectoriesLoop recurse dirPath entries (directories ++ [subDirPath] ++ subDirs)
    else subdirectoriesLoop recurse dirPath entries directories

/-- Go `templateManager.getTemplateSubdirectories` (templates.go:27-49), with
a bound on the depth of the recursion. -/
def getTemplateSubdirectories (templateFS : List FsNode) :
    Nat → Str → Except GenError (List Str)
  | 0, _ => .error .depthExceeded
  | depth + 1, dirPath =>
    match fsReadDir templateFS (filepathJoin [templatesFilesDir, dirPath]) with
    | none => .error (.readDir dirPath)
    | some entries =>
      match subdirectoriesLoop (getTemplateSubdirectories templateFS depth) dirPath entries [] with
      | .error err => .error err
      | .ok directories => .ok (directories ++ [dirPath])

/-- Go `strings.Replace(s, ".tmpl", "", 1)`: the first occurrence of `old` is
removed. -/
def removeFirst (old : Str) : Str → Str
  | [] => []
  | c :: rest =>
    if old.isPrefixOf (c :: rest) then (c :: rest).drop old.length
    else c :: removeFirst old rest

/-- Go `templateManager.renderTemplates` (templates.go:51-67). -/
def renderTemplates (output : Str) (values : TemplateValues) :
    List Template → World → Option GenError × World
  | [], w => (none, w)
  | t :: templates, w =>
    let outputPath := pathClean (filepathJoin [output, removeFirst ".tmpl".toList t.name])
    match osCreate w outputPath with
    | (some err, w) => (some err, w)
    | (none, w) =>
      match osWrite w outputPath (t.execute values).1 with
      | (some err, w) => (some err, w)
      | (none, w) =>
        if (t.execute values).2 then renderTemplates output values templates w
        else (some (.execute t.name), w)

/-- Go `parseFiles` (text/template/helper.go): every file is read and parsed
under its base name into the set. -/
def parseFiles (templateFS : List FsNode) : List Str → List Template →
    Except GenError (List Template)
  | [], set => .ok set
  | filename :: filenames, set =>
    match fsReadFile templateFS filename with
    | none => .error (.read filename)
    | some none => .error (.parse filename)
    | some (some parsed) =>
      parseFiles templateFS filenames (addParsed set (pathBase filename) parsed)

/-- The loop over the patterns in Go `parseFS` (text/template/helper.go): the
files the patterns match; a pattern that matches nothing is the error
`template: pattern matches no files`. -/
def globPatterns (templateFS : List FsNode) : List Str → Except GenError (List Str)
  | [] => .ok []
  | pattern :: patterns =>
    match fsGlob templateFS pattern with
    | .error e => .error e
    | .ok [] => .error (.noMatch pattern)
    | .ok list =>
      match globPatterns templateFS patterns with
      | .error e => .error e
      | .ok filenames => .ok (list ++ filenames)

/-- Go `Template.ParseFS(templateFS, patterns...)` on a new template followed
by `Templates()`: the templates of the set.  Go leaves the order of
`Templates()` open; here it is the order in which the names came in. -/
def parseFS (templateFS : List FsNode) (patterns : List Str) : Except GenError (List Template) :=
  match globPatterns templateFS patterns with
  | .error e => .error e
  | .ok filenames => parseFiles templateFS filenames []

/-- The line `getDefinitionTemplate` formats for a template name
(templates.go:83). -/
def templateDirective (name : Str) : Str :=
  "\x7b\x7btemplate \x22".toList ++ name ++ "\x22 .\x7d\x7d".toList

/-- Insertion of a template into a list sorted by directive (`slices.Sort` on
the lines of `getDefinitionTemplate`, templates.go:86). -/
def insertByName (t : Template) : List Template → List Template
  | [] => [t]
  | u :: us =>
    if templateDirective t.name ≤ templateDirective u.name then t :: u :: us
    else u :: insertByName t us

/-- Whether a template name stands for itself between the quotes of a
directive: no quote, no backslash, no line break. -/
def plainName (name : Str) : Bool :=
  name.all (fun c => c ≠ '\x22' && c ≠ '\\' && c ≠ '\n')

/-- One run through the lines of the combined template built by
`getDefinitionTemplate`: the named templates run in order, their outputs on
lines of their own, up to the first one that fails.  A line that names
`action.yaml` names the combined template itself; `self` is what that call
writes. -/
def executeAll (values : TemplateValues) (self : Unit → Str × Bool) : List Template → Str × Bool
  | [] => ([], true)
  | [t] => if t.name = "action.yaml".toList then self () else t.execute values
  | t :: rest =>
    let out := if t.name = "action.yaml".toList then self () else t.execute values
    if out.2 then (out.1 ++ "\n".toList ++ (executeAll values self rest).1,
      (executeAll values self rest).2)
    else out

/-- The execution of the combined template, `depth` counting the levels of
template calls that may still be entered. -/
def executeCombined (values : TemplateValues) (sorted : List Template) : Nat → Str × Bool
  | 0 => ([], false)
  | depth + 1 => executeAll values (fun _ => executeCombined values sorted depth) sorted

/-- The limit of `text/template` on nested template calls (`maxExecDepth`):
the levels 0 to 100000 are entered. -/
def maxExecDepth : Nat := 100000

/-- Go `templateManager.getDefinitionTemplate` (templates.go:70-95).  The
combined text puts every name between quotes as it is; for a name that does
not stand for itself there the text is taken not to parse. -/
def getDefinitionTemplate (templateFS : List FsNode) (runtimeType : Str) :
    Except GenError Template :=
  match parseFS templateFS
      [filepathJoin [templatesDefinitionDir, "action.yaml.tmpl".toList],
       filepathJoin [templatesDefinitionDir, runtimeType ++ ".yaml.tmpl".toList]] with
  | .error err => .error err
  | .ok ts =>
    let sorted := ts.foldr insertByName []
    if sorted.all (fun t => plainName t.name) then
      .ok { name := "action.yaml".toList,
            execute := fun values => executeCombined values sorted (maxExecDepth + 1) }
    else .error (.parse "action.yaml".toList)

/-- Go `templateManager.getRuntimeTemplates` (templates.go:97-109). -/
def getRuntimeTemplates (templateFS : List FsNode) (dir : Str) : Except GenError (List Template) :=
  parseFS templateFS [filepathJoin [templatesFilesDir, dir, "*.tmpl".toList]]

/-! ## generator.go: the directory manager and the generator -/

/-- Go `directoryManager` (generator.go:134-136). -/
structure DirectoryManager where
  pathPrefix : Str
  deriving DecidableEq, Repr

/-- Go `generator` (generator.go:21-24); the template manager has no state,
the embedded template store it reads is kept with it. -/
structure Generator where
  dirManager : DirectoryManager
  templateFS : List FsNode

/-- Go `newGenerator` (generator.go:27-32). -/
def newGenerator (templateFS : List FsNode) (pathPrefix : Str) : Generator :=
  { dirManager := { pathPrefix := pathPrefix }, templateFS := templateFS }

/-- Go `directoryManager.getActionDir` (generator.go:145-149). -/
def DirectoryManager.getActionDir (dm : DirectoryManager) (actionID : Str) : Str :=
  let safeID := sanitizeForPath actionID
  filepathJoin [dm.pathPrefix, safeID]

/-- Go `ensureDir` (generator.go:160-166). -/
def ensureDir (w : World) (dirPath : Str) : Option GenError × World :=
  osMkdirAll w dirPath

/-- Go `directoryManager.ensureActionDir` (generator.go:153-158). -/
def DirectoryManager.ensureActionDir (dm : DirectoryManager) (w : World) (actionID : Str) :
    Str × Option GenError × World :=
  let actionDir := dm.getActionDir actionID
  (actionDir, ensureDir w actionDir)

/-- Go `generator.generateDefinition` (generator.go:87-95). -/
def Generator.generateDefinition (g : Generator) (outputDir : Str) (values : TemplateValues)
    (w : World) : Option GenError × World :=
  match getDefinitionTemplate g.templateFS values.runtime.type with
  | .error err => (some (.definition err), w)
  | .ok yamlTemplate => renderTemplates outputDir values [yamlTemplate] w

/-- The loop over the directories in `generateFiles` (generator.go:109-128). -/
def Generator.generateFilesLoop (g : Generator) (output filesDir : Str) (values : TemplateValues) :
    List Str → World → Option GenError × World
  | [], w => (none, w)
  | d :: dirs, w =>
    let outputDir := filepathJoin [output, stringsTrimPrefix d filesDir]
    match ensureDir w outputDir with
    | (some err, w) => (some err, w)
    | (none, w) =>
      match getRuntimeTemplates g.templateFS d with
      | .error (.noMatch _) => g.generateFilesLoop output filesDir values dirs w
      | .error err => (some err, w)
      | .ok templates =>
        match renderTemplates outputDir values templates w with
        | (some err, w) => (some err, w)
        | (none, w) => g.generateFilesLoop output filesDir values dirs w

/-- The directory of the files namespace `generateFiles` starts from
(generator.go:98-101). -/
def filesDirOf (values : TemplateValues) : Str :=
  if values.runtime.type = runtimeContainer then
    values.runtime.type ++ "/".toList ++ values.containerPreset
  else values.runtime.type

/-- The directories `generateFiles` walks (generator.go:103-108): the result
of `getTemplateSubdirectories` with `filesDir` appended.  The recursion depth
is bounded by the height of the store. -/
def Generator.resolveDirs (g : Generator) (values : TemplateValues) : Except GenError (List Str) :=
  let filesDir := filesDirOf values
  match getTemplateSubdirectories g.templateFS (heightOfEntries g.templateFS + 1) filesDir with
  | .error err => .error err
  | .ok dirs => .ok (dirs ++ [filesDir])

/-- Go `generator.generateFiles` (generator.go:97-131). -/
def Generator.generateFiles (g : Generator) (output : Str) (values : TemplateValues)
    (w : World) : Option GenError × World :=
  match g.resolveDirs values with
  | .error err => (some err, w)
  | .ok dirs => g.generateFilesLoop output (filesDirOf values) values dirs w

/-- The deferred function of `generate` (generator.go:45-64). -/
def Generator.cleanup (g : Generator) (actionDir : Str) (success : Bool) (w : World) : World :=
  if !success && actionDir ≠ [] then
    let expectedPrefix := g.dirManager.pathPrefix
    if !stringsHasPrefix actionDir expectedPrefix then w.warn (.notRemovingOutside actionDir)
    else if !w.fs.isDir actionDir then w
    else
      match osRemoveAll w actionDir with
      | (some _, w) => w.warn (.cleanupFailed actionDir)
      | (none, w) => w
  else w

/-- Go `generator.generate` (generator.go:34-85): the returned error and the
state after the deferred function has run. -/
def Generator.generate (g : Generator) (values : TemplateValues) (w : World) :
    Option GenError × World :=
  match g.dirManager.ensureActionDir w values.id with
  | (_, some err, w) => (some err, w)
  | (actionDir, none, w) =>
    match g.generateDefinition actionDir values w with
    | (some err, w) => (some err, g.cleanup actionDir false w)
    | (none, w) =>
      match g.generateFiles actionDir values w with
      | (some err, w) => (some err, g.cleanup actionDir false w)
      | (none, w) => (none, g.cleanup actionDir true w)

/-! ## plugin.go: the scaffold action -/

/-- Go `scaffoldAction` (plugin.go:68-78). -/
structure ScaffoldAction where
  manager : ActionManager
  runtime : Str
  id : Str
  title : Str
  outputDir : Str
  interactive : Bool
  containerPreset : Str

/-- Go `scaffoldAction.getDefaultValues` (plugin.go:80-101). -/
def ScaffoldAction.getDefaultValues (s : ScaffoldAction) : TemplateValues :=
  { action := { title := s.title, description := [], aliases := [], arguments := [], options := [] },
    runtime := { type := s.runtime, container := { image := [], env := [], extraHosts := [] },
                 shell := { env := [] } },
    wd := [],
    id := s.id,
    containerPreset := s.containerPreset }

/-- The errors of `scaffoldAction.run`. -/
inductive RunError where
  | collect (e : CollectError)
  | generate (e : GenError)
  deriving DecidableEq, Repr

/-- The output root `run` hands to `newGenerator` (plugin.go:112-118). -/
def ScaffoldAction.outputRoot (s : ScaffoldAction) (values : TemplateValues) : Str :=
  if values.runtime.type = runtimePlugin then filepathJoin [s.outputDir, "plugins".toList]
  else filepathJoin [s.outputDir, "actions".toList]

/-- Go `scaffoldAction.run` (plugin.go:104-122). -/
def ScaffoldAction.run (s : ScaffoldAction) (lib : JsonSchema) (templateFS : List FsNode)
    (script : List FormAnswer) (w : World) : Option RunError × World :=
  let defaults := s.getDefaultValues
  let metadata := newMetadataCollector s.manager s.interactive
  match metadata.collectActionInfo lib script defaults with
  | (_, some err) => (some (.collect err), w)
  | (none, none) => (some (.collect .form), w) -- not reached: a nil result comes with an error
  | (some values, none) =>
    let gen := newGenerator templateFS (s.outputRoot values)
    match gen.generate values w with
    | (some err, w) => (some (.generate err), w)
    | (none, w) => (none, w)

/-! ## Predicates of the statements -/

mutual
/-- Whether every name in a node is a valid path element. -/
def FsNode.namesValid : FsNode → Bool
  | .file name _ => validElement name
  | .dir name entries => validElement name && entriesValid entries
/-- Whether every name in a list of entries is a valid path element, as in any
`embed.FS`. -/
def entriesValid : List FsNode → Bool
  | [] => true
  | e :: es => e.namesValid && entriesValid es
end

/-- A relative path in cleaned form without `..`: valid elements joined by `/`. -/
def joinElements (es : List Str) : Str :=
  "/".toList.intercalate es

/-- The shape of the element stack of `path.Clean` (last element first): no
empty element, no `.`, no `/` inside an element, and `..` only at the start of
a relative path. -/
def stackOK (rooted : Bool) : List Str → Prop
  | [] => True
  | top :: below =>
    top ≠ [] ∧ top ≠ ".".toList ∧ '/' ∉ top ∧
    (top = "..".toList → rooted = false ∧ ∀ e ∈ below, e = "..".toList) ∧
    stackOK rooted below

/-! ## Fixtures for the concrete scenarios -/

/-- A template file that parses and always writes `out`. -/
def Fixture.tmpl (out : String) : Option ParsedText :=
  some { root := { execute := fun _ => (out.toList, true), isEmpty := false }, defines := [] }

/-- A small template store: definition templates for the container and shell
runtimes (none for the plugin runtime), and a files namespace with one
template directly under `container`, the presets `go` (with a subdirectory)
and `py`, and a `shell` directory. -/
def Fixture.templateFS : List FsNode :=
  [.dir "templates".toList
    [.dir "definition".toList
       [.file "action.yaml.tmpl".toList (Fixture.tmpl "action:"),
        .file "container.yaml.tmpl".toList (Fixture.tmpl "runtime: container"),
        .file "shell.yaml.tmpl".toList (Fixture.tmpl "runtime: shell")],
     .dir "files".toList
       [.dir "container".toList
          [.file "base.txt.tmpl".toList (Fixture.tmpl "base"),
           .dir "go".toList
             [.dir "cmd".toList [.file "x.go.tmpl".toList (Fixture.tmpl "x")],
              .file "main.go.tmpl".toList (Fixture.tmpl "go")],
           .dir "py".toList [.file "main.py.tmpl".toList (Fixture.tmpl "py")]],
        .dir "shell".toList [.file "main.sh.tmpl".toList (Fixture.tmpl "sh")]]]]

/-- A conversion library in which a number is a `float64`: `"0"` converts to
the zero bit pattern, every other text to the bit pattern of `1.0`. -/
def Fixture.jsonschema : JsonSchema :=
  { convertStringToType := fun s t =>
      match t with
      | .string => .ok (.str s)
      | .number => .ok (.float64 (if s = "0".toList then 0 else 0x3FF0000000000000))
      | _ => .error "unsupported".toList,
    ensureType := fun _ v => .ok v }

/-- An empty file system, no pending fault, no warning. -/
def Fixture.emptyWorld : World :=
  { fs := { dirs := [], files := [] }, faults := [], warnings := [] }

/-- A non-interactive scaffold request against an empty registry, writing
below `out`. -/
def Fixture.request (runtime id preset : String) : ScaffoldAction :=
  { manager := fun _ => false, runtime := runtime.toList, id := id.toList, title := [],
    outputDir := "out".toList, interactive := false, containerPreset := preset.toList }

/-- A state whose action directory `out/abc` exists already and holds a file
of the user; the next I/O call that changes the file system fails. -/
def Fixture.occupiedWorld : World :=
  { fs := { dirs := ["out".toList, "out/abc".toList],
            files := [("out/abc/keep.txt".toList, "data".toList)] },
    faults := [true], warnings := [] }

/-- An empty file system in which the second I/O call fails: the action
directory is created, the creation of the definition file fails. -/
def Fixture.faultyWorld : World :=
  { fs := { dirs := [], files := [] }, faults := [false, true], warnings := [] }

/-- The template values of the fixture request for a container preset. -/
def Fixture.containerValues (preset : String) : TemplateValues :=
  (Fixture.request "container" "abc" preset).getDefaultValues

/-- A parameter of the given type and item type, otherwise empty. -/
def Fixture.parameter (type : JsonType) (items : Option JsonType) : DefParameter :=
  { name := [], title := [], description := [], type := type, required := false,
    default := .nil, items := items }

/-- A string parameter of the given name, as `collectParameters` stores it. -/
def Fixture.namedParameter (name : String) : DefParameter :=
  { name := name.toList, title := [], description := [], type := .string, required := false,
    default := .nil, items := none }

/-- The answers of a user who adds the arguments `foo` and then `Foo`. -/
def Fixture.twoParameters : List FormAnswer :=
  [.parameter "foo".toList [] [] .string false .string [], .confirm true,
   .parameter "Foo".toList [] [] .string false .string [], .confirm false]

/-- The answers of a user who picks the container runtime with the ID `abc`,
adds no argument and no option, and enters the image `nginx:1.25`. -/
def Fixture.containerSession : List FormAnswer :=
  [.main "Demo".toList [] [] runtimeContainer [] "go".toList "abc".toList,
   .confirm false, .confirm false, .container "nginx:1.25".toList [] []]

/-- The model `collectActionInfo` returns for `Fixture.containerSession`. -/
def Fixture.containerResult : TemplateValues :=
  { action := { title := "Demo".toList, description := [], aliases := [], arguments := [],
                options := [] },
    runtime := { type := runtimeContainer,
                 container := { image := "abc:latest".toList, env := [], extraHosts := [] },
                 shell := { env := [] } },
    wd := [],
    id := "abc".toList,
    containerPreset := "go".toList }

mutual
/-- Whether the directories inside a node have entries with different names. -/
def FsNode.distinct : FsNode → Bool
  | .file _ _ => true
  | .dir _ entries => siblingsDistinct entries
/-- Whether the entries of every directory of the tree have pairwise different
names, as in any file system. -/
def siblingsDistinct : List FsNode → Bool
  | [] => true
  | e :: rest => rest.all (fun n => n.name ≠ e.name) && e.distinct && siblingsDistinct rest
end

mutual
/-- A directory node below the directory with elements `es`, and the
directories below it, each as the list of its path elements. -/
def FsNode.dirsAt (es : List Str) : FsNode → List (List Str)
  | .file _ _ => []
  | .dir name entries => (es ++ [name]) :: descendantDirs (es ++ [name]) entries
/-- The proper descendant directories of the directory with elements `es` and
the given entries, each as the list of its path elements. -/
def descendantDirs (es : List Str) : List FsNode → List (List Str)
  | [] => []
  | e :: rest => e.dirsAt es ++ descendantDirs es rest
end

mutual
/-- What the specification lists for one entry of the directory with elements
`es`: nothing for a file; for a directory its path, followed by the listing of
that directory, which ends with the same path. -/
def FsNode.listing (es : List Str) : FsNode → List Str
  | .file _ _ => []
  | .dir name entries =>
    joinElements (es ++ [name]) ::
      (childListings (es ++ [name]) entries ++ [joinElements (es ++ [name])])
/-- The listing the specification describes for the directory with elements
`es`, without its last element (the directory itself): each child directory
followed by the listing of that child. -/
def childListings (es : List Str) : List FsNode → List Str
  | [] => []
  | e :: rest => e.listing es ++ childListings es rest
end

/-- The entries of `templates/files/container` in `Fixture.templateFS`. -/
def Fixture.containerEntries : List FsNode :=
  [.file "base.txt.tmpl".toList (Fixture.tmpl "base"),
   .dir "go".toList
     [.dir "cmd".toList [.file "x.go.tmpl".toList (Fixture.tmpl "x")],
      .file "main.go.tmpl".toList (Fixture.tmpl "go")],
   .dir "py".toList [.file "main.py.tmpl".toList (Fixture.tmpl "py")]]

/-- The path `generateFiles` renders the template `t` of the template
directory `d` to (generator.go:111, templates.go:53). -/
def renderedPath (output filesDir d : Str) (t : Template) : Str :=
  pathClean (filepathJoin [filepathJoin [output, stringsTrimPrefix d filesDir],
    removeFirst ".tmpl".toList t.name])

/-- Whether the name of an entry matches the pattern `*.tmpl` of
`getRuntimeTemplates`. -/
def matchesTmpl (name : Str) : Bool :=
  match pathMatch "*.tmpl".toList name with
  | .ok matched => matched
  | .error _ => false

/-- The templates of entries of the directory `dir`, read in order into the
set: a directory among them is a read error, a file that does not parse a
parse error; what a file parses to is entered under the name of the file. -/
def parseEntries (dir : Str) : List FsNode → List Template → Except GenError (List Template)
  | [], set => .ok set
  | .dir name _ :: _, _ => .error (.read (dir ++ '/' :: name))
  | .file name none :: _, _ => .error (.parse (dir ++ '/' :: name))
  | .file name (some parsed) :: rest, set => parseEntries dir rest (addParsed set name parsed)

/-- The templates of the template directory `dir` with the given entries:
those of the entries whose name matches `*.tmpl`; no such entry is the error
of a pattern that matches no files. -/
def templatesOfDir (dir : Str) (entries : List FsNode) : Except GenError (List Template) :=
  match entries.filter (fun n => matchesTmpl n.name) with
  | [] => .error (.noMatch (dir ++ "/*.tmpl".toList))
  | files => parseEntries dir files []

/-- The entries of `templates/files/container/go` in `Fixture.templateFS`. -/
def Fixture.goEntries : List FsNode :=
  [.dir "cmd".toList [.file "x.go.tmpl".toList (Fixture.tmpl "x")],
   .file "main.go.tmpl".toList (Fixture.tmpl "go")]

/-- The generator `run` builds for the output directory `out`. -/
def Fixture.generator : Generator :=
  newGenerator Fixture.templateFS "out/actions".toList

/-- The values of a container action with the preset `go`. -/
def Fixture.goValues : TemplateValues :=
  Fixture.containerValues "go"

/-- The action directory of the ID `abc` below `out/actions`. -/
def Fixture.actionDir : Str :=
  "out/actions/abc".toList

/-! # Verification -/

/-! ## Library lemmas for the string model -/

theorem stringsContains_iff (s sub : Str) : stringsContains s sub = true ↔ sub <:+: s := by
  unfold stringsContains
  rw [List.any_eq_true]
  constructor
  · rintro ⟨t, ht, hp⟩
    rw [List.mem_tails] at ht
    rw [List.isPrefixOf_iff_prefix] at hp
    exact hp.isInfix.trans ht.isInfix
  · intro h
    obtain ⟨t, hp, hs⟩ := List.infix_iff_prefix_suffix.mp h
    exact ⟨t, (List.mem_tails _ _).mpr hs, List.isPrefixOf_iff_prefix.mpr hp⟩

theorem doubleHyphen_infix_cons (a : Char) (l : Str) :
    "--".toList <:+: a :: l ↔ (a = '-' ∧ l.head? = some '-') ∨ "--".toList <:+: l := by
  rw [List.infix_cons_iff]
  constructor
  · rintro (h | h)
    · left
      obtain ⟨t, ht⟩ := h
      cases l with
      | nil => simp at ht
      | cons b r =>
        simp at ht
        simp [← ht.1, ← ht.2.1]
    · exact Or.inr h
  · rintro (⟨h1, h2⟩ | h)
    · left
      cases l with
      | nil => simp at h2
      | cons b r =>
        simp at h2
        subst h1 h2
        exact ⟨r, rfl⟩
    · exact Or.inr h

theorem replaceAll_length_le (s : Str) : (replaceAllDoubleHyphen s).length ≤ s.length := by
  induction s using replaceAllDoubleHyphen.induct with
  | case1 => simp [replaceAllDoubleHyphen]
  | case2 c => simp [replaceAllDoubleHyphen]
  | case3 a b rest h ih =>
    simp only [replaceAllDoubleHyphen, h, and_self, if_true, List.length_cons]
    omega
  | case4 a b rest h ih =>
    simp only [replaceAllDoubleHyphen, h, if_false, List.length_cons] at ih ⊢
    omega

theorem replaceAll_length_lt (s : Str) (h : "--".toList <:+: s) :
    (replaceAllDoubleHyphen s).length < s.length := by
  induction s using replaceAllDoubleHyphen.induct with
  | case1 => simp at h
  | case2 c =>
    rw [doubleHyphen_infix_cons] at h
    simp at h
  | case3 a b rest hab ih =>
    have := replaceAll_length_le rest
    simp only [replaceAllDoubleHyphen, hab, and_self, if_true, List.length_cons]
    omega
  | case4 a b rest hab ih =>
    rw [doubleHyphen_infix_cons] at h
    have h2 : "--".toList <:+: b :: rest := by
      rcases h with ⟨ha, hb⟩ | h
      · simp at hb
        exact absurd ⟨ha, hb⟩ hab
      · exact h
    have := ih h2
    simp only [replaceAllDoubleHyphen, hab, if_false, List.length_cons] at this ⊢
    omega

theorem replaceAll_mem (s : Str) : ∀ c ∈ replaceAllDoubleHyphen s, c ∈ s := by
  induction s using replaceAllDoubleHyphen.induct with
  | case1 => simp [replaceAllDoubleHyphen]
  | case2 c => simp [replaceAllDoubleHyphen]
  | case3 a b rest h ih =>
    intro c hc
    simp only [replaceAllDoubleHyphen, h, and_self, if_true, List.mem_cons] at hc
    rcases hc with hc | hc
    · simp [hc, h.1]
    · simp [ih c hc]
  | case4 a b rest h ih =>
    intro c hc
    simp only [replaceAllDoubleHyphen, h, if_false, List.mem_cons] at hc
    rcases hc with hc | hc
    · simp [hc]
    · have := ih c hc
      simp only [List.mem_cons] at this ⊢
      exact Or.inr this

theorem collapseHyphens_mem (fuel : Nat) (s : Str) : ∀ c ∈ collapseHyphens fuel s, c ∈ s := by
  induction fuel generalizing s with
  | zero => intro c hc; simpa [collapseHyphens] using hc
  | succ n ih =>
    intro c hc
    unfold collapseHyphens at hc
    split at hc
    · exact replaceAll_mem s c (ih _ c hc)
    · exact hc

theorem collapseHyphens_no_double (fuel : Nat) (s : Str) (h : s.length ≤ fuel) :
    ¬ "--".toList <:+: collapseHyphens fuel s := by
  induction fuel generalizing s with
  | zero =>
    have : s = [] := List.length_eq_zero.mp (Nat.le_zero.mp h)
    subst this
    simp [collapseHyphens]
  | succ n ih =>
    unfold collapseHyphens
    split
    · rename_i hc
      have := replaceAll_length_lt s ((stringsContains_iff _ _).mp hc)
      exact ih _ (by omega)
    · rename_i hc
      rwa [stringsContains_iff] at hc

theorem collapseHyphens_of_no_double (fuel : Nat) (s : Str) (h : ¬ "--".toList <:+: s) :
    collapseHyphens fuel s = s := by
  cases fuel with
  | zero => rfl
  | succ n =>
    unfold collapseHyphens
    rw [if_neg]
    rwa [stringsContains_iff]

/-! ## `sanitizeForPath` -/

theorem isPathSafeRune_sanitizeRune (c : Char) : isPathSafeRune (sanitizeRune c) = true := by
  unfold sanitizeRune
  split
  · assumption
  · decide

theorem sanitizeRune_of_safe (c : Char) (h : isPathSafeRune c = true) : sanitizeRune c = c := by
  simp [sanitizeRune, h]

theorem hyphen_cutset (c : Char) : ("-".toList.contains c) = true ↔ c = '-' := by
  simp [List.contains]

theorem head?_trimLeft_hyphen (s : Str) : (stringsTrimLeft s "-".toList).head? ≠ some '-' := by
  unfold stringsTrimLeft
  intro h
  have := List.head?_dropWhile_not (fun c => "-".toList.contains c) s
  rw [h] at this
  simp at this

theorem prefix_head?_eq {l₁ l₂ : Str} (h : l₁ <+: l₂) (hne : l₁ ≠ []) : l₁.head? = l₂.head? := by
  obtain ⟨t, rfl⟩ := h
  cases l₁ with
  | nil => exact absurd rfl hne
  | cons a r => rfl

theorem stringsTrim_isInfixOf (s cut : Str) : stringsTrim s cut <:+: s := by
  unfold stringsTrim stringsTrimRight stringsTrimLeft
  exact (List.rdropWhile_prefix _ _).isInfix.trans (List.dropWhile_suffix _).isInfix

theorem head?_stringsTrim_hyphen (s : Str) : (stringsTrim s "-".toList).head? ≠ some '-' := by
  by_cases hne : stringsTrim s "-".toList = []
  · rw [hne]; simp
  · have hp : stringsTrim s "-".toList <+: stringsTrimLeft s "-".toList := by
      unfold stringsTrim stringsTrimRight
      exact List.rdropWhile_prefix _ _
    rw [prefix_head?_eq hp hne]
    exact head?_trimLeft_hyphen s

theorem getLast?_stringsTrim_hyphen (s : Str) : (stringsTrim s "-".toList).getLast? ≠ some '-' := by
  intro h
  have hne : stringsTrim s "-".toList ≠ [] := by
    intro h0; rw [h0] at h; simp at h
  have hl := List.rdropWhile_last_not (fun c => "-".toList.contains c)
    (stringsTrimLeft s "-".toList) hne
  rw [List.getLast?_eq_getLast _ hne] at h
  have h2 : (stringsTrim s "-".toList).getLast hne = '-' := Option.some.inj h
  unfold stringsTrim stringsTrimRight at h2
  rw [h2] at hl
  exact hl (by decide)

theorem stringsTrim_fixed (r : Str) (hh : r.head? ≠ some '-') (hl : r.getLast? ≠ some '-') :
    stringsTrim r "-".toList = r := by
  have h1 : stringsTrimLeft r "-".toList = r := by
    unfold stringsTrimLeft
    cases r with
    | nil => rfl
    | cons a t =>
      apply List.dropWhile_cons_of_neg
      simp at hh
      simpa [List.contains] using hh
  unfold stringsTrim
  rw [h1]
  unfold stringsTrimRight
  rw [List.rdropWhile_eq_self_iff]
  intro hne
  rw [List.getLast?_eq_getLast _ hne] at hl
  simp at hl
  simpa [List.contains] using hl

theorem sanitizeForPath_isSanitized (s : Str) : IsSanitized (sanitizeForPath s) := by
  unfold sanitizeForPath
  simp only
  split
  · refine ⟨by decide, by decide, ?_, by decide, by decide⟩
    rw [← stringsContains_iff]
    decide
  · rename_i hne
    refine ⟨hne, ?_, ?_, head?_stringsTrim_hyphen _, getLast?_stringsTrim_hyphen _⟩
    · intro c hc
      have h1 := (stringsTrim_isInfixOf _ _).subset hc
      have h2 := collapseHyphens_mem _ _ c h1
      unfold stringsMap at h2
      obtain ⟨d, _, rfl⟩ := List.mem_map.mp h2
      exact isPathSafeRune_sanitizeRune d
    · intro h
      exact collapseHyphens_no_double _ _ (le_refl _) (h.trans (stringsTrim_isInfixOf _ _))

theorem sanitizeForPath_fixed (r : Str) (h : IsSanitized r) : sanitizeForPath r = r := by
  obtain ⟨hne, hsafe, hdd, hh, hl⟩ := h
  have h1 : stringsMap sanitizeRune r = r := by
    unfold stringsMap
    conv_rhs => rw [← List.map_id r]
    apply List.map_congr_left
    intro c hc
    exact sanitizeRune_of_safe c (hsafe c hc)
  unfold sanitizeForPath
  simp only [h1, collapseHyphens_of_no_double _ _ hdd, stringsTrim_fixed r hh hl, if_neg hne]

theorem sanitizeForPath_all_hyphen (s : Str) (h : ∀ c ∈ s, sanitizeRune c = '-') :
    sanitizeForPath s = "action".toList := by
  unfold sanitizeForPath
  simp only
  rw [if_pos]
  have hall : ∀ c ∈ collapseHyphens (stringsMap sanitizeRune s).length (stringsMap sanitizeRune s),
      c = '-' := by
    intro c hc
    have h2 := collapseHyphens_mem _ _ c hc
    unfold stringsMap at h2
    obtain ⟨d, hd, rfl⟩ := List.mem_map.mp h2
    exact h d hd
  unfold stringsTrim stringsTrimLeft
  have : List.dropWhile (fun c => "-".toList.contains c)
      (collapseHyphens (stringsMap sanitizeRune s).length (stringsMap sanitizeRune s)) = [] := by
    rw [List.dropWhile_eq_nil_iff]
    intro c hc
    simp [List.contains, hall c hc]
  rw [this]
  rfl

/-! ## `isValidName` -/

theorem isLetter_utf8FirstByte (c : Char) : isLetter (utf8FirstByte c) = isLetter c.toNat := by
  unfold utf8FirstByte
  simp only
  split
  · rfl
  · rename_i h1
    have hc : isLetter c.toNat = false := by
      simp only [isLetter, Bool.or_eq_false_iff, Bool.and_eq_false_iff, decide_eq_false_iff_not]
      have : 'z'.toNat = 122 := rfl
      have : 'Z'.toNat = 90 := rfl
      constructor <;> right <;> omega
    rw [hc]
    have key : ∀ n : Nat, 0xC0 ≤ n → isLetter n = false := by
      intro n hn
      simp only [isLetter, Bool.or_eq_false_iff, Bool.and_eq_false_iff, decide_eq_false_iff_not]
      have : 'z'.toNat = 122 := rfl
      have : 'Z'.toNat = 90 := rfl
      constructor <;> right <;> omega
    split
    · exact key _ (by omega)
    · split
      · exact key _ (by omega)
      · exact key _ (by omega)

theorem firstInvalidChar_eq_none (i : Nat) (name : Str) :
    firstInvalidChar i name = none ↔ ∀ c ∈ name, isNameRune c = true := by
  induction name generalizing i with
  | nil => simp [firstInvalidChar]
  | cons a rest ih =>
    unfold firstInvalidChar
    by_cases h : isNameRune a = true
    · have h2 : (!isLetter a.toNat && a != '_' && !isDigit a.toNat) = false := by
        simp only [isNameRune, Bool.or_eq_true, decide_eq_true_eq] at h
        rcases h with (h | h) | h <;> simp [h]
      rw [h2]
      simp only [Bool.false_eq_true, if_false, List.mem_cons, forall_eq_or_imp, h, true_and]
      exact ih _
    · have h2 : (!isLetter a.toNat && a != '_' && !isDigit a.toNat) = true := by
        simp only [isNameRune, Bool.or_eq_true, decide_eq_true_eq, not_or] at h
        simp [h.1.1, h.1.2, h.2]
      rw [h2]
      simp only [if_true, List.mem_cons, forall_eq_or_imp]
      constructor
      · intro h3; cases h3
      · intro h3; exact absurd h3.1 h

theorem isNameRune_not_space (c : Char) (h : isNameRune c = true) :
    c ∉ [' ', '\t', '\n', '\r', '\x0c', '\x0b'] := by
  intro hm
  simp only [List.mem_cons, List.mem_singleton, List.not_mem_nil, or_false] at hm
  rcases hm with rfl | rfl | rfl | rfl | rfl | rfl <;> revert h <;> decide

theorem isValidName_eq_none (subject name : Str) :
    isValidName subject name = none ↔
      (∃ c rest, name = c :: rest ∧ isLetter c.toNat = true) ∧ ∀ c ∈ name, isNameRune c = true := by
  cases name with
  | nil => simp [isValidName]
  | cons a rest =>
    unfold isValidName
    simp only
    constructor
    · intro h
      split at h
      · cases h
      · split at h
        · cases h
        · rename_i h1 h2
          split at h
          · cases h
          · rename_i h3
            rw [isLetter_utf8FirstByte] at h2
            simp only [Bool.not_eq_true, Bool.not_eq_eq_eq_not, Bool.not_true] at h2
            refine ⟨⟨a, rest, rfl, ?_⟩, (firstInvalidChar_eq_none 0 _).mp h3⟩
            cases hl : isLetter a.toNat
            · simp [hl] at h2
            · rfl
    · rintro ⟨⟨c, r, hcr, hc⟩, hall⟩
      cases hcr
      have hws : stringsContainsAny (a :: rest) [' ', '\t', '\n', '\r', '\x0c', '\x0b'] = false := by
        unfold stringsContainsAny
        rw [List.any_eq_false]
        intro x hx
        have := isNameRune_not_space x (hall x hx)
        simpa [List.contains] using this
      rw [hws, isLetter_utf8FirstByte, hc, (firstInvalidChar_eq_none 0 _).mpr hall]
      simp

theorem isValidName_whitespace (subject name : Str)
    (h : ∃ c ∈ name, c ∈ [' ', '\t', '\n', '\r', '\x0c', '\x0b']) :
    isValidName subject name ≠ none := by
  intro h0
  obtain ⟨c, hc, hw⟩ := h
  exact isNameRune_not_space c (((isValidName_eq_none subject name).mp h0).2 c hc) hw

/-! ## `validate`, `collectActionInfo` and `run` -/

theorem collectActionInfo_noninteractive (m : MetadataCollector) (lib : JsonSchema)
    (script : List FormAnswer) (values : TemplateValues) (h : m.interactive = false)
    (hbad : values.id = [] ∨ isValidName "action ID".toList (sanitizeForPath values.id) ≠ none) :
    ∃ e, (m.collectActionInfo lib script values).2 = some e := by
  unfold MetadataCollector.collectActionInfo
  simp only [h, Bool.false_eq_true, if_false]
  unfold MetadataCollector.validate
  by_cases hc : values.runtime.type = runtimeContainer
  · simp only [hc, if_true]
    rcases hbad with h0 | h1
    · simp [h0]
    · by_cases h0 : values.id = []
      · simp [h0]
      · simp only [h0, if_false]
        cases hv : isValidName "action ID".toList (sanitizeForPath values.id) with
        | none => exact absurd hv h1
        | some e => exact ⟨_, rfl⟩
  · simp only [hc, if_false]
    rcases hbad with h0 | h1
    · simp [h0]
    · by_cases h0 : values.id = []
      · simp [h0]
      · simp only [h0, if_false]
        cases hv : isValidName "action ID".toList (sanitizeForPath values.id) with
        | none => exact absurd hv h1
        | some e => exact ⟨_, rfl⟩

theorem run_of_collect_error (s : ScaffoldAction) (lib : JsonSchema) (templateFS : List FsNode)
    (script : List FormAnswer) (w : World) (e : CollectError)
    (h : ((newMetadataCollector s.manager s.interactive).collectActionInfo lib script
      s.getDefaultValues).2 = some e) :
    s.run lib templateFS script w = (some (.collect e), w) := by
  unfold ScaffoldAction.run
  simp only
  generalize (newMetadataCollector s.manager s.interactive).collectActionInfo lib script
      s.getDefaultValues = r at h
  obtain ⟨v, oe⟩ := r
  simp only at h
  subst h
  cases v <;> rfl


/-! ## `generate` and its deferred cleanup -/

theorem pathClean_ne_nil (p : Str) : pathClean p ≠ [] := by
  have key : ∀ out : Str, (if out = [] then ".".toList else out) ≠ [] := by
    intro out
    split
    · decide
    · assumption
  unfold pathClean
  split
  · decide
  · exact key _

theorem getActionDir_ne_nil (dm : DirectoryManager) (actionID : Str) :
    dm.getActionDir actionID ≠ [] := by
  unfold DirectoryManager.getActionDir filepathJoin
  simp only
  have hne : sanitizeForPath actionID ≠ [] := (sanitizeForPath_isSanitized actionID).1
  split
  · rename_i h
    have : sanitizeForPath actionID ∈
        List.dropWhile (fun e => decide (e = [])) [dm.pathPrefix, sanitizeForPath actionID] := by
      by_cases hp : dm.pathPrefix = []
      · simp [List.dropWhile, hp, hne]
      · simp [List.dropWhile, hp]
    rw [h] at this
    cases this
  · exact pathClean_ne_nil _

theorem osMkdirAll_error (w w' : World) (path : Str) (e : GenError)
    (h : osMkdirAll w path = (some e, w')) : w'.fs = w.fs ∧ w'.warnings = w.warnings ∧
      w.fs.isDir path = false := by
  unfold osMkdirAll at h
  split at h
  · cases h
  · rename_i hd
    simp only at h
    split at h
    · simp only [Prod.mk.injEq] at h
      obtain ⟨_, rfl⟩ := h
      refine ⟨?_, ?_, by simpa using hd⟩
      · unfold World.nextFault; split <;> rfl
      · unfold World.nextFault; split <;> rfl
    · cases h

theorem isDir_after_removeAll (w w' : World) (path : Str)
    (h : osRemoveAll w path = (none, w')) : w'.fs.isDir path = false ∧ w'.warnings = w.warnings := by
  unfold osRemoveAll at h
  simp only at h
  split at h
  · cases h
  · rename_i hc
    simp only [Prod.mk.injEq, true_and] at h
    subst h
    simp only [Bool.or_eq_true, decide_eq_true_eq, not_or] at hc
    constructor
    · simp only [FileSys.isDir, hc.1.2, hc.2, decide_False, Bool.false_or, List.contains_eq_any_beq,
        List.any_filter, List.any_eq_false]
      intro d _
      simp only [isUnder, Bool.and_eq_true, Bool.not_eq_true', Bool.or_eq_false_iff,
        decide_eq_false_iff_not, beq_iff_eq, not_and]
      rintro ⟨h1, _⟩ h2
      exact absurd h2.symm h1
    · unfold World.nextFault; split <;> rfl

theorem nextFault_warnings (w : World) : w.nextFault.2.warnings = w.warnings := by
  unfold World.nextFault; split <;> rfl

theorem osMkdirAll_warnings (w : World) (path : Str) :
    (osMkdirAll w path).2.warnings = w.warnings := by
  unfold osMkdirAll
  split
  · rfl
  · simp only
    split <;> exact nextFault_warnings w

theorem osCreate_warnings (w : World) (path : Str) :
    (osCreate w path).2.warnings = w.warnings := by
  unfold osCreate
  simp only
  split <;> exact nextFault_warnings w

theorem osWrite_warnings (w : World) (path content : Str) :
    (osWrite w path content).2.warnings = w.warnings := by
  unfold osWrite
  simp only
  split <;> exact nextFault_warnings w

theorem renderTemplates_warnings (output : Str) (values : TemplateValues)
    (templates : List Template) :
    ∀ w : World, (renderTemplates output values templates w).2.warnings = w.warnings := by
  induction templates with
  | nil => intro w; rfl
  | cons t ts ih =>
    intro w
    unfold renderTemplates
    simp only
    have h1 := osCreate_warnings w
      (pathClean (filepathJoin [output, removeFirst ".tmpl".toList t.name]))
    split
    · rename_i err w1 hc
      rw [hc] at h1; exact h1
    · rename_i w1 hc
      rw [hc] at h1
      have h2 := osWrite_warnings w1
        (pathClean (filepathJoin [output, removeFirst ".tmpl".toList t.name]))
        (t.execute values).1
      split
      · rename_i err w2 hw
        rw [hw] at h2; exact h2.trans h1
      · rename_i w2 hw
        rw [hw] at h2
        split
        · exact (ih w2).trans (h2.trans h1)
        · exact h2.trans h1

theorem generateFilesLoop_warnings (g : Generator) (output filesDir : Str)
    (values : TemplateValues) (dirs : List Str) :
    ∀ w : World, (g.generateFilesLoop output filesDir values dirs w).2.warnings = w.warnings := by
  induction dirs with
  | nil => intro w; rfl
  | cons d ds ih =>
    intro w
    unfold Generator.generateFilesLoop
    simp only
    have h1 := osMkdirAll_warnings w (filepathJoin [output, stringsTrimPrefix d filesDir])
    unfold ensureDir
    split
    · rename_i err w1 hc
      rw [hc] at h1; exact h1
    · rename_i w1 hc
      rw [hc] at h1
      split
      · exact (ih w1).trans h1
      · exact h1
      · rename_i templates _
        have h2 := renderTemplates_warnings
          (filepathJoin [output, stringsTrimPrefix d filesDir]) values templates w1
        split
        · rename_i err w2 hr
          rw [hr] at h2; exact h2.trans h1
        · rename_i w2 hr
          rw [hr] at h2
          exact (ih w2).trans (h2.trans h1)

theorem generateFiles_warnings (g : Generator) (output : Str) (values : TemplateValues)
    (w : World) : (g.generateFiles output values w).2.warnings = w.warnings := by
  unfold Generator.generateFiles
  split
  · rfl
  · exact generateFilesLoop_warnings g output _ values _ w

theorem generateDefinition_warnings (g : Generator) (outputDir : Str) (values : TemplateValues)
    (w : World) : (g.generateDefinition outputDir values w).2.warnings = w.warnings := by
  unfold Generator.generateDefinition
  split
  · rfl
  · exact renderTemplates_warnings outputDir values _ w

theorem osRemoveAll_warnings (w : World) (path : Str) :
    (osRemoveAll w path).2.warnings = w.warnings := by
  unfold osRemoveAll
  simp only
  split <;> exact nextFault_warnings w

/-! ## Paths and the template store -/

theorem cleanElements_valid (rooted : Bool) (es stack : List Str)
    (h : ∀ e ∈ es, validElement e = true) :
    cleanElements rooted es stack = stack.reverse ++ es := by
  induction es generalizing stack with
  | nil => simp [cleanElements]
  | cons e es ih =>
    have he := h e (List.mem_cons_self _ _)
    simp only [validElement, Bool.and_eq_true, decide_eq_true_eq, Bool.not_eq_true',
      ne_eq] at he
    obtain ⟨⟨⟨h1, h2⟩, h3⟩, _⟩ := he
    unfold cleanElements
    rw [if_neg (by rintro (h | h); exact h1 h; exact h2 h), if_neg h3]
    rw [ih _ (fun x hx => h x (List.mem_cons_of_mem _ hx))]
    simp

theorem validElement_no_slash (e : Str) (h : validElement e = true) : '/' ∉ e := by
  simp only [validElement, Bool.and_eq_true, Bool.not_eq_true'] at h
  intro hm
  have := h.2
  rw [List.contains_eq_any_beq, List.any_eq_false] at this
  exact this '/' hm (by simp)

theorem validElement_ne_nil (e : Str) (h : validElement e = true) : e ≠ [] := by
  simp only [validElement, Bool.and_eq_true, decide_eq_true_eq] at h
  exact h.1.1.1

theorem joinElements_cons_cons (a b : Str) (es : List Str) :
    joinElements (a :: b :: es) = a ++ '/' :: joinElements (b :: es) := by
  simp [joinElements, List.intercalate, List.intersperse]

theorem joinElements_head (es : List Str) (hne : es ≠ [])
    (h : ∀ e ∈ es, validElement e = true) :
    (joinElements es).head? ≠ some '/' ∧ joinElements es ≠ [] := by
  cases es with
  | nil => exact absurd rfl hne
  | cons a rest =>
    have ha := h a (List.mem_cons_self _ _)
    have hne := validElement_ne_nil a ha
    have hns := validElement_no_slash a ha
    cases a with
    | nil => exact absurd rfl hne
    | cons c cs =>
      have hc : c ≠ '/' := fun hc => hns (by simp [hc])
      cases rest with
      | nil => simp [joinElements, List.intercalate, List.intersperse, hc]
      | cons b bs =>
        rw [joinElements_cons_cons]
        simp [hc]

theorem joinElements_append_singleton (es : List Str) (name : Str) (hne : es ≠ []) :
    joinElements (es ++ [name]) = joinElements es ++ "/".toList ++ name := by
  induction es with
  | nil => exact absurd rfl hne
  | cons a rest ih =>
    cases rest with
    | nil => simp [joinElements, List.intercalate, List.intersperse]
    | cons b bs =>
      have := ih (by simp)
      simp only [List.cons_append] at this ⊢
      rw [joinElements_cons_cons, joinElements_cons_cons, this]
      simp

theorem pathClean_joinElements (es : List Str) (hne : es ≠ [])
    (h : ∀ e ∈ es, validElement e = true) : pathClean (joinElements es) = joinElements es := by
  obtain ⟨hh, hnn⟩ := joinElements_head es hne h
  have hsplit : (joinElements es).splitOn '/' = es := by
    unfold joinElements
    exact List.splitOn_intercalate es '/' (fun l hl => validElement_no_slash l (h l hl)) hne
  unfold pathClean
  rw [if_neg hnn]
  simp only [hsplit, cleanElements_valid _ es [] h, List.reverse_nil, List.nil_append,
    decide_eq_true_eq, hh, if_false]
  exact if_neg hnn

theorem pathJoin_joinElements (es : List Str) (name : Str) (hne : es ≠ [])
    (h : ∀ e ∈ es, validElement e = true) (hn : validElement name = true) :
    pathJoin [joinElements es, name] = joinElements (es ++ [name]) := by
  have hnn := (joinElements_head es hne h).2
  have hname := validElement_ne_nil name hn
  have h2 : ∀ e ∈ es ++ [name], validElement e = true := by
    intro e he
    rcases List.mem_append.mp he with he | he
    · exact h e he
    · simp only [List.mem_singleton] at he; rw [he]; exact hn
  unfold pathJoin
  simp only [List.all_cons, hnn, decide_False, Bool.false_and, Bool.false_eq_true, if_false,
    List.filter_cons, ne_eq, not_false_eq_true, decide_True, if_true, hname, List.filter_nil]
  have : "/".toList.intercalate [joinElements es, name] = joinElements (es ++ [name]) := by
    rw [joinElements_append_singleton es name hne]
    simp [List.intercalate, List.intersperse]
  rw [this]
  exact pathClean_joinElements _ (by simp) h2

theorem namesValid_of_mem (entries : List FsNode) (h : entriesValid entries = true)
    (n : FsNode) (hn : n ∈ entries) : n.namesValid = true := by
  induction entries with
  | nil => cases hn
  | cons e es ih =>
    simp only [entriesValid, Bool.and_eq_true] at h
    rcases List.mem_cons.mp hn with rfl | hm
    · exact h.1
    · exact ih h.2 hm

theorem validElement_name_of_mem (entries : List FsNode) (h : entriesValid entries = true)
    (n : FsNode) (hn : n ∈ entries) : validElement n.name = true := by
  have := namesValid_of_mem entries h n hn
  cases n with
  | file name p => simpa [FsNode.namesValid, FsNode.name] using this
  | dir name sub =>
    simp only [FsNode.namesValid, Bool.and_eq_true] at this
    exact this.1

theorem lookupDir_valid (es : List Str) : ∀ (entries sub : List FsNode),
    entriesValid entries = true → lookupDir entries es = some sub → entriesValid sub = true := by
  induction es with
  | nil =>
    intro entries sub h hl
    simp only [lookupDir, Option.some.injEq] at hl
    rw [← hl]; exact h
  | cons e es ih =>
    intro entries sub h hl
    unfold lookupDir at hl
    split at hl
    · rename_i name children hf
      have hm := List.mem_of_find?_eq_some hf
      have := namesValid_of_mem entries h _ hm
      simp only [FsNode.namesValid, Bool.and_eq_true] at this
      exact ih children sub this.2 hl
    · cases hl

theorem fsReadDir_valid (templateFS : List FsNode) (path : Str) (sub : List FsNode)
    (h : entriesValid templateFS = true) (hr : fsReadDir templateFS path = some sub) :
    entriesValid sub = true := by
  unfold fsReadDir at hr
  split at hr
  · simp only [Option.some.injEq] at hr
    rw [← hr]; exact h
  · split at hr
    · exact lookupDir_valid _ _ _ h hr
    · cases hr

theorem isUnder_refl (p : Str) : isUnder p p = true := by
  simp [isUnder]

theorem isUnder_iff (p q : Str) : isUnder p q = true ↔ q = p ∨ (p ++ "/".toList) <+: q := by
  simp [isUnder, List.isPrefixOf_iff_prefix]

theorem isUnder_trans (p q r : Str) (h1 : isUnder p q = true) (h2 : isUnder q r = true) :
    isUnder p r = true := by
  rw [isUnder_iff] at h1 h2 ⊢
  rcases h1 with rfl | h1
  · exact h2
  · rcases h2 with rfl | h2
    · exact Or.inr h1
    · right
      exact h1.trans ((List.prefix_append q _).trans h2)

theorem isUnder_child (es : List Str) (name : Str) (hne : es ≠ []) :
    isUnder (joinElements es) (joinElements (es ++ [name])) = true := by
  rw [isUnder_iff, joinElements_append_singleton es name hne]
  right
  exact List.prefix_append _ _

theorem subdirectoriesLoop_under (recurse : Str → Except GenError (List Str))
    (es : List Str) (hne : es ≠ []) (hes : ∀ e ∈ es, validElement e = true)
    (hrec : ∀ name, validElement name = true → ∀ ds,
      recurse (joinElements (es ++ [name])) = .ok ds →
      ∀ d ∈ ds, isUnder (joinElements (es ++ [name])) d = true) :
    ∀ (entries : List FsNode) (acc dirs : List Str),
      (∀ n ∈ entries, validElement n.name = true) →
      (∀ d ∈ acc, isUnder (joinElements es) d = true) →
      subdirectoriesLoop recurse (joinElements es) entries acc = .ok dirs →
      ∀ d ∈ dirs, isUnder (joinElements es) d = true := by
  intro entries
  induction entries with
  | nil =>
    intro acc dirs _ hacc h
    simp only [subdirectoriesLoop, Except.ok.injEq] at h
    rw [← h]; exact hacc
  | cons entry rest ih =>
    intro acc dirs hnames hacc h
    have hn := hnames entry (List.mem_cons_self _ _)
    have hrest : ∀ n ∈ rest, validElement n.name = true :=
      fun n hm => hnames n (List.mem_cons_of_mem _ hm)
    unfold subdirectoriesLoop at h
    split at h
    · simp only [pathJoin_joinElements es entry.name hne hes hn] at h
      split at h
      · cases h
      · rename_i subDirs hsub
        apply ih _ dirs hrest _ h
        intro d hd
        simp only [List.mem_append, List.mem_singleton] at hd
        rcases hd with (hd | rfl) | hd
        · exact hacc d hd
        · exact isUnder_child es entry.name hne
        · exact isUnder_trans _ _ _ (isUnder_child es entry.name hne)
            (hrec entry.name hn subDirs hsub d hd)
    · exact ih acc dirs hrest hacc h

theorem getTemplateSubdirectories_under (templateFS : List FsNode)
    (hfs : entriesValid templateFS = true) :
    ∀ (depth : Nat) (es : List Str) (dirs : List Str), es ≠ [] →
      (∀ e ∈ es, validElement e = true) →
      getTemplateSubdirectories templateFS depth (joinElements es) = .ok dirs →
      ∀ d ∈ dirs, isUnder (joinElements es) d = true := by
  intro depth
  induction depth with
  | zero =>
    intro es dirs _ _ h
    simp [getTemplateSubdirectories] at h
  | succ n ih =>
    intro es dirs hne hes h
    unfold getTemplateSubdirectories at h
    split at h
    · cases h
    · rename_i entries hread
      split at h
      · cases h
      · rename_i directories hloop
        simp only [Except.ok.injEq] at h
        subst h
        have hvalid := fsReadDir_valid _ _ _ hfs hread
        have hrec : ∀ name, validElement name = true → ∀ ds,
            getTemplateSubdirectories templateFS n (joinElements (es ++ [name])) = .ok ds →
            ∀ d ∈ ds, isUnder (joinElements (es ++ [name])) d = true := by
          intro name hname ds hds
          apply ih (es ++ [name]) ds (by simp) _ hds
          intro e he
          rcases List.mem_append.mp he with he | he
          · exact hes e he
          · simp only [List.mem_singleton] at he; rw [he]; exact hname
        intro d hd
        rcases List.mem_append.mp hd with hd | hd
        · exact subdirectoriesLoop_under _ es hne hes hrec entries [] directories
            (fun n hm => validElement_name_of_mem entries hvalid n hm)
            (fun d hd => by cases hd) hloop d hd
        · simp only [List.mem_singleton] at hd
          rw [hd]; exact isUnder_refl _

theorem filesDirOf_container (values : TemplateValues)
    (hc : values.runtime.type = runtimeContainer) :
    filesDirOf values = joinElements [runtimeContainer, values.containerPreset] := by
  simp [filesDirOf, hc, joinElements, List.intercalate, List.intersperse]

theorem resolveDirs_container_under (g : Generator) (values : TemplateValues)
    (hfs : entriesValid g.templateFS = true)
    (hc : values.runtime.type = runtimeContainer)
    (hp : validElement values.containerPreset = true)
    (dirs : List Str) (h : g.resolveDirs values = .ok dirs) :
    ∀ d ∈ dirs, isUnder (runtimeContainer ++ "/".toList ++ values.containerPreset) d = true := by
  have hes : ∀ e ∈ [runtimeContainer, values.containerPreset], validElement e = true := by
    intro e he
    simp only [List.mem_cons, List.mem_singleton, List.not_mem_nil, or_false] at he
    rcases he with rfl | rfl
    · decide
    · exact hp
  have hj : runtimeContainer ++ "/".toList ++ values.containerPreset
      = joinElements [runtimeContainer, values.containerPreset] := by
    simp [joinElements, List.intercalate, List.intersperse]
  unfold Generator.resolveDirs at h
  simp only [filesDirOf_container values hc] at h
  rw [hj]
  split at h
  · cases h
  · rename_i ds hds
    simp only [Except.ok.injEq] at h
    subst h
    intro d hd
    rcases List.mem_append.mp hd with hd | hd
    · exact getTemplateSubdirectories_under g.templateFS hfs _ _ ds (by simp) hes hds d hd
    · simp only [List.mem_singleton] at hd
      rw [hd]; exact isUnder_refl _

theorem container_base_not_under (preset : Str) :
    isUnder (runtimeContainer ++ "/".toList ++ preset) runtimeContainer = false := by
  rw [Bool.eq_false_iff]
  intro h
  rw [isUnder_iff] at h
  rcases h with h | h
  · have := congrArg List.length h
    simp [runtimeContainer] at this
  · have := h.length_le
    simp [runtimeContainer] at this

/-! ## `castParamStrToType` -/

theorem castItems_number_float (lib : JsonSchema)
    (hfloat : ∀ s r, lib.convertStringToType s .number = .ok r → ∃ bits, r = .float64 bits)
    (pdef : DefParameter) (hitems : pdef.items = some .number) :
    ∀ (pieces : List Str) (res : List GoAny), castItems lib pdef pieces = .ok res →
      res.length = pieces.length ∧ ∀ x ∈ res, ∃ bits, x = .float64 bits := by
  intro pieces
  induction pieces with
  | nil =>
    intro res h
    simp only [castItems, Except.ok.injEq] at h
    subst h
    simp
  | cons item rest ih =>
    intro res h
    unfold castItems at h
    rw [hitems] at h
    simp only at h
    split at h
    · cases h
    · rename_i r hr
      obtain ⟨bits, rfl⟩ := hfloat item r hr
      split at h
      · cases h
      · rename_i rs hrs
        simp only [GoAny.eqIntConst, Bool.and_false, Bool.false_eq_true, if_false,
          Except.ok.injEq] at h
        subst h
        obtain ⟨hl, hall⟩ := ih rs hrs
        refine ⟨by simp [hl], ?_⟩
        intro x hx
        rcases List.mem_cons.mp hx with rfl | hx
        · exact ⟨bits, rfl⟩
        · exact hall x hx

/-! ## `path.Clean` on cleaned paths -/

theorem splitOn_no_sep (sep : Char) (l : Str) : ∀ piece ∈ l.splitOn sep, sep ∉ piece := by
  induction l with
  | nil =>
    intro piece hp
    simp only [List.splitOn_nil, List.mem_singleton] at hp
    subst hp
    simp
  | cons x xs ih =>
    intro piece hp
    unfold List.splitOn at hp ih
    rw [List.splitOnP_cons] at hp
    split at hp
    · rcases List.mem_cons.mp hp with rfl | hp
      · simp
      · exact ih piece hp
    · rename_i hx
      have hne := List.splitOnP_ne_nil (fun c => c == sep) xs
      cases hs : List.splitOnP (fun c => c == sep) xs with
      | nil => exact absurd hs hne
      | cons first rest =>
        rw [hs] at hp ih
        simp only [List.modifyHead_cons, List.mem_cons] at hp
        rcases hp with rfl | hp
        · intro hm
          rcases List.mem_cons.mp hm with h | h
          · exact hx (by simp [h])
          · exact ih first (List.mem_cons_self _ _) h
        · exact ih piece (List.mem_cons_of_mem _ hp)

theorem stackOK_of_valid (rooted : Bool) (name : Str) (stack : List Str)
    (hn : validElement name = true) (hs : stackOK rooted stack) :
    stackOK rooted (name :: stack) := by
  have h := hn
  simp only [validElement, Bool.and_eq_true, decide_eq_true_eq, Bool.not_eq_true', ne_eq] at h
  exact ⟨h.1.1.1, h.1.1.2, validElement_no_slash name hn, fun h2 => absurd h2 h.1.2, hs⟩

theorem cleanElements_stackOK (rooted : Bool) (input : List Str)
    (hin : ∀ e ∈ input, '/' ∉ e) :
    ∀ stack, stackOK rooted stack →
      ∃ final, cleanElements rooted input stack = final.reverse ∧ stackOK rooted final := by
  induction input with
  | nil =>
    intro stack hs
    exact ⟨stack, rfl, hs⟩
  | cons e es ih =>
    intro stack hs
    have hes : ∀ x ∈ es, '/' ∉ x := fun x hx => hin x (List.mem_cons_of_mem _ hx)
    have he := hin e (List.mem_cons_self _ _)
    unfold cleanElements
    split
    · exact ih hes stack hs
    · rename_i hskip
      have hne : e ≠ [] := fun h => hskip (Or.inl h)
      have hnd : e ≠ ".".toList := fun h => hskip (Or.inr h)
      split
      · cases stack with
        | nil =>
          simp only
          split
          · exact ih hes [] trivial
          · rename_i hr
            exact ih hes [e]
              ⟨hne, hnd, he, fun _ => ⟨by simpa using hr, fun x hx => by cases hx⟩, trivial⟩
        | cons top below =>
          simp only
          obtain ⟨h1, h2, h3, htop, hbelow⟩ := hs
          split
          · rename_i ht
            obtain ⟨hr, hall⟩ := htop ht
            apply ih hes
            refine ⟨hne, hnd, he, fun _ => ⟨hr, ?_⟩, h1, h2, h3, htop, hbelow⟩
            intro x hx
            rcases List.mem_cons.mp hx with rfl | hx
            · exact ht
            · exact hall x hx
          · exact ih hes below hbelow
      · rename_i hdd
        exact ih hes _ ⟨hne, hnd, he, fun h => absurd h hdd, hs⟩

theorem stackOK_append (rooted : Bool) (xs ys : List Str) (h : stackOK rooted (xs ++ ys)) :
    stackOK rooted ys := by
  induction xs with
  | nil => exact h
  | cons x xs ih => exact ih h.2.2.2.2

theorem cleanElements_of_stackOK (rooted : Bool) (es : List Str) :
    ∀ stack, stackOK rooted (es.reverse ++ stack) →
      cleanElements rooted es stack = stack.reverse ++ es := by
  induction es with
  | nil => intro stack _; simp [cleanElements]
  | cons e es ih =>
    intro stack h
    have h' : stackOK rooted (es.reverse ++ (e :: stack)) := by
      simpa using h
    have hes := stackOK_append rooted es.reverse (e :: stack) h'
    obtain ⟨hne, hnd, _, hdd, _⟩ := hes
    unfold cleanElements
    rw [if_neg (by rintro (h | h); exact hne h; exact hnd h)]
    have hrec := ih (e :: stack) h'
    split
    · rename_i hd
      obtain ⟨hr, hall⟩ := hdd hd
      cases stack with
      | nil =>
        subst hr
        simp only [Bool.false_eq_true, if_false]
        rw [hrec]
        simp
      | cons top below =>
        simp only
        rw [if_pos (hall top (List.mem_cons_self _ _)), hrec]
        simp
    · rw [hrec]; simp

theorem cleanElements_append (rooted : Bool) (xs ys : List Str) :
    ∀ stack, cleanElements rooted (xs ++ ys) stack
      = cleanElements rooted ys (cleanElements rooted xs stack).reverse := by
  induction xs with
  | nil => intro stack; simp [cleanElements]
  | cons e es ih =>
    intro stack
    by_cases h1 : e = [] ∨ e = ".".toList
    · simp only [List.cons_append, cleanElements, h1, if_true]
      exact ih stack
    · by_cases h2 : e = "..".toList
      · cases stack with
        | nil =>
          cases rooted with
          | true =>
            simp only [List.cons_append, cleanElements, h1, h2, if_true, if_false]
            exact ih _
          | false =>
            simp only [List.cons_append, cleanElements, h1, h2, if_true, if_false,
              Bool.false_eq_true]
            exact ih _
        | cons top below =>
          by_cases h3 : top = "..".toList
          · simp only [List.cons_append, cleanElements, h1, h2, h3, if_true, if_false]
            exact ih _
          · simp only [List.cons_append, cleanElements, h1, h2, h3, if_true, if_false]
            exact ih _
      · simp only [List.cons_append, cleanElements, h1, h2, if_false]
        exact ih _

theorem stackOK_mem (rooted : Bool) (stack : List Str) (h : stackOK rooted stack) :
    ∀ e ∈ stack, e ≠ [] ∧ '/' ∉ e := by
  induction stack with
  | nil => intro e he; cases he
  | cons top below ih =>
    intro e he
    rcases List.mem_cons.mp he with rfl | he
    · exact ⟨h.1, h.2.2.1⟩
    · exact ih h.2.2.2.2 e he

theorem joinElements_head? (e : Str) (es : List Str) (hne : e ≠ []) :
    (joinElements (e :: es)).head? = e.head? := by
  cases e with
  | nil => exact absurd rfl hne
  | cons c cs =>
    cases es with
    | nil => simp [joinElements, List.intercalate, List.intersperse]
    | cons b bs => rw [joinElements_cons_cons]; rfl

theorem joinElements_nil_cons (es : List Str) (hne : es ≠ []) :
    joinElements ([] :: es) = '/' :: joinElements es := by
  cases es with
  | nil => exact absurd rfl hne
  | cons b bs => rw [joinElements_cons_cons]; rfl

theorem pathClean_append_element (x name : Str) (hn : validElement name = true)
    (hx : x ≠ [])
    (hE : cleanElements (decide (x.head? = some '/')) (x.splitOn '/') [] ≠ []) :
    pathClean (pathClean x ++ '/' :: name) = pathClean x ++ '/' :: name := by
  obtain ⟨final, hfin, hok⟩ := cleanElements_stackOK (decide (x.head? = some '/'))
    (x.splitOn '/') (splitOn_no_sep '/' x) [] trivial
  have hfne : final.reverse ≠ [] := by rw [← hfin]; exact hE
  have hmem : ∀ e ∈ final.reverse, e ≠ [] ∧ '/' ∉ e := fun e he =>
    stackOK_mem _ final hok e (List.mem_reverse.mp he)
  have hname_ns := validElement_no_slash name hn
  -- the elements of the extended path
  have hall : ∀ l ∈ final.reverse ++ [name], '/' ∉ l := by
    intro l hl
    rcases List.mem_append.mp hl with hl | hl
    · exact (hmem l hl).2
    · simp only [List.mem_singleton] at hl; rw [hl]; exact hname_ns
  have hclean : ∀ r, r = decide (x.head? = some '/') →
      cleanElements r (final.reverse ++ [name]) [] = final.reverse ++ [name] := by
    intro r hr
    have := cleanElements_of_stackOK r (final.reverse ++ [name]) []
      (by
        simp only [List.reverse_append, List.reverse_cons, List.reverse_nil, List.nil_append,
          List.reverse_reverse, List.singleton_append, List.append_nil]
        rw [hr]
        exact stackOK_of_valid _ name final hn hok)
    simpa using this
  have hJ : joinElements final.reverse ≠ [] := by
    cases hf : final.reverse with
    | nil => exact absurd hf hfne
    | cons e es =>
      have he := (hmem e (by rw [hf]; exact List.mem_cons_self _ _)).1
      intro h0
      have := joinElements_head? e es he
      rw [h0] at this
      cases e with
      | nil => exact he rfl
      | cons c cs => simp at this
  have hJhead : (joinElements final.reverse).head? ≠ some '/' := by
    cases hf : final.reverse with
    | nil => exact absurd hf hfne
    | cons e es =>
      have he := hmem e (by rw [hf]; exact List.mem_cons_self _ _)
      rw [joinElements_head? e es he.1]
      cases e with
      | nil => exact absurd rfl he.1
      | cons c cs =>
        simp only [List.head?_cons, ne_eq, Option.some.injEq]
        intro hc
        exact he.2 (by simp [hc])
  by_cases hr : x.head? = some '/'
  · have hP : pathClean x = '/' :: joinElements final.reverse := by
      unfold pathClean
      rw [if_neg hx]
      simp only [hr, decide_True, if_true] at hfin ⊢
      rw [hfin]
      rfl
    rw [hP]
    have hQ : ('/' :: joinElements final.reverse) ++ '/' :: name
        = joinElements ([] :: (final.reverse ++ [name])) := by
      rw [joinElements_nil_cons _ (by simp),
        joinElements_append_singleton _ name hfne]
      simp
    have hsplit : (joinElements ([] :: (final.reverse ++ [name]))).splitOn '/'
        = [] :: (final.reverse ++ [name]) := by
      unfold joinElements
      apply List.splitOn_intercalate _ '/' _ (by simp)
      intro l hl
      rcases List.mem_cons.mp hl with rfl | hl
      · simp
      · exact hall l hl
    rw [hQ]
    unfold pathClean
    rw [if_neg (by rw [← hQ]; simp)]
    have hh : (joinElements ([] :: (final.reverse ++ [name]))).head? = some '/' := by
      rw [← hQ]; rfl
    simp only [hh, decide_True, if_true, hsplit]
    have : cleanElements true ([] :: (final.reverse ++ [name])) []
        = final.reverse ++ [name] := by
      unfold cleanElements
      rw [if_pos (Or.inl rfl)]
      exact hclean true (by simp [hr])
    rw [this, joinElements_nil_cons _ (by simp)]
    rfl
  · have hP : pathClean x = joinElements final.reverse := by
      unfold pathClean
      rw [if_neg hx]
      simp only [hr, decide_False, Bool.false_eq_true, if_false] at hfin ⊢
      rw [hfin]
      exact if_neg hJ
    rw [hP]
    have hQ : joinElements final.reverse ++ '/' :: name
        = joinElements (final.reverse ++ [name]) := by
      rw [joinElements_append_singleton _ name hfne]
      simp
    have hsplit : (joinElements (final.reverse ++ [name])).splitOn '/'
        = final.reverse ++ [name] := by
      unfold joinElements
      exact List.splitOn_intercalate _ '/' hall (by simp)
    rw [hQ]
    have hQne : joinElements (final.reverse ++ [name]) ≠ [] := by
      rw [← hQ]; simp
    have hh : (joinElements (final.reverse ++ [name])).head? ≠ some '/' := by
      rw [← hQ]
      cases hj : joinElements final.reverse with
      | nil => exact absurd hj hJ
      | cons c cs =>
        rw [hj] at hJhead
        simpa using hJhead
    unfold pathClean
    rw [if_neg hQne]
    simp only [hh, decide_False, Bool.false_eq_true, if_false, hsplit]
    rw [hclean false (by simp [hr])]
    exact if_neg hQne

theorem joinElements_append (xs ys : List Str) (hx : xs ≠ []) (hy : ys ≠ []) :
    joinElements (xs ++ ys) = joinElements xs ++ '/' :: joinElements ys := by
  induction xs with
  | nil => exact absurd rfl hx
  | cons a rest ih =>
    cases rest with
    | nil =>
      cases ys with
      | nil => exact absurd rfl hy
      | cons b bs =>
        simp only [List.singleton_append]
        rw [joinElements_cons_cons]
        simp [joinElements, List.intercalate, List.intersperse]
    | cons b bs =>
      have := ih (by simp)
      simp only [List.cons_append] at this ⊢
      rw [joinElements_cons_cons, joinElements_cons_cons, this]
      simp

theorem splitOn_append_slash (a b : Str) :
    (a ++ '/' :: b).splitOn '/' = a.splitOn '/' ++ b.splitOn '/' := by
  have ha : joinElements (a.splitOn '/') = a := List.intercalate_splitOn a '/'
  have hb : joinElements (b.splitOn '/') = b := List.intercalate_splitOn b '/'
  have hna : a.splitOn '/' ≠ [] := List.splitOnP_ne_nil _ _
  have hnb : b.splitOn '/' ≠ [] := List.splitOnP_ne_nil _ _
  have h := joinElements_append _ _ hna hnb
  rw [ha, hb] at h
  rw [← h]
  unfold joinElements
  apply List.splitOn_intercalate _ '/' _ (by simp [hna])
  intro l hl
  rcases List.mem_append.mp hl with hl | hl
  · exact splitOn_no_sep '/' a l hl
  · exact splitOn_no_sep '/' b l hl

theorem splitOn_valid (name : Str) (hn : validElement name = true) :
    name.splitOn '/' = [name] := by
  have := List.splitOn_intercalate [name] '/'
    (fun l hl => by
      simp only [List.mem_singleton] at hl
      rw [hl]; exact validElement_no_slash name hn) (by simp)
  simpa [List.intercalate, List.intersperse] using this

theorem filepathJoin_sub_clean (out sub : Str) (hs : validElement sub = true) :
    ∃ x, x ≠ [] ∧ filepathJoin [out, sub] = pathClean x ∧
      cleanElements (decide (x.head? = some '/')) (x.splitOn '/') [] ≠ [] := by
  have hsub := validElement_ne_nil sub hs
  have hlast : ∀ (r : Bool) (st : List Str), cleanElements r [sub] st ≠ [] := by
    intro r st
    rw [cleanElements_valid r [sub] st (by simpa using hs)]
    simp
  by_cases ho : out = []
  · refine ⟨sub, hsub, ?_, ?_⟩
    · simp [filepathJoin, List.dropWhile, ho, hsub, List.intercalate, List.intersperse]
    · rw [splitOn_valid sub hs]
      exact hlast _ _
  · refine ⟨out ++ '/' :: sub, by simp, ?_, ?_⟩
    · simp [filepathJoin, List.dropWhile, ho, List.intercalate, List.intersperse]
    · rw [splitOn_append_slash, splitOn_valid sub hs, cleanElements_append]
      exact hlast _ _

theorem filepathJoin_append_element (out sub name : Str) (hs : validElement sub = true)
    (hn : validElement name = true) :
    filepathJoin [filepathJoin [out, sub], name] = filepathJoin [out, sub] ++ '/' :: name := by
  obtain ⟨x, hx, hP, hE⟩ := filepathJoin_sub_clean out sub hs
  have hPne : filepathJoin [out, sub] ≠ [] := by rw [hP]; exact pathClean_ne_nil x
  have : filepathJoin [filepathJoin [out, sub], name]
      = pathClean (filepathJoin [out, sub] ++ '/' :: name) := by
    generalize filepathJoin [out, sub] = P at hPne
    simp [filepathJoin, List.dropWhile, hPne, List.intercalate, List.intersperse]
  rw [this, hP]
  exact pathClean_append_element x name hn hx hE

theorem validElement_sanitizeForPath (actionID : Str) :
    validElement (sanitizeForPath actionID) = true := by
  obtain ⟨hne, hsafe, _, _, _⟩ := sanitizeForPath_isSanitized actionID
  have hdot : '.' ∉ sanitizeForPath actionID := by
    intro h
    have := hsafe '.' h
    revert this
    decide
  have hslash : '/' ∉ sanitizeForPath actionID := by
    intro h
    have := hsafe '/' h
    revert this
    decide
  simp only [validElement, Bool.and_eq_true, decide_eq_true_eq, Bool.not_eq_true', ne_eq]
  refine ⟨⟨⟨hne, ?_⟩, ?_⟩, ?_⟩
  · intro h
    rw [h] at hdot
    exact hdot (by decide)
  · intro h
    rw [h] at hdot
    exact hdot (by decide)
  · rw [List.contains_eq_any_beq, List.any_eq_false]
    intro c hc
    simp only [beq_iff_eq]
    intro h
    exact hslash (h ▸ hc)

theorem actionDir_under_outputRoot (s : ScaffoldAction) (values : TemplateValues) (actionID : Str) :
    stringsHasPrefix
      (({ pathPrefix := s.outputRoot values } : DirectoryManager).getActionDir actionID)
      (s.outputRoot values) = true := by
  unfold DirectoryManager.getActionDir ScaffoldAction.outputRoot stringsHasPrefix
  simp only
  split
  · rw [filepathJoin_append_element _ _ _ (by decide) (validElement_sanitizeForPath actionID),
      List.isPrefixOf_iff_prefix]
    exact List.prefix_append _ _
  · rw [filepathJoin_append_element _ _ _ (by decide) (validElement_sanitizeForPath actionID),
      List.isPrefixOf_iff_prefix]
    exact List.prefix_append _ _

theorem isNameRune_not_unicodeSpace (c : Char) (h : isNameRune c = true) :
    unicodeIsSpace c = false := by
  have ha : 'a'.toNat = 97 := rfl
  have hz : 'z'.toNat = 122 := rfl
  have hA : 'A'.toNat = 65 := rfl
  have hZ : 'Z'.toNat = 90 := rfl
  have h0 : '0'.toNat = 48 := rfl
  have h9 : '9'.toNat = 57 := rfl
  have hrange : 48 ≤ c.toNat ∧ c.toNat ≤ 122 := by
    simp only [isNameRune, isLetter, isDigit, Bool.or_eq_true, Bool.and_eq_true,
      decide_eq_true_eq, ha, hz, hA, hZ, h0, h9] at h
    rcases h with ((h | h) | h) | h
    · omega
    · omega
    · omega
    · subst h
      decide
  simp only [unicodeIsSpace, Bool.or_eq_false_iff, Bool.and_eq_false_iff,
    decide_eq_false_iff_not]
  omega

theorem isValidName_unicodeSpace (subject name : Str)
    (h : ∃ c ∈ name, unicodeIsSpace c = true) : isValidName subject name ≠ none := by
  intro h0
  obtain ⟨c, hc, hw⟩ := h
  have := isNameRune_not_unicodeSpace c (((isValidName_eq_none subject name).mp h0).2 c hc)
  rw [hw] at this
  cases this

/-! ## `collectActionInfo` and the container image -/

theorem validate_runtime (m : MetadataCollector) (values v : TemplateValues)
    (e : Option CollectError) (h : m.validate values = (v, e)) :
    v.runtime = values.runtime ∧ (v.id = values.id ∨ v.id = sanitizeForPath values.id) := by
  unfold MetadataCollector.validate at h
  split at h
  · simp only [Prod.mk.injEq] at h
    obtain ⟨rfl, _⟩ := h
    exact ⟨rfl, Or.inl rfl⟩
  · simp only at h
    split at h
    · simp only [Prod.mk.injEq] at h
      obtain ⟨rfl, _⟩ := h
      exact ⟨rfl, Or.inr rfl⟩
    · split at h
      · simp only [Prod.mk.injEq] at h
        obtain ⟨rfl, _⟩ := h
        exact ⟨rfl, Or.inr rfl⟩
      · simp only [Prod.mk.injEq] at h
        obtain ⟨rfl, _⟩ := h
        exact ⟨rfl, Or.inr rfl⟩

theorem collectActionInfo_image (m : MetadataCollector) (lib : JsonSchema)
    (script : List FormAnswer) (values v : TemplateValues)
    (h : (m.collectActionInfo lib script values).1 = some v)
    (hc : v.runtime.type = runtimeContainer) :
    ∃ rawID, v.runtime.container.image = rawID ++ ":latest".toList ∧
      (v.id = rawID ∨ v.id = sanitizeForPath rawID) := by
  unfold MetadataCollector.collectActionInfo at h
  simp only at h
  split at h
  · cases h
  · rename_i cv _
    by_cases hct : cv.runtime.type = runtimeContainer
    · simp only [hct, if_true] at h
      split at h
      · rename_i v2 err hv
        simp only [Option.some.injEq] at h
        subst h
        obtain ⟨hr, hid⟩ := validate_runtime m _ _ _ hv
        exact ⟨cv.id, by rw [hr], hid⟩
      · rename_i v2 hv
        simp only [Option.some.injEq] at h
        subst h
        obtain ⟨hr, hid⟩ := validate_runtime m _ _ _ hv
        exact ⟨cv.id, by rw [hr], hid⟩
    · simp only [hct, if_false] at h
      exfalso
      split at h
      · rename_i v2 err hv
        simp only [Option.some.injEq] at h
        subst h
        obtain ⟨hr, _⟩ := validate_runtime m _ _ _ hv
        exact hct (by rw [← hr]; exact hc)
      · rename_i v2 hv
        simp only [Option.some.injEq] at h
        subst h
        obtain ⟨hr, _⟩ := validate_runtime m _ _ _ hv
        exact hct (by rw [← hr]; exact hc)

/-! ## The listing of the template subdirectories -/

theorem entries_induction {motive : List FsNode → Prop} (nil : motive [])
    (file : ∀ name parsed rest, motive rest → motive (.file name parsed :: rest))
    (dir : ∀ name sub rest, motive sub → motive rest → motive (.dir name sub :: rest))
    (entries : List FsNode) : motive entries := by
  refine FsNode.rec_1 (motive_1 := fun n => ∀ name sub, n = .dir name sub → motive sub)
    (motive_2 := motive) ?_ ?_ nil ?_ entries
  · intro name parsed name' sub h
    cases h
  · intro name entries ih name' sub h
    cases h
    exact ih
  · intro head tail ihh iht
    cases head with
    | file name parsed => exact file name parsed tail iht
    | dir name sub => exact dir name sub tail (ihh name sub rfl) iht

theorem childListings_file (es : List Str) (name : Str)
    (parsed : Option ParsedText) (rest : List FsNode) :
    childListings es (.file name parsed :: rest) = childListings es rest := by
  simp [childListings, FsNode.listing]

theorem childListings_dir (es : List Str) (name : Str) (sub rest : List FsNode) :
    childListings es (.dir name sub :: rest)
      = joinElements (es ++ [name]) ::
          (childListings (es ++ [name]) sub ++ [joinElements (es ++ [name])]) ++
          childListings es rest := by
  simp [childListings, FsNode.listing]

theorem descendantDirs_file (es : List Str) (name : Str)
    (parsed : Option ParsedText) (rest : List FsNode) :
    descendantDirs es (.file name parsed :: rest) = descendantDirs es rest := by
  simp [descendantDirs, FsNode.dirsAt]

theorem descendantDirs_dir (es : List Str) (name : Str) (sub rest : List FsNode) :
    descendantDirs es (.dir name sub :: rest)
      = (es ++ [name]) :: descendantDirs (es ++ [name]) sub ++ descendantDirs es rest := by
  simp [descendantDirs, FsNode.dirsAt]

theorem siblingsDistinct_cons (e : FsNode) (rest : List FsNode)
    (h : siblingsDistinct (e :: rest) = true) :
    (∀ n ∈ rest, n.name ≠ e.name) ∧ siblingsDistinct rest = true := by
  simp only [siblingsDistinct, Bool.and_eq_true, List.all_eq_true, decide_eq_true_eq] at h
  exact ⟨h.1.1, h.2⟩

theorem siblingsDistinct_sub (name : Str) (sub rest : List FsNode)
    (h : siblingsDistinct (.dir name sub :: rest) = true) : siblingsDistinct sub = true := by
  simp only [siblingsDistinct, FsNode.distinct, Bool.and_eq_true] at h
  exact h.1.2

theorem siblingsDistinct_of_mem (entries : List FsNode) (h : siblingsDistinct entries = true)
    (name : Str) (sub : List FsNode) (hm : FsNode.dir name sub ∈ entries) :
    siblingsDistinct sub = true := by
  induction entries with
  | nil => cases hm
  | cons e rest ih =>
    rcases List.mem_cons.mp hm with rfl | hm
    · exact siblingsDistinct_sub name sub rest h
    · exact ih (siblingsDistinct_cons e rest h).2 hm

theorem find?_of_distinct (entries : List FsNode) (h : siblingsDistinct entries = true)
    (node : FsNode) (hm : node ∈ entries) :
    entries.find? (fun n => n.name = node.name) = some node := by
  induction entries with
  | nil => cases hm
  | cons e rest ih =>
    obtain ⟨hne, hrest⟩ := siblingsDistinct_cons e rest h
    by_cases he : e = node
    · subst he
      simp [List.find?]
    · have hm' : node ∈ rest := by
        rcases List.mem_cons.mp hm with h1 | h1
        · exact absurd h1.symm he
        · exact h1
      have : e.name ≠ node.name := fun heq => hne node hm' heq.symm
      simp only [List.find?, this, decide_False]
      exact ih hrest hm'

theorem lookupDir_append (xs ys : List Str) : ∀ entries : List FsNode,
    lookupDir entries (xs ++ ys) = (lookupDir entries xs).bind (fun sub => lookupDir sub ys) := by
  induction xs with
  | nil => intro entries; simp [lookupDir]
  | cons x xs ih =>
    intro entries
    simp only [List.cons_append, lookupDir]
    split
    · exact ih _
    · rfl

theorem lookupDir_child (templateFS entries : List FsNode) (xs : List Str) (name : Str)
    (sub : List FsNode) (hl : lookupDir templateFS xs = some entries)
    (hd : siblingsDistinct entries = true) (hm : FsNode.dir name sub ∈ entries) :
    lookupDir templateFS (xs ++ [name]) = some sub := by
  rw [lookupDir_append, hl]
  simp only [Option.some_bind, lookupDir]
  have : entries.find? (fun n => n.name = name) = some (.dir name sub) :=
    find?_of_distinct entries hd _ hm
  rw [this]

theorem lookupDir_distinct (xs : List Str) : ∀ (entries sub : List FsNode),
    siblingsDistinct entries = true → lookupDir entries xs = some sub →
    siblingsDistinct sub = true := by
  induction xs with
  | nil =>
    intro entries sub h hl
    simp only [lookupDir, Option.some.injEq] at hl
    rw [← hl]; exact h
  | cons e es ih =>
    intro entries sub h hl
    unfold lookupDir at hl
    split at hl
    · rename_i name children hf
      exact ih children sub (siblingsDistinct_of_mem entries h _ _ (List.mem_of_find?_eq_some hf)) hl
    · cases hl

theorem height_of_mem (entries : List FsNode) (name : Str) (sub : List FsNode)
    (hm : FsNode.dir name sub ∈ entries) : heightOfEntries sub + 1 ≤ heightOfEntries entries := by
  induction entries with
  | nil => cases hm
  | cons e rest ih =>
    simp only [heightOfEntries]
    rcases List.mem_cons.mp hm with rfl | hm
    · simp only [FsNode.height]
      exact le_max_left _ _
    · exact le_trans (ih hm) (le_max_right _ _)

theorem height_lookupDir (xs : List Str) : ∀ (entries sub : List FsNode),
    lookupDir entries xs = some sub → heightOfEntries sub ≤ heightOfEntries entries := by
  induction xs with
  | nil =>
    intro entries sub hl
    simp only [lookupDir, Option.some.injEq] at hl
    rw [hl]
  | cons e es ih =>
    intro entries sub hl
    unfold lookupDir at hl
    split at hl
    · rename_i name children hf
      have := height_of_mem entries _ _ (List.mem_of_find?_eq_some hf)
      have := ih children sub hl
      omega
    · cases hl

theorem entriesValid_of_mem_dir (entries : List FsNode) (h : entriesValid entries = true)
    (name : Str) (sub : List FsNode) (hm : FsNode.dir name sub ∈ entries) :
    validElement name = true ∧ entriesValid sub = true := by
  have := namesValid_of_mem entries h _ hm
  simpa [FsNode.namesValid] using this

theorem pathJoin_child (es : List Str) (name : Str)
    (h : ∀ e ∈ es, validElement e = true) (hn : validElement name = true) :
    pathJoin [joinElements es, name] = joinElements (es ++ [name]) := by
  cases es with
  | nil =>
    have hname := validElement_ne_nil name hn
    have h1 : pathJoin [joinElements [], name] = pathClean (joinElements [name]) := by
      simp [pathJoin, joinElements, List.intercalate, List.intersperse, hname]
    rw [h1]
    exact pathClean_joinElements [name] (by simp) (by simpa using hn)
  | cons e rest => exact pathJoin_joinElements (e :: rest) name (by simp) h hn

theorem splitOn_joinElements (xs : List Str) (hne : xs ≠ [])
    (h : ∀ e ∈ xs, validElement e = true) : (joinElements xs).splitOn '/' = xs := by
  unfold joinElements
  exact List.splitOn_intercalate xs '/' (fun l hl => validElement_no_slash l (h l hl)) hne

theorem fsReadDir_joinElements (templateFS : List FsNode) (xs : List Str) (hne : xs ≠ [])
    (h : ∀ e ∈ xs, validElement e = true) :
    fsReadDir templateFS (joinElements xs) = lookupDir templateFS xs := by
  have hsplit := splitOn_joinElements xs hne h
  have hdot : joinElements xs ≠ ".".toList := by
    intro hd
    have h2 : (joinElements xs).splitOn '/' = [".".toList] := by rw [hd]; decide
    rw [hsplit] at h2
    have := h ".".toList (by rw [h2]; simp)
    revert this
    decide
  unfold fsReadDir
  rw [if_neg hdot, hsplit, if_pos]
  rw [List.all_eq_true]
  exact h

theorem filesPath_joinElements (es : List Str) (h : ∀ e ∈ es, validElement e = true) :
    filepathJoin [templatesFilesDir, joinElements es]
      = joinElements ("templates".toList :: "files".toList :: es) := by
  have hall : ∀ e ∈ "templates".toList :: "files".toList :: es, validElement e = true := by
    intro e he
    rcases List.mem_cons.mp he with rfl | he
    · decide
    · rcases List.mem_cons.mp he with rfl | he
      · decide
      · exact h e he
  cases es with
  | nil => decide
  | cons e rest =>
    have h1 : filepathJoin [templatesFilesDir, joinElements (e :: rest)]
        = pathClean (templatesFilesDir ++ '/' :: joinElements (e :: rest)) := by
      simp [filepathJoin, List.dropWhile, templatesFilesDir, List.intercalate,
        List.intersperse]
    have h2 : templatesFilesDir ++ '/' :: joinElements (e :: rest)
        = joinElements ("templates".toList :: "files".toList :: e :: rest) := by
      have := joinElements_append ["templates".toList, "files".toList] (e :: rest)
        (by simp) (by simp)
      rw [show ["templates".toList, "files".toList] ++ e :: rest
        = "templates".toList :: "files".toList :: e :: rest from rfl] at this
      rw [this]
      rfl
    rw [h1, h2]
    exact pathClean_joinElements _ (by simp) hall

theorem readDir_files (templateFS : List FsNode) (es : List Str)
    (h : ∀ e ∈ es, validElement e = true) :
    fsReadDir templateFS (filepathJoin [templatesFilesDir, joinElements es])
      = lookupDir templateFS ("templates".toList :: "files".toList :: es) := by
  rw [filesPath_joinElements es h]
  apply fsReadDir_joinElements _ _ (by simp)
  intro e he
  rcases List.mem_cons.mp he with rfl | he
  · decide
  · rcases List.mem_cons.mp he with rfl | he
    · decide
    · exact h e he

theorem subdirectoriesLoop_listing (templateFS : List FsNode) (depth : Nat) (es : List Str)
    (entries : List FsNode)
    (hes : ∀ e ∈ es, validElement e = true)
    (hvalid : entriesValid entries = true)
    (hrec : ∀ name sub, FsNode.dir name sub ∈ entries →
      getTemplateSubdirectories templateFS depth (joinElements (es ++ [name]))
        = .ok (childListings (es ++ [name]) sub ++ [joinElements (es ++ [name])])) :
    ∀ (rest : List FsNode) (acc : List Str), (∀ n ∈ rest, n ∈ entries) →
      subdirectoriesLoop (getTemplateSubdirectories templateFS depth) (joinElements es) rest acc
        = .ok (acc ++ childListings es rest) := by
  intro rest
  induction rest with
  | nil => intro acc _; simp [subdirectoriesLoop, childListings]
  | cons entry rest ih =>
    intro acc hmem
    have hrest : ∀ n ∈ rest, n ∈ entries := fun n hn => hmem n (List.mem_cons_of_mem _ hn)
    have hentry := hmem entry (List.mem_cons_self _ _)
    cases entry with
    | file name parsed =>
      rw [childListings_file]
      unfold subdirectoriesLoop
      simp only [FsNode.isDir, Bool.false_eq_true, if_false]
      exact ih acc hrest
    | dir name sub =>
      have hn := (entriesValid_of_mem_dir entries hvalid name sub hentry).1
      rw [childListings_dir]
      unfold subdirectoriesLoop
      simp only [FsNode.isDir, if_true, FsNode.name, pathJoin_child es name hes hn,
        hrec name sub hentry]
      rw [ih _ hrest]
      simp

theorem getTemplateSubdirectories_eq (templateFS : List FsNode) :
    ∀ (depth : Nat) (es : List Str) (entries : List FsNode),
      (∀ e ∈ es, validElement e = true) →
      entriesValid entries = true → siblingsDistinct entries = true →
      lookupDir templateFS ("templates".toList :: "files".toList :: es) = some entries →
      heightOfEntries entries + 1 ≤ depth →
      getTemplateSubdirectories templateFS depth (joinElements es)
        = .ok (childListings es entries ++ [joinElements es]) := by
  intro depth
  induction depth with
  | zero => intro es entries _ _ _ _ hd; omega
  | succ n ih =>
    intro es entries hes hvalid hdist hlook hd
    unfold getTemplateSubdirectories
    rw [readDir_files templateFS es hes, hlook]
    simp only
    have hrec : ∀ name sub, FsNode.dir name sub ∈ entries →
        getTemplateSubdirectories templateFS n (joinElements (es ++ [name]))
          = .ok (childListings (es ++ [name]) sub ++ [joinElements (es ++ [name])]) := by
      intro name sub hm
      obtain ⟨hname, hsubvalid⟩ := entriesValid_of_mem_dir entries hvalid name sub hm
      apply ih (es ++ [name]) sub
      · intro e he
        rcases List.mem_append.mp he with he | he
        · exact hes e he
        · simp only [List.mem_singleton] at he; rw [he]; exact hname
      · exact hsubvalid
      · exact siblingsDistinct_of_mem entries hdist name sub hm
      · have := lookupDir_child templateFS entries
          ("templates".toList :: "files".toList :: es) name sub hlook hdist hm
        simpa using this
      · have := height_of_mem entries name sub hm
        omega
    rw [subdirectoriesLoop_listing templateFS n es entries hes hvalid hrec entries []
      (fun n hn => hn)]
    simp

theorem childListings_count (x : Str) (entries : List FsNode) : ∀ es : List Str,
    (childListings es entries).count x
      = 2 * ((descendantDirs es entries).map joinElements).count x := by
  induction entries using entries_induction with
  | nil => intro es; simp [childListings, descendantDirs]
  | file name parsed rest ih =>
    intro es
    rw [childListings_file, descendantDirs_file]
    exact ih es
  | dir name sub rest ihs ihr =>
    intro es
    rw [childListings_dir, descendantDirs_dir]
    simp only [List.cons_append, List.map_cons, List.map_append, List.count_cons,
      List.count_append, List.count_nil, ihs (es ++ [name]), ihr es]
    split <;> omega

theorem descendantDirs_shape (entries : List FsNode) : ∀ (es p : List Str),
    p ∈ descendantDirs es entries →
    ∃ name sub tail, FsNode.dir name sub ∈ entries ∧ p = es ++ name :: tail := by
  induction entries using entries_induction with
  | nil => intro es p hp; simp [descendantDirs] at hp
  | file name parsed rest ih =>
    intro es p hp
    rw [descendantDirs_file] at hp
    obtain ⟨n, s, t, hm, rfl⟩ := ih es p hp
    exact ⟨n, s, t, List.mem_cons_of_mem _ hm, rfl⟩
  | dir name sub rest ihs ihr =>
    intro es p hp
    rw [descendantDirs_dir] at hp
    rcases List.mem_cons.mp hp with rfl | hp
    · exact ⟨name, sub, [], List.mem_cons_self _ _, by simp⟩
    · rcases List.mem_append.mp hp with hp | hp
      · obtain ⟨n, s, t, _, rfl⟩ := ihs (es ++ [name]) p hp
        exact ⟨name, sub, n :: t, List.mem_cons_self _ _, by simp⟩
      · obtain ⟨n, s, t, hm, rfl⟩ := ihr es p hp
        exact ⟨n, s, t, List.mem_cons_of_mem _ hm, rfl⟩

theorem descendantDirs_valid (entries : List FsNode) : ∀ (es p : List Str),
    entriesValid entries = true → (∀ e ∈ es, validElement e = true) →
    p ∈ descendantDirs es entries → ∀ e ∈ p, validElement e = true := by
  induction entries using entries_induction with
  | nil => intro es p _ _ hp; simp [descendantDirs] at hp
  | file name parsed rest ih =>
    intro es p hv hes hp
    rw [descendantDirs_file] at hp
    simp only [entriesValid, Bool.and_eq_true] at hv
    exact ih es p hv.2 hes hp
  | dir name sub rest ihs ihr =>
    intro es p hv hes hp
    rw [descendantDirs_dir] at hp
    simp only [entriesValid, FsNode.namesValid, Bool.and_eq_true] at hv
    have hes' : ∀ e ∈ es ++ [name], validElement e = true := by
      intro e he
      rcases List.mem_append.mp he with he | he
      · exact hes e he
      · simp only [List.mem_singleton] at he; rw [he]; exact hv.1.1
    rcases List.mem_cons.mp hp with rfl | hp
    · exact hes'
    · rcases List.mem_append.mp hp with hp | hp
      · exact ihs (es ++ [name]) p hv.1.2 hes' hp
      · exact ihr es p hv.2 hes hp

theorem descendantDirs_nodup (entries : List FsNode) : ∀ es : List Str,
    siblingsDistinct entries = true → (descendantDirs es entries).Nodup := by
  induction entries using entries_induction with
  | nil => intro es _; simp [descendantDirs]
  | file name parsed rest ih =>
    intro es hd
    rw [descendantDirs_file]
    exact ih es (siblingsDistinct_cons _ _ hd).2
  | dir name sub rest ihs ihr =>
    intro es hd
    rw [descendantDirs_dir]
    obtain ⟨hne, hrest⟩ := siblingsDistinct_cons _ _ hd
    have hsub := siblingsDistinct_sub name sub rest hd
    have hnotrest : ∀ p ∈ descendantDirs es rest, ∀ tail, p ≠ es ++ name :: tail := by
      intro p hp tail heq
      obtain ⟨n, s, t, hm, rfl⟩ := descendantDirs_shape rest es p hp
      have h1 := List.append_cancel_left heq
      simp only [List.cons.injEq] at h1
      exact hne _ hm (by simpa [FsNode.name] using h1.1)
    rw [List.cons_append, List.nodup_cons, List.nodup_append]
    refine ⟨?_, ihs (es ++ [name]) hsub, ihr es hrest, ?_⟩
    · intro hm
      rcases List.mem_append.mp hm with hm | hm
      · obtain ⟨n, s, t, _, heq⟩ := descendantDirs_shape sub (es ++ [name]) _ hm
        have := congrArg List.length heq
        simp at this
      · exact hnotrest _ hm [] rfl
    · intro p hp1 hp2
      obtain ⟨n, s, t, _, heq⟩ := descendantDirs_shape sub (es ++ [name]) p hp1
      exact hnotrest p hp2 (n :: t) (by rw [heq]; simp)

theorem joinElements_injective (p q : List Str) (hp : p ≠ []) (hq : q ≠ [])
    (hpv : ∀ e ∈ p, validElement e = true) (hqv : ∀ e ∈ q, validElement e = true)
    (h : joinElements p = joinElements q) : p = q := by
  rw [← splitOn_joinElements p hp hpv, ← splitOn_joinElements q hq hqv, h]

theorem base_not_descendant (entries : List FsNode) (es : List Str)
    (hv : entriesValid entries = true) (hes : ∀ e ∈ es, validElement e = true) :
    ∀ p ∈ descendantDirs es entries, joinElements p ≠ joinElements es := by
  intro p hp heq
  obtain ⟨n, s, t, _, hshape⟩ := descendantDirs_shape entries es p hp
  have hpv := descendantDirs_valid entries es p hv hes hp
  have hpne : p ≠ [] := by rw [hshape]; simp
  cases es with
  | nil =>
    exact (joinElements_head p hpne hpv).2 (by rw [heq]; rfl)
  | cons e rest =>
    have := joinElements_injective p (e :: rest) hpne (by simp) hpv hes heq
    rw [this] at hshape
    have := congrArg List.length hshape
    simp at this

theorem lookupDir_elements_valid (xs : List Str) : ∀ (entries sub : List FsNode),
    entriesValid entries = true → lookupDir entries xs = some sub →
    ∀ e ∈ xs, validElement e = true := by
  induction xs with
  | nil => intro _ _ _ _ e he; cases he
  | cons x xs ih =>
    intro entries sub hv hl e he
    unfold lookupDir at hl
    split at hl
    · rename_i name children hf
      have hm := List.mem_of_find?_eq_some hf
      have hname := List.find?_some hf
      simp only [FsNode.name, decide_eq_true_eq] at hname
      obtain ⟨hn, hc⟩ := entriesValid_of_mem_dir entries hv name children hm
      rcases List.mem_cons.mp he with rfl | he
      · rw [← hname]; exact hn
      · exact ih children sub hc hl e he
    · cases hl

theorem count_le_one_of_nodup (l : List Str) (x : Str) (h : l.Nodup) : l.count x ≤ 1 := by
  induction l with
  | nil => simp
  | cons y l ih =>
    obtain ⟨hy, hl⟩ := List.nodup_cons.mp h
    rw [List.count_cons]
    by_cases hyx : y = x
    · subst hyx
      rw [List.count_eq_zero_of_not_mem hy]
      simp
    · have := ih hl
      simp [hyx, this]

theorem listing_properties (entries : List FsNode) (es : List Str)
    (hv : entriesValid entries = true) (hd : siblingsDistinct entries = true)
    (hes : ∀ e ∈ es, validElement e = true) :
    (childListings es entries ++ [joinElements es]).getLast? = some (joinElements es) ∧
    (childListings es entries ++ [joinElements es]).count (joinElements es) = 1 ∧
    (∀ d ∈ descendantDirs es entries,
      (childListings es entries ++ [joinElements es]).count (joinElements d) = 2) ∧
    (∀ x ∈ childListings es entries ++ [joinElements es],
      x = joinElements es ∨ ∃ d ∈ descendantDirs es entries, x = joinElements d) := by
  have hbase := base_not_descendant entries es hv hes
  have hbase' : joinElements es ∉ (descendantDirs es entries).map joinElements := by
    intro hm
    obtain ⟨p, hp, heq⟩ := List.mem_map.mp hm
    exact hbase p hp heq
  have hnodup : ((descendantDirs es entries).map joinElements).Nodup := by
    apply List.Nodup.map_on _ (descendantDirs_nodup entries es hd)
    intro p hp q hq heq
    obtain ⟨_, _, _, _, hps⟩ := descendantDirs_shape entries es p hp
    obtain ⟨_, _, _, _, hqs⟩ := descendantDirs_shape entries es q hq
    exact joinElements_injective p q (by rw [hps]; simp) (by rw [hqs]; simp)
      (descendantDirs_valid entries es p hv hes hp)
      (descendantDirs_valid entries es q hv hes hq) heq
  refine ⟨by simp, ?_, ?_, ?_⟩
  · rw [List.count_append, childListings_count, List.count_eq_zero_of_not_mem hbase']
    simp
  · intro d hdm
    have hmem : joinElements d ∈ (descendantDirs es entries).map joinElements :=
      List.mem_map_of_mem _ hdm
    have hone : ((descendantDirs es entries).map joinElements).count (joinElements d) = 1 := by
      have h1 : ((descendantDirs es entries).map joinElements).count (joinElements d) ≤ 1 :=
        count_le_one_of_nodup _ _ hnodup
      have h0 : 0 < ((descendantDirs es entries).map joinElements).count (joinElements d) :=
        List.count_pos_iff.mpr hmem
      omega
    rw [List.count_append, childListings_count, hone]
    have : joinElements d ≠ joinElements es := hbase d hdm
    simp [List.count_cons, this.symm]
  · intro x hx
    rcases List.mem_append.mp hx with hx | hx
    · right
      have hpos : 0 < (childListings es entries).count x := List.count_pos_iff.mpr hx
      rw [childListings_count] at hpos
      have hpos' : 0 < ((descendantDirs es entries).map joinElements).count x := by omega
      obtain ⟨d, hdm, heq⟩ := List.mem_map.mp (List.count_pos_iff.mp hpos')
      exact ⟨d, hdm, heq.symm⟩
    · left
      simpa using hx

/-! ## The outcome of a failed `generate` -/

theorem joinElements_ne_dot (xs : List Str) (hne : xs ≠ [])
    (h : ∀ e ∈ xs, e ≠ [] ∧ e ≠ ".".toList ∧ '/' ∉ e) :
    joinElements xs ≠ [] ∧ joinElements xs ≠ ".".toList ∧ (joinElements xs).head? ≠ some '/' := by
  cases xs with
  | nil => exact absurd rfl hne
  | cons e es =>
    obtain ⟨he1, he2, he3⟩ := h e (List.mem_cons_self _ _)
    have hhead : (joinElements (e :: es)).head? ≠ some '/' := by
      rw [joinElements_head? e es he1]
      cases e with
      | nil => exact absurd rfl he1
      | cons c cs =>
        simp only [List.head?_cons, ne_eq, Option.some.injEq]
        intro hc
        exact he3 (hc ▸ List.mem_cons_self _ _)
    refine ⟨?_, ?_, hhead⟩
    · intro h0
      rw [h0] at hhead
      cases e with
      | nil => exact absurd rfl he1
      | cons c cs =>
        have := joinElements_head? (c :: cs) es (by simp)
        rw [h0] at this
        simp at this
    · cases es with
      | nil =>
        simpa [joinElements, List.intercalate, List.intersperse] using he2
      | cons b bs =>
        rw [joinElements_cons_cons]
        intro h0
        have hlen := congrArg List.length h0
        cases e with
        | nil => exact absurd rfl he1
        | cons c cs =>
          simp at hlen

theorem stackOK_ne_dot (rooted : Bool) (stack : List Str) (h : stackOK rooted stack) :
    ∀ e ∈ stack, e ≠ ".".toList := by
  induction stack with
  | nil => intro e he; cases he
  | cons t b ih =>
    intro e he
    rcases List.mem_cons.mp he with rfl | he2
    · exact h.2.1
    · exact ih h.2.2.2.2 e he2

theorem pathClean_not_root (x : Str) (hx : x ≠ [])
    (hE : cleanElements (decide (x.head? = some '/')) (x.splitOn '/') [] ≠ []) :
    pathClean x ≠ ".".toList ∧ pathClean x ≠ "/".toList := by
  obtain ⟨final, hfin, hok⟩ := cleanElements_stackOK (decide (x.head? = some '/'))
    (x.splitOn '/') (splitOn_no_sep '/' x) [] trivial
  have hfne : final.reverse ≠ [] := by rw [← hfin]; exact hE
  have hall : ∀ e ∈ final.reverse, e ≠ [] ∧ e ≠ ".".toList ∧ '/' ∉ e := by
    intro e he
    have hm : e ∈ final := List.mem_reverse.mp he
    have h1 := stackOK_mem _ final hok e hm
    exact ⟨h1.1, stackOK_ne_dot _ final hok e hm, h1.2⟩
  obtain ⟨j1, j2, j3⟩ := joinElements_ne_dot final.reverse hfne hall
  unfold joinElements at j1 j2 j3
  unfold pathClean
  simp only [hx, if_false, hfin]
  by_cases hr : x.head? = some '/'
  · simp only [hr, if_true]
    rw [if_neg (List.cons_ne_nil _ _)]
    constructor
    · intro h0
      exact absurd (List.cons.inj h0).1 (by decide)
    · intro h0
      exact j1 (List.cons.inj h0).2
  · simp only [hr, if_false, j1]
    refine ⟨j2, ?_⟩
    intro h0
    rw [h0] at j3
    exact j3 rfl

theorem getActionDir_not_root (dm : DirectoryManager) (actionID : Str) :
    dm.getActionDir actionID ≠ ".".toList ∧ dm.getActionDir actionID ≠ "/".toList := by
  obtain ⟨x, hx, hP, hE⟩ := filepathJoin_sub_clean dm.pathPrefix (sanitizeForPath actionID)
    (validElement_sanitizeForPath actionID)
  unfold DirectoryManager.getActionDir
  simp only
  rw [hP]
  exact pathClean_not_root x hx hE


theorem nextFault_faults (w : World) : w.nextFault.2.faults <:+ w.faults := by
  unfold World.nextFault
  split
  · exact List.suffix_refl _
  · rename_i f rest h
    simp only [h]
    exact List.suffix_cons f rest

theorem osMkdirAll_faults (w : World) (path : Str) :
    (osMkdirAll w path).2.faults <:+ w.faults := by
  unfold osMkdirAll
  split
  · exact List.suffix_refl _
  · simp only
    split <;> exact nextFault_faults w

theorem osCreate_faults (w : World) (path : Str) :
    (osCreate w path).2.faults <:+ w.faults := by
  unfold osCreate
  simp only
  split <;> exact nextFault_faults w

theorem osWrite_faults (w : World) (path content : Str) :
    (osWrite w path content).2.faults <:+ w.faults := by
  unfold osWrite
  simp only
  split <;> exact nextFault_faults w

theorem renderTemplates_faults (output : Str) (values : TemplateValues)
    (templates : List Template) :
    ∀ w : World, (renderTemplates output values templates w).2.faults <:+ w.faults := by
  induction templates with
  | nil => intro w; exact List.suffix_refl _
  | cons t ts ih =>
    intro w
    unfold renderTemplates
    simp only
    have h1 := osCreate_faults w
      (pathClean (filepathJoin [output, removeFirst ".tmpl".toList t.name]))
    split
    · rename_i err w1 hc
      rw [hc] at h1; exact h1
    · rename_i w1 hc
      rw [hc] at h1
      have h2 := osWrite_faults w1
        (pathClean (filepathJoin [output, removeFirst ".tmpl".toList t.name]))
        (t.execute values).1
      split
      · rename_i err w2 hw
        rw [hw] at h2; exact h2.trans h1
      · rename_i w2 hw
        rw [hw] at h2
        split
        · exact (ih w2).trans (h2.trans h1)
        · exact h2.trans h1

theorem generateFilesLoop_faults (g : Generator) (output filesDir : Str)
    (values : TemplateValues) (dirs : List Str) :
    ∀ w : World, (g.generateFilesLoop output filesDir values dirs w).2.faults <:+ w.faults := by
  induction dirs with
  | nil => intro w; exact List.suffix_refl _
  | cons d ds ih =>
    intro w
    unfold Generator.generateFilesLoop
    simp only
    have h1 := osMkdirAll_faults w (filepathJoin [output, stringsTrimPrefix d filesDir])
    unfold ensureDir
    split
    · rename_i err w1 hc
      rw [hc] at h1; exact h1
    · rename_i w1 hc
      rw [hc] at h1
      split
      · exact (ih w1).trans h1
      · exact h1
      · rename_i templates _
        have h2 := renderTemplates_faults
          (filepathJoin [output, stringsTrimPrefix d filesDir]) values templates w1
        split
        · rename_i err w2 hr
          rw [hr] at h2; exact h2.trans h1
        · rename_i w2 hr
          rw [hr] at h2
          exact (ih w2).trans (h2.trans h1)

theorem generateFiles_faults (g : Generator) (output : Str) (values : TemplateValues)
    (w : World) : (g.generateFiles output values w).2.faults <:+ w.faults := by
  unfold Generator.generateFiles
  split
  · exact List.suffix_refl _
  · exact generateFilesLoop_faults g output _ values _ w

theorem generateDefinition_faults (g : Generator) (outputDir : Str) (values : TemplateValues)
    (w : World) : (g.generateDefinition outputDir values w).2.faults <:+ w.faults := by
  unfold Generator.generateDefinition
  split
  · exact List.suffix_refl _
  · exact renderTemplates_faults outputDir values _ w

theorem osRemoveAll_failed (w w1 : World) (path : Str) (e : GenError)
    (hroot : path ≠ ".".toList ∧ path ≠ "/".toList)
    (h : osRemoveAll w path = (some e, w1)) :
    w.faults = true :: w1.faults ∧ w1.fs = w.fs ∧ w1.warnings = w.warnings := by
  unfold osRemoveAll at h
  simp only [hroot.1, hroot.2, decide_False, Bool.or_false] at h
  cases hf : w.faults with
  | nil =>
    simp [World.nextFault, hf] at h
  | cons f rest =>
    simp only [World.nextFault, hf] at h
    split at h
    · rename_i hft
      simp only [Prod.mk.injEq] at h
      obtain ⟨_, rfl⟩ := h
      simp only at hft ⊢
      simp [hft]
    · cases h

theorem cleanup_outcome (g : Generator) (actionDir : Str) (w : World)
    (hne : actionDir ≠ [])
    (hroot : actionDir ≠ ".".toList ∧ actionDir ≠ "/".toList)
    (hp : stringsHasPrefix actionDir g.dirManager.pathPrefix = true) :
    ((g.cleanup actionDir false w).fs.isDir actionDir = false ∧
      (g.cleanup actionDir false w).warnings = w.warnings) ∨
    (w.faults = true :: (g.cleanup actionDir false w).faults ∧
      (g.cleanup actionDir false w).fs = w.fs ∧
      (g.cleanup actionDir false w).warnings = w.warnings ++ [Warning.cleanupFailed actionDir]) := by
  unfold Generator.cleanup
  simp only [Bool.not_false, Bool.true_and, hne, ne_eq, not_false_eq_true, decide_True, if_true,
    hp, Bool.not_true, Bool.false_eq_true, if_false]
  by_cases hd : w.fs.isDir actionDir = true
  · simp only [hd, Bool.not_true, Bool.false_eq_true, if_false]
    cases hr : osRemoveAll w actionDir with
    | mk err w1 =>
      cases err with
      | some e =>
        right
        obtain ⟨h1, h2, h3⟩ := osRemoveAll_failed w w1 actionDir e hroot hr
        simp only [World.warn]
        exact ⟨h1, h2, by rw [h3]⟩
      | none =>
        left
        exact isDir_after_removeAll w w1 actionDir hr
  · simp only [Bool.not_eq_true] at hd
    left
    simp [hd]

theorem generate_failure_outcome (g : Generator) (values : TemplateValues) (w : World)
    (hp : stringsHasPrefix (g.dirManager.getActionDir values.id) g.dirManager.pathPrefix = true)
    (herr : (g.generate values w).1 ≠ none) :
    ((g.generate values w).2.fs.isDir (g.dirManager.getActionDir values.id) = false ∧
      (g.generate values w).2.warnings = w.warnings) ∨
    ((∃ pre, w.faults = pre ++ true :: (g.generate values w).2.faults) ∧
      (g.generate values w).2.warnings
        = w.warnings ++ [Warning.cleanupFailed (g.dirManager.getActionDir values.id)]) := by
  have hne := getActionDir_ne_nil g.dirManager values.id
  have hroot := getActionDir_not_root g.dirManager values.id
  unfold Generator.generate DirectoryManager.ensureActionDir ensureDir at herr ⊢
  simp only at herr ⊢
  have hw1 := osMkdirAll_warnings w (g.dirManager.getActionDir values.id)
  have hf1 := osMkdirAll_faults w (g.dirManager.getActionDir values.id)
  cases hm : osMkdirAll w (g.dirManager.getActionDir values.id) with
  | mk err w1 =>
    rw [hm] at hw1 hf1
    cases err with
    | some e =>
      obtain ⟨hfs, hw, hd⟩ := osMkdirAll_error w w1 _ e hm
      left
      simp only [hfs]
      exact ⟨hd, hw⟩
    | none =>
      rw [hm] at herr
      simp only at herr ⊢
      have hw2 := generateDefinition_warnings g (g.dirManager.getActionDir values.id) values w1
      have hf2 := generateDefinition_faults g (g.dirManager.getActionDir values.id) values w1
      cases hdef : g.generateDefinition (g.dirManager.getActionDir values.id) values w1 with
      | mk err2 w2 =>
        rw [hdef] at herr hw2 hf2
        cases err2 with
        | some e2 =>
          simp only
          rcases cleanup_outcome g _ w2 hne hroot hp with ⟨c1, c2⟩ | ⟨c1, _, c3⟩
          · left
            exact ⟨c1, by rw [c2, hw2, hw1]⟩
          · right
            refine ⟨?_, by rw [c3, hw2, hw1]⟩
            obtain ⟨pre, hpre⟩ := hf2.trans hf1
            exact ⟨pre, by rw [← hpre, c1]⟩
        | none =>
          simp only at herr ⊢
          have hw3 := generateFiles_warnings g (g.dirManager.getActionDir values.id) values w2
          have hf3 := generateFiles_faults g (g.dirManager.getActionDir values.id) values w2
          cases hfiles : g.generateFiles (g.dirManager.getActionDir values.id) values w2 with
          | mk err3 w3 =>
            rw [hfiles] at herr hw3 hf3
            cases err3 with
            | some e3 =>
              simp only
              rcases cleanup_outcome g _ w3 hne hroot hp with ⟨c1, c2⟩ | ⟨c1, _, c3⟩
              · left
                exact ⟨c1, by rw [c2, hw3, hw2, hw1]⟩
              · right
                refine ⟨?_, by rw [c3, hw3, hw2, hw1]⟩
                obtain ⟨pre, hpre⟩ := hf3.trans (hf2.trans hf1)
                exact ⟨pre, by rw [← hpre, c1]⟩
            | none => simp at herr

/-- The rollback through `run`: the roots `run` hands to the generator are in
cleaned form, so a failed `generate` leaves no action directory, unless the
removal itself took a fault. -/
theorem run_all_or_nothing (s : ScaffoldAction) (lib : JsonSchema) (templateFS : List FsNode)
    (script : List FormAnswer) (w : World) (values : TemplateValues)
    (hc : (newMetadataCollector s.manager s.interactive).collectActionInfo lib script
      s.getDefaultValues = (some values, none))
    (herr : (s.run lib templateFS script w).1 ≠ none) :
    ((s.run lib templateFS script w).2.fs.isDir
        (({ pathPrefix := s.outputRoot values } : DirectoryManager).getActionDir values.id)
      = false ∧ (s.run lib templateFS script w).2.warnings = w.warnings) ∨
    ((∃ pre, w.faults = pre ++ true :: (s.run lib templateFS script w).2.faults) ∧
      (s.run lib templateFS script w).2.warnings
        = w.warnings ++ [Warning.cleanupFailed
            (({ pathPrefix := s.outputRoot values } : DirectoryManager).getActionDir
              values.id)]) := by
  unfold ScaffoldAction.run at herr ⊢
  simp only [hc] at herr ⊢
  have hgen := generate_failure_outcome (newGenerator templateFS (s.outputRoot values)) values w
    (actionDir_under_outputRoot s values values.id)
  cases hg : (newGenerator templateFS (s.outputRoot values)).generate values w with
  | mk err w1 =>
    rw [hg] at herr hgen
    cases err with
    | none => simp at herr
    | some e =>
      simp only at hgen ⊢
      exact hgen (by simp)

/-! ## The files `generateFiles` writes -/

theorem nextFault_fs (w : World) : w.nextFault.2.fs = w.fs := by
  unfold World.nextFault; split <;> rfl

theorem osMkdirAll_files (w : World) (path : Str) :
    (osMkdirAll w path).2.fs.files = w.fs.files := by
  unfold osMkdirAll
  split
  · rfl
  · simp only
    split
    · rw [nextFault_fs]
    · simp only [nextFault_fs]

theorem osMkdirAll_isDir_mono (w : World) (path q : Str) (h : w.fs.isDir q = true) :
    (osMkdirAll w path).2.fs.isDir q = true := by
  unfold osMkdirAll
  split
  · exact h
  · simp only
    split
    · rw [nextFault_fs]; exact h
    · simp only [nextFault_fs]
      simp only [FileSys.isDir, Bool.or_eq_true, decide_eq_true_eq, List.contains_eq_any_beq,
        List.any_eq_true, beq_iff_eq] at h ⊢
      rcases h with h | ⟨x, hx, hxq⟩
      · exact Or.inl h
      · exact Or.inr ⟨x, List.mem_append_left _ hx, hxq⟩

theorem isDir_of_mem_dirs (fs : FileSys) (q : Str) (h : q ∈ fs.dirs) : fs.isDir q = true := by
  simp only [FileSys.isDir, Bool.or_eq_true, decide_eq_true_eq, List.contains_eq_any_beq,
    List.any_eq_true, beq_iff_eq]
  exact Or.inr ⟨q, h, rfl⟩

theorem osMkdirAll_isDir (w w1 : World) (path : Str) (h : osMkdirAll w path = (none, w1)) :
    w1.fs.isDir path = true := by
  unfold osMkdirAll at h
  split at h
  · rename_i hd
    simp only [Prod.mk.injEq, true_and] at h
    rw [← h]; exact hd
  · simp only at h
    split at h
    · cases h
    · rename_i hd hc
      simp only [Prod.mk.injEq, true_and] at h
      rw [← h]
      have hmem : path ∈ (ancestorsOf path ++ [path]).filter (fun d => !w.fs.isDir d) := by
        rw [List.mem_filter]
        refine ⟨List.mem_append_right _ (List.mem_singleton_self _), ?_⟩
        simpa using hd
      apply isDir_of_mem_dirs
      simp only [nextFault_fs]
      exact List.mem_append_right _ hmem

theorem isFile_append (files : List (Str × Str)) (p content q : Str) :
    ({ dirs := [], files := files.filter (fun f => f.1 ≠ p) ++ [(p, content)] } : FileSys).isFile q
      = (({ dirs := [], files := files } : FileSys).isFile q || decide (q = p)) := by
  simp only [FileSys.isFile, List.any_append, List.any_cons, List.any_nil, Bool.or_false,
    List.any_filter]
  by_cases hq : q = p
  · subst hq
    simp
  · have hq2 : ¬ p = q := fun h => hq h.symm
    simp only [hq, hq2, decide_False, Bool.or_false]
    congr 1
    funext f
    by_cases hf : f.1 = q
    · simp [hf, hq]
    · simp [hf]

theorem osCreate_ok (w w1 : World) (path : Str) (h : osCreate w path = (none, w1)) :
    w1.fs.dirs = w.fs.dirs ∧ ∀ q, w1.fs.isFile q = (w.fs.isFile q || decide (q = path)) := by
  unfold osCreate at h
  simp only at h
  split at h
  · cases h
  · simp only [Prod.mk.injEq, true_and] at h
    subst h
    refine ⟨by simp only [nextFault_fs], ?_⟩
    intro q
    simp only [nextFault_fs]
    exact isFile_append w.fs.files path [] q

theorem osCreate_error (w w1 : World) (path : Str) (e : GenError)
    (h : osCreate w path = (some e, w1)) : w1.fs = w.fs := by
  unfold osCreate at h
  simp only at h
  split at h
  · simp only [Prod.mk.injEq] at h
    rw [← h.2]; exact nextFault_fs w
  · cases h

theorem osWrite_ok (w w1 : World) (path content : Str) (h : osWrite w path content = (none, w1)) :
    w1.fs.dirs = w.fs.dirs ∧ ∀ q, w1.fs.isFile q = (w.fs.isFile q || decide (q = path)) := by
  unfold osWrite at h
  simp only at h
  split at h
  · cases h
  · simp only [Prod.mk.injEq, true_and] at h
    subst h
    refine ⟨by simp only [nextFault_fs], ?_⟩
    intro q
    simp only [nextFault_fs]
    exact isFile_append w.fs.files path content q

theorem osWrite_error (w w1 : World) (path content : Str) (e : GenError)
    (h : osWrite w path content = (some e, w1)) : w1.fs = w.fs := by
  unfold osWrite at h
  simp only at h
  split at h
  · simp only [Prod.mk.injEq] at h
    rw [← h.2]; exact nextFault_fs w
  · cases h

/-- What `renderTemplates` does to the files: none is lost, every new one is
the output of one of the templates, the directories stay, and after a run
without error the output of every template is there. -/
theorem renderTemplates_files (output : Str) (values : TemplateValues)
    (templates : List Template) : ∀ w : World,
    (renderTemplates output values templates w).2.fs.dirs = w.fs.dirs ∧
    (∀ q, w.fs.isFile q = true → (renderTemplates output values templates w).2.fs.isFile q = true) ∧
    (∀ q, (renderTemplates output values templates w).2.fs.isFile q = true →
      w.fs.isFile q = true ∨ ∃ t ∈ templates,
        q = pathClean (filepathJoin [output, removeFirst ".tmpl".toList t.name])) ∧
    ((renderTemplates output values templates w).1 = none →
      ∀ t ∈ templates, (renderTemplates output values templates w).2.fs.isFile
        (pathClean (filepathJoin [output, removeFirst ".tmpl".toList t.name])) = true) := by
  induction templates with
  | nil =>
    intro w
    refine ⟨rfl, fun q h => h, fun q h => Or.inl h, ?_⟩
    intro _ t ht
    cases ht
  | cons t ts ih =>
    intro w
    unfold renderTemplates
    simp only
    cases hc : osCreate w (pathClean (filepathJoin [output, removeFirst ".tmpl".toList t.name])) with
    | mk e1 w1 =>
      cases e1 with
      | some err =>
        simp only
        have hfs := osCreate_error w w1 _ err hc
        rw [hfs]
        refine ⟨rfl, fun q h => h, fun q h => Or.inl h, ?_⟩
        intro h; cases h
      | none =>
        simp only
        obtain ⟨hd1, hf1⟩ := osCreate_ok w w1 _ hc
        cases hw : osWrite w1 (pathClean (filepathJoin [output, removeFirst ".tmpl".toList t.name]))
            (t.execute values).1 with
        | mk e2 w2 =>
          cases e2 with
          | some err =>
            simp only
            have hfs := osWrite_error w1 w2 _ _ err hw
            rw [hfs]
            refine ⟨hd1, ?_, ?_, ?_⟩
            · intro q hq; rw [hf1, hq]; rfl
            · intro q hq
              rw [hf1] at hq
              simp only [Bool.or_eq_true, decide_eq_true_eq] at hq
              rcases hq with hq | hq
              · exact Or.inl hq
              · exact Or.inr ⟨t, List.mem_cons_self _ _, hq⟩
            · intro h; cases h
          | none =>
            simp only
            obtain ⟨hd2, hf2⟩ := osWrite_ok w1 w2 _ _ hw
            have hmono : ∀ q, w.fs.isFile q = true → w2.fs.isFile q = true := by
              intro q hq; rw [hf2, hf1, hq]; rfl
            have hframe : ∀ q, w2.fs.isFile q = true → w.fs.isFile q = true ∨
                q = pathClean (filepathJoin [output, removeFirst ".tmpl".toList t.name]) := by
              intro q hq
              rw [hf2, hf1] at hq
              simp only [Bool.or_eq_true, decide_eq_true_eq] at hq
              tauto
            have hself : w2.fs.isFile
                (pathClean (filepathJoin [output, removeFirst ".tmpl".toList t.name])) = true := by
              rw [hf2]; simp
            split
            · obtain ⟨i1, i2, i3, i4⟩ := ih w2
              refine ⟨by rw [i1, hd2, hd1], fun q hq => i2 q (hmono q hq), ?_, ?_⟩
              · intro q hq
                rcases i3 q hq with h | ⟨u, hu, rfl⟩
                · rcases hframe q h with h | h
                  · exact Or.inl h
                  · exact Or.inr ⟨t, List.mem_cons_self _ _, h⟩
                · exact Or.inr ⟨u, List.mem_cons_of_mem _ hu, rfl⟩
              · intro hok u hu
                rcases List.mem_cons.mp hu with rfl | hu
                · exact i2 _ hself
                · exact i4 hok u hu
            · refine ⟨by rw [hd2, hd1], hmono, ?_, ?_⟩
              · intro q hq
                rcases hframe q hq with h | h
                · exact Or.inl h
                · exact Or.inr ⟨t, List.mem_cons_self _ _, h⟩
              · intro h; cases h


theorem isDir_of_dirs_eq (fs1 fs2 : FileSys) (h : fs1.dirs = fs2.dirs) (q : Str) :
    fs1.isDir q = fs2.isDir q := by
  simp only [FileSys.isDir, h]

/-- What the loop of `generateFiles` does to the output: no file and no
directory is lost, every new file is the output of a template of one of the
directories, and after a run without error the output directory of every
directory exists and the output of every template of every directory is
there. -/
theorem generateFilesLoop_files (g : Generator) (output filesDir : Str)
    (values : TemplateValues) (dirs : List Str) : ∀ w : World,
    (∀ q, w.fs.isFile q = true →
      (g.generateFilesLoop output filesDir values dirs w).2.fs.isFile q = true) ∧
    (∀ q, w.fs.isDir q = true →
      (g.generateFilesLoop output filesDir values dirs w).2.fs.isDir q = true) ∧
    (∀ q, (g.generateFilesLoop output filesDir values dirs w).2.fs.isFile q = true →
      w.fs.isFile q = true ∨ ∃ d ∈ dirs, ∃ ts, getRuntimeTemplates g.templateFS d = .ok ts ∧
        ∃ t ∈ ts, q = renderedPath output filesDir d t) ∧
    ((g.generateFilesLoop output filesDir values dirs w).1 = none →
      ∀ d ∈ dirs,
        (g.generateFilesLoop output filesDir values dirs w).2.fs.isDir
          (filepathJoin [output, stringsTrimPrefix d filesDir]) = true ∧
        ∀ ts, getRuntimeTemplates g.templateFS d = .ok ts → ∀ t ∈ ts,
          (g.generateFilesLoop output filesDir values dirs w).2.fs.isFile
            (renderedPath output filesDir d t) = true) := by
  induction dirs with
  | nil =>
    intro w
    refine ⟨fun q h => h, fun q h => h, fun q h => Or.inl h, ?_⟩
    intro _ d hd
    cases hd
  | cons d ds ih =>
    intro w
    unfold Generator.generateFilesLoop
    simp only
    unfold ensureDir
    cases hm : osMkdirAll w (filepathJoin [output, stringsTrimPrefix d filesDir]) with
    | mk e1 w1 =>
      have hfiles : w1.fs.files = w.fs.files := by
        have := osMkdirAll_files w (filepathJoin [output, stringsTrimPrefix d filesDir])
        rw [hm] at this; exact this
      have hisFile : ∀ q, w1.fs.isFile q = w.fs.isFile q := by
        intro q; simp only [FileSys.isFile, hfiles]
      have hdirs : ∀ q, w.fs.isDir q = true → w1.fs.isDir q = true := by
        intro q hq
        have := osMkdirAll_isDir_mono w (filepathJoin [output, stringsTrimPrefix d filesDir]) q hq
        rw [hm] at this; exact this
      cases e1 with
      | some err =>
        simp only
        refine ⟨fun q h => by rw [hisFile]; exact h, hdirs,
          fun q h => Or.inl (by rw [← hisFile]; exact h), ?_⟩
        intro h; cases h
      | none =>
        simp only
        have hout : w1.fs.isDir (filepathJoin [output, stringsTrimPrefix d filesDir]) = true :=
          osMkdirAll_isDir w w1 _ hm
        obtain ⟨i1, i2, i3, i4⟩ := ih w1
        cases hg : getRuntimeTemplates g.templateFS d with
        | error ge =>
          cases ge with
          | noMatch pat =>
            simp only
            refine ⟨fun q h => i1 q (by rw [hisFile]; exact h), fun q h => i2 q (hdirs q h), ?_, ?_⟩
            · intro q hq
              rcases i3 q hq with h | ⟨d2, hd2, ts, hts, t, ht, rfl⟩
              · exact Or.inl (by rw [← hisFile]; exact h)
              · exact Or.inr ⟨d2, List.mem_cons_of_mem _ hd2, ts, hts, t, ht, rfl⟩
            · intro hok d2 hd2
              rcases List.mem_cons.mp hd2 with rfl | hd2
              · refine ⟨i2 _ hout, ?_⟩
                intro ts hts
                rw [hg] at hts
                cases hts
              · exact i4 hok d2 hd2
          | mkdir _ | readDir _ | badPattern | read _ | parse _ | definition _ | create _
            | execute _ | remove _ | depthExceeded =>
            simp only
            refine ⟨fun q h => by rw [hisFile]; exact h, hdirs,
              fun q h => Or.inl (by rw [← hisFile]; exact h), ?_⟩
            intro h; cases h
        | ok templates =>
          simp only
          obtain ⟨r1, r2, r3, r4⟩ := renderTemplates_files
            (filepathJoin [output, stringsTrimPrefix d filesDir]) values templates w1
          cases hr : renderTemplates (filepathJoin [output, stringsTrimPrefix d filesDir]) values
              templates w1 with
          | mk e2 w2 =>
            rw [hr] at r1 r2 r3 r4
            simp only at r1 r2 r3 r4
            have hdirs2 : ∀ q, w.fs.isDir q = true → w2.fs.isDir q = true := by
              intro q hq
              rw [isDir_of_dirs_eq w2.fs w1.fs r1]
              exact hdirs q hq
            have hframe2 : ∀ q, w2.fs.isFile q = true → w.fs.isFile q = true ∨
                ∃ t ∈ templates, q = renderedPath output filesDir d t := by
              intro q hq
              rcases r3 q hq with h | ⟨t, ht, rfl⟩
              · exact Or.inl (by rw [← hisFile]; exact h)
              · exact Or.inr ⟨t, ht, rfl⟩
            cases e2 with
            | some err =>
              simp only
              refine ⟨fun q h => r2 q (by rw [hisFile]; exact h), hdirs2, ?_, ?_⟩
              · intro q hq
                rcases hframe2 q hq with h | ⟨t, ht, rfl⟩
                · exact Or.inl h
                · exact Or.inr ⟨d, List.mem_cons_self _ _, templates, hg, t, ht, rfl⟩
              · intro h; cases h
            | none =>
              simp only
              obtain ⟨j1, j2, j3, j4⟩ := ih w2
              refine ⟨fun q h => j1 q (r2 q (by rw [hisFile]; exact h)),
                fun q h => j2 q (hdirs2 q h), ?_, ?_⟩
              · intro q hq
                rcases j3 q hq with h | ⟨d2, hd2, ts, hts, t, ht, rfl⟩
                · rcases hframe2 q h with h | ⟨t, ht, rfl⟩
                  · exact Or.inl h
                  · exact Or.inr ⟨d, List.mem_cons_self _ _, templates, hg, t, ht, rfl⟩
                · exact Or.inr ⟨d2, List.mem_cons_of_mem _ hd2, ts, hts, t, ht, rfl⟩
              · intro hok d2 hd2
                rcases List.mem_cons.mp hd2 with rfl | hd2
                · refine ⟨j2 _ ?_, ?_⟩
                  · rw [isDir_of_dirs_eq w2.fs w1.fs r1]; exact hout
                  · intro ts hts t ht
                    rw [hg] at hts
                    cases hts
                    exact j1 _ (r4 rfl t ht)
                · exact j4 hok d2 hd2

/-! ## `path.Match` on patterns with a literal directory part -/

theorem utf8Encode_ascii (c : Char) (b : Nat) (hb : b ∈ utf8Encode c) (hlt : b < 128) :
    b = c.toNat := by
  unfold utf8Encode at hb
  simp only at hb
  split at hb
  · simpa using hb
  · split at hb
    · simp only [List.mem_cons, List.mem_singleton, List.not_mem_nil, or_false] at hb
      omega
    · split at hb
      · simp only [List.mem_cons, List.mem_singleton, List.not_mem_nil, or_false] at hb
        omega
      · simp only [List.mem_cons, List.mem_singleton, List.not_mem_nil, or_false] at hb
        omega

theorem utf8Bytes_mem (s : Str) (b : Nat) (hb : b ∈ utf8Bytes s) (hlt : b < 128) :
    ∃ c ∈ s, c.toNat = b := by
  unfold utf8Bytes at hb
  rw [List.mem_flatMap] at hb
  obtain ⟨c, hc, hbc⟩ := hb
  exact ⟨c, hc, (utf8Encode_ascii c b hbc hlt).symm⟩

theorem utf8Bytes_append (s t : Str) : utf8Bytes (s ++ t) = utf8Bytes s ++ utf8Bytes t := by
  simp [utf8Bytes, List.flatMap_append]

/-- The bytes of a string without glob metacharacter hold none of `*`, `?`,
`[` and the backslash. -/
theorem utf8Bytes_plain (s : Str) (h : hasMeta s = false) :
    ∀ b ∈ utf8Bytes s, b ≠ 42 ∧ b ≠ 63 ∧ b ≠ 91 ∧ b ≠ 92 := by
  intro b hb
  have key : ∀ n : Nat, n < 128 → b = n → ∃ c ∈ s, c.toNat = n := by
    intro n hn hbn
    subst hbn
    exact utf8Bytes_mem s b hb hn
  have hno : ∀ c ∈ s, c ≠ '*' ∧ c ≠ '?' ∧ c ≠ '[' ∧ c ≠ '\\' := by
    intro c hc
    unfold hasMeta at h
    rw [List.any_eq_false] at h
    have := h c hc
    simp only [Bool.or_eq_true, decide_eq_true_eq, not_or] at this
    obtain ⟨⟨⟨a1, a2⟩, a3⟩, a4⟩ := this
    exact ⟨a1, a2, a3, a4⟩
  have hchar : ∀ (c : Char) (d : Char), c.toNat = d.toNat → c = d := by
    intro c d hcd
    exact Char.ext (UInt32.ext (by simpa [Char.toNat] using hcd))
  refine ⟨?_, ?_, ?_, ?_⟩
  · intro h0
    obtain ⟨c, hc, hcn⟩ := key 42 (by decide) h0
    exact (hno c hc).1 (hchar c '*' (by rw [hcn]; rfl))
  · intro h0
    obtain ⟨c, hc, hcn⟩ := key 63 (by decide) h0
    exact (hno c hc).2.1 (hchar c '?' (by rw [hcn]; rfl))
  · intro h0
    obtain ⟨c, hc, hcn⟩ := key 91 (by decide) h0
    exact (hno c hc).2.2.1 (hchar c '[' (by rw [hcn]; rfl))
  · intro h0
    obtain ⟨c, hc, hcn⟩ := key 92 (by decide) h0
    exact (hno c hc).2.2.2 (hchar c '\\' (by rw [hcn]; rfl))

theorem scanChunkEnd_literal (lit rest : List Nat)
    (h : ∀ b ∈ lit, b ≠ 42 ∧ b ≠ 91 ∧ b ≠ 92) :
    scanChunkEnd false (lit ++ 42 :: rest) = lit.length := by
  induction lit with
  | nil =>
    rw [List.nil_append]
    unfold scanChunkEnd
    simp
  | cons c cs ih =>
    obtain ⟨h1, h2, h3⟩ := h c (List.mem_cons_self _ _)
    have ih2 := ih (fun b hb => h b (List.mem_cons_of_mem _ hb))
    rw [List.cons_append]
    unfold scanChunkEnd
    simp only [h1, h2, h3, if_false]
    split
    · rw [ih2, List.length_cons]; omega
    · rw [ih2, List.length_cons]; omega

/-- A chunk without character class and backslash is well formed: matching
it never gives `ErrBadPattern`. -/
theorem matchChunkLoop_literal : ∀ (fuel : Nat) (chunk s : List Nat) (failed : Bool),
    (∀ b ∈ chunk, b ≠ 91 ∧ b ≠ 92) → chunk.length < fuel →
    ∃ r, matchChunkLoop fuel chunk s failed = .ok r := by
  intro fuel
  induction fuel with
  | zero => intro chunk s failed _ hl; omega
  | succ n ih =>
    intro chunk s failed h hl
    cases chunk with
    | nil => exact ⟨_, rfl⟩
    | cons c rest =>
      obtain ⟨h1, h2⟩ := h c (List.mem_cons_self _ _)
      have hrest : ∀ b ∈ rest, b ≠ 91 ∧ b ≠ 92 := fun b hb => h b (List.mem_cons_of_mem _ hb)
      have hl2 : rest.length < n := by simp at hl; omega
      simp only [matchChunkLoop, h1, h2, if_false]
      split
      · exact ih _ _ _ hrest hl2
      · exact ih _ _ _ hrest hl2

theorem matchChunkLoop_failed : ∀ (fuel : Nat) (chunk s : List Nat),
    (∀ b ∈ chunk, b ≠ 91 ∧ b ≠ 92) → chunk.length < fuel →
    matchChunkLoop fuel chunk s true = .ok none := by
  intro fuel
  induction fuel with
  | zero => intro chunk s _ hl; omega
  | succ n ih =>
    intro chunk s h hl
    cases chunk with
    | nil => rfl
    | cons c rest =>
      obtain ⟨h1, h2⟩ := h c (List.mem_cons_self _ _)
      have hrest : ∀ b ∈ rest, b ≠ 91 ∧ b ≠ 92 := fun b hb => h b (List.mem_cons_of_mem _ hb)
      have hl2 : rest.length < n := by simp at hl; omega
      simp only [matchChunkLoop, h1, h2, if_false, Bool.true_or, if_true]
      split
      · exact ih _ _ hrest hl2
      · exact ih _ _ hrest hl2

theorem matchChunk_literal_nil (chunk : List Nat) (hne : chunk ≠ [])
    (h : ∀ b ∈ chunk, b ≠ 91 ∧ b ≠ 92) : matchChunk chunk [] = .ok none := by
  cases chunk with
  | nil => exact absurd rfl hne
  | cons c rest =>
    obtain ⟨h1, h2⟩ := h c (List.mem_cons_self _ _)
    have hrest : ∀ b ∈ rest, b ≠ 91 ∧ b ≠ 92 := fun b hb => h b (List.mem_cons_of_mem _ hb)
    unfold matchChunk
    simp only [List.length_cons, matchChunkLoop, h1, h2, if_false, List.isEmpty_nil, Bool.or_true,
      if_true]
    split
    · exact matchChunkLoop_failed _ _ _ hrest (Nat.lt_succ_self _)
    · exact matchChunkLoop_failed _ _ _ hrest (Nat.lt_succ_self _)

theorem matchAfterStar_literal (chunk : List Nat) (last : Bool)
    (h : ∀ b ∈ chunk, b ≠ 91 ∧ b ≠ 92) :
    ∀ name, ∃ r, matchAfterStar chunk last name = .ok r := by
  intro name
  induction name with
  | nil => exact ⟨_, rfl⟩
  | cons b rest ih =>
    unfold matchAfterStar
    split
    · exact ⟨_, rfl⟩
    · obtain ⟨r, hr⟩ := matchChunkLoop_literal (chunk.length + 1) chunk rest false h (by omega)
      unfold matchChunk
      rw [hr]
      cases r with
      | none => exact ih
      | some t =>
        simp only
        split
        · exact ih
        · exact ⟨_, rfl⟩

/-- The pattern `*.tmpl` is well formed: matching a name against it never
gives `ErrBadPattern`. -/
theorem pathMatch_tmpl (name : Str) : ∃ b, pathMatch "*.tmpl".toList name = .ok b := by
  have hchunk : ∀ b ∈ [46, 116, 109, 112, 108], b ≠ 91 ∧ b ≠ 92 := by decide
  have hscan : scanChunk [42, 46, 116, 109, 112, 108] = (true, [46, 116, 109, 112, 108], []) := by
    decide
  have hbytes : utf8Bytes "*.tmpl".toList = [42, 46, 116, 109, 112, 108] := by decide
  unfold pathMatch
  rw [hbytes]
  generalize utf8Bytes name = nm
  simp only [List.length_cons, List.length_nil, pathMatchLoop, hscan]
  simp only [reduceCtorEq, if_false, Bool.true_and, decide_False, Bool.false_eq_true, if_true,
    decide_True, Bool.or_false, ne_eq, not_true_eq_false, Bool.or_self]
  obtain ⟨r, hr⟩ := matchChunkLoop_literal 6 [46, 116, 109, 112, 108] nm false hchunk (by decide)
  unfold matchChunk
  simp only [List.length_cons, List.length_nil]
  rw [hr]
  have hstar := matchAfterStar_literal [46, 116, 109, 112, 108] true hchunk nm
  obtain ⟨r2, hr2⟩ := hstar
  cases r with
  | some t =>
    by_cases ht : t = []
    · subst ht
      exact ⟨_, rfl⟩
    · simp only [ht, decide_False, if_false]
      rw [hr2]
      cases r2 with
      | some t2 => exact ⟨_, rfl⟩
      | none => exact ⟨_, rfl⟩
  | none =>
    simp only
    rw [hr2]
    cases r2 with
    | some t2 => exact ⟨_, rfl⟩
    | none => exact ⟨_, rfl⟩

/-! ## `getRuntimeTemplates` on a directory without glob metacharacter -/

theorem rtakeWhile_after_slash (a b : Str) (hb : '/' ∉ b) :
    (a ++ '/' :: b).rtakeWhile (fun c => c ≠ '/') = b ∧
    (a ++ '/' :: b).rdropWhile (fun c => c ≠ '/') = a ++ ['/'] := by
  have hrev : (a ++ '/' :: b).reverse = b.reverse ++ '/' :: a.reverse := by simp
  have hall : ∀ c ∈ b.reverse, (fun c => decide (c ≠ '/')) c = true := by
    intro c hc
    simp only [ne_eq, decide_not, Bool.not_eq_true', decide_eq_false_iff_not]
    intro h
    exact hb (h ▸ List.mem_reverse.mp hc)
  constructor
  · unfold List.rtakeWhile
    rw [hrev, List.takeWhile_append_of_pos hall]
    simp [List.takeWhile]
  · unfold List.rdropWhile
    rw [hrev, List.dropWhile_append_of_pos hall]
    simp [List.dropWhile]

theorem pathBase_child (a name : Str) (hn : validElement name = true) :
    pathBase (a ++ '/' :: name) = name := by
  have hne := validElement_ne_nil name hn
  have hns := validElement_no_slash name hn
  unfold pathBase
  simp only [List.append_eq_nil, reduceCtorEq, and_false, if_false]
  have hlast : (a ++ '/' :: name).rdropWhile (fun c => c = '/') = a ++ '/' :: name := by
    unfold List.rdropWhile
    have hrev : (a ++ '/' :: name).reverse = name.reverse ++ '/' :: a.reverse := by simp
    rw [hrev]
    cases hr : name.reverse with
    | nil => simp at hr; exact absurd hr hne
    | cons c cs =>
      have hc : c ≠ '/' := by
        intro h
        apply hns
        rw [← List.mem_reverse, hr, h]
        exact List.mem_cons_self _ _
      have hback : c :: (cs ++ '/' :: a.reverse) = (a ++ '/' :: name).reverse := by
        rw [hrev, hr]; rfl
      rw [List.cons_append, List.dropWhile_cons_of_neg (by simpa using hc), hback,
        List.reverse_reverse]
  rw [hlast, (rtakeWhile_after_slash a name hns).1]
  simp [hne]

theorem hasMeta_append (a b : Str) : hasMeta (a ++ b) = (hasMeta a || hasMeta b) := by
  simp [hasMeta, List.any_append]

theorem hasMeta_joinElements (xs : List Str) (h : ∀ e ∈ xs, hasMeta e = false) :
    hasMeta (joinElements xs) = false := by
  induction xs with
  | nil => rfl
  | cons a rest ih =>
    cases rest with
    | nil =>
      simpa [joinElements, List.intercalate, List.intersperse] using h a (List.mem_cons_self _ _)
    | cons b bs =>
      rw [joinElements_cons_cons, hasMeta_append, h a (List.mem_cons_self _ _)]
      have := ih (fun e he => h e (List.mem_cons_of_mem _ he))
      simp only [Bool.false_or]
      rw [show '/' :: joinElements (b :: bs) = ['/'] ++ joinElements (b :: bs) from rfl,
        hasMeta_append, this]
      rfl

/-- The pattern of `getRuntimeTemplates` for a directory given by its
elements. -/
theorem runtimePattern_joinElements (es : List Str) (hne : es ≠ [])
    (h : ∀ e ∈ es, validElement e = true) :
    filepathJoin [templatesFilesDir, joinElements es, "*.tmpl".toList]
      = joinElements ("templates".toList :: "files".toList :: es) ++ "/*.tmpl".toList := by
  have hje := (joinElements_head es hne h).2
  have hall : ∀ e ∈ "templates".toList :: "files".toList :: (es ++ ["*.tmpl".toList]),
      validElement e = true := by
    intro e he
    rcases List.mem_cons.mp he with rfl | he
    · decide
    · rcases List.mem_cons.mp he with rfl | he
      · decide
      · rcases List.mem_append.mp he with he | he
        · exact h e he
        · simp only [List.mem_singleton] at he
          rw [he]; decide
  have h1 : filepathJoin [templatesFilesDir, joinElements es, "*.tmpl".toList]
      = pathClean (templatesFilesDir ++ '/' :: (joinElements es ++ '/' :: "*.tmpl".toList)) := by
    simp [filepathJoin, List.dropWhile, templatesFilesDir, List.intercalate,
      List.intersperse]
  have h2 : joinElements es ++ '/' :: "*.tmpl".toList = joinElements (es ++ ["*.tmpl".toList]) := by
    rw [joinElements_append es ["*.tmpl".toList] hne (by simp)]
    rfl
  have h3 : templatesFilesDir ++ '/' :: joinElements (es ++ ["*.tmpl".toList])
      = joinElements ("templates".toList :: "files".toList :: (es ++ ["*.tmpl".toList])) := by
    have := joinElements_append ["templates".toList, "files".toList] (es ++ ["*.tmpl".toList])
      (by simp) (by simp)
    rw [show ["templates".toList, "files".toList] ++ (es ++ ["*.tmpl".toList])
      = "templates".toList :: "files".toList :: (es ++ ["*.tmpl".toList]) from rfl] at this
    rw [this]
    rfl
  have h4 : joinElements ("templates".toList :: "files".toList :: (es ++ ["*.tmpl".toList]))
      = joinElements ("templates".toList :: "files".toList :: es) ++ "/*.tmpl".toList := by
    rw [show "templates".toList :: "files".toList :: (es ++ ["*.tmpl".toList])
      = ("templates".toList :: "files".toList :: es) ++ ["*.tmpl".toList] from rfl,
      joinElements_append _ _ (by simp) (by simp)]
    rfl
  rw [h1, h2, h3]
  rw [pathClean_joinElements _ (by simp) hall, h4]

/-- A pattern that is a literal directory followed by `/*.tmpl` is well
formed. -/
theorem pathMatch_literal_dir (dir : Str) (hm : hasMeta dir = false) :
    ∃ b, pathMatch (dir ++ "/*.tmpl".toList) [] = .ok b := by
  have hlit : hasMeta (dir ++ ['/']) = false := by
    rw [hasMeta_append, hm]; rfl
  have hplain := utf8Bytes_plain (dir ++ ['/']) hlit
  have hbytes : utf8Bytes (dir ++ "/*.tmpl".toList)
      = utf8Bytes (dir ++ ['/']) ++ 42 :: [46, 116, 109, 112, 108] := by
    rw [show dir ++ "/*.tmpl".toList = (dir ++ ['/']) ++ "*.tmpl".toList by simp,
      utf8Bytes_append]
    rfl
  have hlne : utf8Bytes (dir ++ ['/']) ≠ [] := by
    rw [utf8Bytes_append]
    simp [utf8Bytes, utf8Encode]
  unfold pathMatch
  rw [hbytes]
  generalize utf8Bytes (dir ++ ['/']) = lit at hplain hlne
  cases lit with
  | nil => exact absurd rfl hlne
  | cons c cs =>
    have hc := hplain c (List.mem_cons_self _ _)
    have hdrop : ((c :: cs) ++ 42 :: [46, 116, 109, 112, 108]).dropWhile (fun x => decide (x = 42))
        = (c :: cs) ++ 42 :: [46, 116, 109, 112, 108] := by
      simp [List.dropWhile, hc.1]
    have hend := scanChunkEnd_literal (c :: cs) [46, 116, 109, 112, 108]
      (fun b hb => ⟨(hplain b hb).1, (hplain b hb).2.2.1, (hplain b hb).2.2.2⟩)
    have hscan : scanChunk ((c :: cs) ++ 42 :: [46, 116, 109, 112, 108])
        = (false, c :: cs, 42 :: [46, 116, 109, 112, 108]) := by
      unfold scanChunk
      simp only [hdrop, hend]
      simp [hc.1]
    have hchunk := matchChunk_literal_nil (c :: cs) (by simp)
      (fun b hb => ⟨(hplain b hb).2.2.1, (hplain b hb).2.2.2⟩)
    have hcheck : checkPattern (42 :: [46, 116, 109, 112, 108]).length
        (42 :: [46, 116, 109, 112, 108]) = .ok () := rfl
    rw [show utf8Bytes ([] : Str) = [] from rfl, pathMatchLoop]
    simp only [hscan, hchunk, hcheck]
    simp


theorem matchesTmpl_eq (name : Str) : pathMatch "*.tmpl".toList name = .ok (matchesTmpl name) := by
  obtain ⟨b, hb⟩ := pathMatch_tmpl name
  unfold matchesTmpl
  rw [hb]

theorem globEntries_tmpl (dir : Str) (entries : List FsNode) : ∀ m : List Str,
    globEntries dir "*.tmpl".toList entries m
      = .ok (m ++ (entries.filter (fun n => matchesTmpl n.name)).map
          (fun n => pathJoin [dir, n.name])) := by
  induction entries with
  | nil => intro m; simp [globEntries]
  | cons info infos ih =>
    intro m
    rw [globEntries, matchesTmpl_eq]
    simp only
    rw [ih]
    by_cases hm : matchesTmpl info.name = true
    · simp [hm, List.filter]
    · simp only [Bool.not_eq_true] at hm
      simp [hm, List.filter]

/-- The glob of `getRuntimeTemplates` in a directory whose path holds no glob
metacharacter: the entries of the directory that match `*.tmpl`. -/
theorem fsGlob_literal_dir (templateFS entries : List FsNode) (dir : Str)
    (hm : hasMeta dir = false) (hr : fsReadDir templateFS dir = some entries) :
    fsGlob templateFS (dir ++ "/*.tmpl".toList)
      = .ok ((entries.filter (fun n => matchesTmpl n.name)).map
          (fun n => pathJoin [dir, n.name])) := by
  obtain ⟨b, hb⟩ := pathMatch_literal_dir dir hm
  have hmeta : hasMeta (dir ++ "/*.tmpl".toList) = true := by
    rw [hasMeta_append, show hasMeta "/*.tmpl".toList = true from rfl, Bool.or_true]
  have hsplit := rtakeWhile_after_slash dir "*.tmpl".toList (by decide)
  have hpat : dir ++ "/*.tmpl".toList = dir ++ '/' :: "*.tmpl".toList := rfl
  have hclean : cleanGlobPath (dir ++ ['/']) = dir := by
    unfold cleanGlobPath
    simp
  unfold fsGlob
  rw [globWithLimit]
  simp only [Nat.not_lt_zero, if_false, hb, hmeta, Bool.not_true, Bool.false_eq_true, pathSplit]
  rw [hpat, hsplit.1, hsplit.2, hclean]
  simp only [hm, Bool.not_false, if_true, glob, hr]
  rw [globEntries_tmpl]
  rfl

theorem lookupNode_child (templateFS entries : List FsNode) (xs : List Str) (n : FsNode)
    (hl : lookupDir templateFS xs = some entries)
    (hd : siblingsDistinct entries = true) (hm : n ∈ entries) :
    lookupNode templateFS (xs ++ [n.name]) = some n := by
  unfold lookupNode
  rw [List.getLast?_concat]
  simp only [List.dropLast_concat, hl]
  exact find?_of_distinct entries hd n hm

theorem fsReadFile_child (templateFS entries : List FsNode) (xs : List Str) (n : FsNode)
    (hne : xs ≠ []) (hxs : ∀ e ∈ xs, validElement e = true)
    (hl : lookupDir templateFS xs = some entries)
    (hv : entriesValid entries = true) (hd : siblingsDistinct entries = true)
    (hm : n ∈ entries) :
    pathJoin [joinElements xs, n.name] = joinElements xs ++ '/' :: n.name ∧
    fsReadFile templateFS (joinElements xs ++ '/' :: n.name)
      = (match n with
         | .file _ parsed => some parsed
         | .dir _ _ => none) := by
  have hn := validElement_name_of_mem entries hv n hm
  have hall : ∀ e ∈ xs ++ [n.name], validElement e = true := by
    intro e he
    rcases List.mem_append.mp he with he | he
    · exact hxs e he
    · simp only [List.mem_singleton] at he
      rw [he]; exact hn
  have hjoin : joinElements (xs ++ [n.name]) = joinElements xs ++ '/' :: n.name := by
    rw [joinElements_append xs [n.name] hne (by simp)]
    simp [joinElements, List.intercalate, List.intersperse]
  constructor
  · rw [pathJoin_child xs n.name hxs hn, hjoin]
  · unfold fsReadFile
    rw [← hjoin, splitOn_joinElements _ (by simp) hall]
    have hallb : (xs ++ [n.name]).all validElement = true := by
      rw [List.all_eq_true]; exact hall
    rw [if_pos hallb, lookupNode_child templateFS entries xs n hl hd hm]
    cases n <;> rfl

theorem parseFiles_entries (templateFS entries : List FsNode) (xs : List Str)
    (hne : xs ≠ []) (hxs : ∀ e ∈ xs, validElement e = true)
    (hl : lookupDir templateFS xs = some entries)
    (hv : entriesValid entries = true) (hd : siblingsDistinct entries = true)
    (ms : List FsNode) : (∀ n ∈ ms, n ∈ entries) → ∀ set : List Template,
    parseFiles templateFS (ms.map (fun n => pathJoin [joinElements xs, n.name])) set
      = parseEntries (joinElements xs) ms set := by
  induction ms with
  | nil => intro _ set; rfl
  | cons n rest ih =>
    intro hsub set
    have hm : n ∈ entries := hsub n (List.mem_cons_self _ _)
    have hrest : ∀ k ∈ rest, k ∈ entries := fun k hk => hsub k (List.mem_cons_of_mem _ hk)
    obtain ⟨hp, hrd⟩ := fsReadFile_child templateFS entries xs n hne hxs hl hv hd hm
    have hn := validElement_name_of_mem entries hv n hm
    rw [List.map_cons, parseFiles, hp, hrd]
    cases n with
    | dir name sub => rfl
    | file name parsed =>
      cases parsed with
      | none => rfl
      | some p =>
        simp only [parseEntries, FsNode.name]
        rw [pathBase_child _ name hn]
        exact ih hrest _

/-- The templates `getRuntimeTemplates` returns for a directory of the store
whose path holds no glob metacharacter are the templates of the entries of
that directory that match `*.tmpl`, read in the order of the directory. -/
theorem getRuntimeTemplates_literal (templateFS entries : List FsNode) (es : List Str)
    (hne : es ≠ []) (hes : ∀ e ∈ es, validElement e = true)
    (hplain : ∀ e ∈ es, hasMeta e = false)
    (hl : lookupDir templateFS ("templates".toList :: "files".toList :: es) = some entries)
    (hv : entriesValid entries = true) (hd : siblingsDistinct entries = true) :
    getRuntimeTemplates templateFS (joinElements es)
      = templatesOfDir (joinElements ("templates".toList :: "files".toList :: es)) entries := by
  have hall : ∀ e ∈ "templates".toList :: "files".toList :: es, validElement e = true := by
    intro e he
    rcases List.mem_cons.mp he with rfl | he
    · decide
    · rcases List.mem_cons.mp he with rfl | he
      · decide
      · exact hes e he
  have hmeta : hasMeta (joinElements ("templates".toList :: "files".toList :: es)) = false := by
    apply hasMeta_joinElements
    intro e he
    rcases List.mem_cons.mp he with rfl | he
    · rfl
    · rcases List.mem_cons.mp he with rfl | he
      · rfl
      · exact hplain e he
  have hrd : fsReadDir templateFS (joinElements ("templates".toList :: "files".toList :: es))
      = some entries := by
    rw [fsReadDir_joinElements _ _ (by simp) hall, hl]
  unfold getRuntimeTemplates parseFS templatesOfDir
  rw [runtimePattern_joinElements es hne hes]
  simp only [globPatterns]
  rw [fsGlob_literal_dir templateFS entries _ hmeta hrd]
  have hsub : ∀ n ∈ entries.filter (fun n => matchesTmpl n.name), n ∈ entries :=
    fun n hn => (List.mem_filter.mp hn).1
  have hparse := parseFiles_entries templateFS entries
    ("templates".toList :: "files".toList :: es) (by simp) hall hl hv hd
    (entries.filter (fun n => matchesTmpl n.name)) hsub []
  cases hf : entries.filter (fun n => matchesTmpl n.name) with
  | nil => rfl
  | cons n rest =>
    rw [hf] at hparse
    simp only [List.map_cons, List.append_nil]
    rw [← List.map_cons (fun n => pathJoin
      [joinElements ("templates".toList :: "files".toList :: es), n.name]) n rest]
    exact hparse

/-! ## The bounds of the loops of `path.Match` and `fs.Glob`

Every loop that is given a bound gives the same result for every larger bound:
the bound the model passes is never what ends the loop. -/

theorem ite_width (c : Prop) [Decidable c] (x y : Nat × Nat) (hx : 1 ≤ x.2) (hy : 1 ≤ y.2) :
    1 ≤ (if c then x else y).2 := by
  split <;> assumption

theorem decodeRune_width (b : Nat) (rest : List Nat) : 1 ≤ (decodeRune (b :: rest)).2 := by
  unfold decodeRune
  apply ite_width _ _ _ (by simp)
  apply ite_width
  · rcases rest with _ | ⟨b1, t⟩
    · simp
    · exact ite_width _ _ _ (by simp) (by simp)
  apply ite_width
  · rcases rest with _ | ⟨b1, _ | ⟨b2, t⟩⟩
    · simp
    · simp
    · exact ite_width _ _ _ (by simp) (by simp)
  apply ite_width
  · rcases rest with _ | ⟨b1, _ | ⟨b2, _ | ⟨b3, t⟩⟩⟩
    · simp
    · simp
    · simp
    · exact ite_width _ _ _ (by simp) (by simp)
  simp

theorem getEsc_length (chunk : List Nat) (r : Nat) (nchunk : List Nat)
    (h : getEsc chunk = .ok (r, nchunk)) : nchunk.length < chunk.length := by
  unfold getEsc at h
  cases chunk with
  | nil => cases h
  | cons c rest =>
    simp only at h
    split_ifs at h
    all_goals
      simp only [Except.ok.injEq, Prod.mk.injEq] at h
      obtain ⟨_, rfl⟩ := h
      simp only [List.length_drop, List.length_cons]
      have := decodeRune_width c rest
      omega

theorem classRanges_length (r : Nat) : ∀ (fuel : Nat) (chunk : List Nat) (nrange : Nat)
    (m b : Bool) (chunk2 : List Nat),
    classRanges r fuel chunk nrange m = .ok (b, chunk2) → chunk2.length < chunk.length := by
  intro fuel
  induction fuel with
  | zero => intro chunk nrange m b chunk2 h; cases h
  | succ n ih =>
    intro chunk nrange m b chunk2 h
    rw [classRanges] at h
    split at h
    · rename_i hc
      simp only [Except.ok.injEq, Prod.mk.injEq] at h
      obtain ⟨_, rfl⟩ := h
      cases chunk with
      | nil => simp at hc
      | cons c rest => simp
    · cases hg : getEsc chunk with
      | error e => rw [hg] at h; cases h
      | ok v =>
        obtain ⟨lo, c1⟩ := v
        have hl1 := getEsc_length chunk lo c1 hg
        rw [hg] at h
        simp only at h
        split at h
        · cases hg2 : getEsc c1.tail with
          | error e => rw [hg2] at h; cases h
          | ok v2 =>
            obtain ⟨hi, c2⟩ := v2
            have hl2 := getEsc_length c1.tail hi c2 hg2
            rw [hg2] at h
            simp only at h
            have := ih _ _ _ _ _ h
            have : c1.tail.length ≤ c1.length := by simp
            omega
        · have := ih _ _ _ _ _ h
          omega

theorem classRanges_fuel (r : Nat) : ∀ (fuel fuel2 : Nat) (chunk : List Nat) (nrange : Nat)
    (m : Bool), chunk.length < fuel → chunk.length < fuel2 →
    classRanges r fuel chunk nrange m = classRanges r fuel2 chunk nrange m := by
  intro fuel
  induction fuel with
  | zero => intro fuel2 chunk nrange m h1 _; omega
  | succ n ih =>
    intro fuel2 chunk nrange m h1 h2
    cases fuel2 with
    | zero => omega
    | succ n2 =>
      rw [classRanges, classRanges]
      split
      · rfl
      · cases hg : getEsc chunk with
        | error e => rfl
        | ok v =>
          obtain ⟨lo, c1⟩ := v
          have hl1 := getEsc_length chunk lo c1 hg
          simp only
          split
          · cases hg2 : getEsc c1.tail with
            | error e => rfl
            | ok v2 =>
              obtain ⟨hi, c2⟩ := v2
              have hl2 := getEsc_length c1.tail hi c2 hg2
              have : c1.tail.length ≤ c1.length := by simp
              simp only
              exact ih _ _ _ _ (by omega) (by omega)
          · exact ih _ _ _ _ (by omega) (by omega)

theorem matchChunkLoop_fuel : ∀ (fuel fuel2 : Nat) (chunk s : List Nat) (failed : Bool),
    chunk.length < fuel → chunk.length < fuel2 →
    matchChunkLoop fuel chunk s failed = matchChunkLoop fuel2 chunk s failed := by
  intro fuel
  induction fuel with
  | zero => intro fuel2 chunk s failed h1 _; omega
  | succ n ih =>
    intro fuel2 chunk s failed h1 h2
    cases fuel2 with
    | zero => omega
    | succ n2 =>
      cases chunk with
      | nil => rfl
      | cons c rest =>
        simp only [List.length_cons] at h1 h2
        simp only [matchChunkLoop]
        by_cases h91 : c = 91
        · simp only [h91, if_true]
          split
          · rfl
          · rename_i isMatch chunk2 hcr
            have hl := classRanges_length _ _ _ _ _ _ _ hcr
            have hle : (if (rest.head? = some 94) then rest.tail else rest).length
                ≤ rest.length := by
              split
              · simp
              · exact Nat.le_refl _
            exact ih _ _ _ _ (by omega) (by omega)
        · simp only [h91, if_false]
          by_cases h63 : c = 63
          · simp only [h63, if_true]
            exact ih _ _ _ _ (by omega) (by omega)
          · simp only [h63, if_false]
            by_cases h92 : c = 92
            · simp only [h92, if_true]
              cases rest with
              | nil => rfl
              | cons c2 rest2 =>
                simp only [List.length_cons] at h1 h2
                exact ih _ _ _ _ (by omega) (by omega)
            · simp only [h92, if_false]
              exact ih _ _ _ _ (by omega) (by omega)

theorem scanChunkEnd_pos (c : Nat) (rest : List Nat) (hc : c ≠ 42) :
    1 ≤ scanChunkEnd false (c :: rest) := by
  unfold scanChunkEnd
  split_ifs
  · split <;> omega
  all_goals omega

theorem scanChunk_length (pattern : List Nat) (hne : pattern ≠ []) :
    (scanChunk pattern).2.2.length < pattern.length := by
  unfold scanChunk
  simp only [List.length_drop]
  cases pattern with
  | nil => exact absurd rfl hne
  | cons c rest =>
    by_cases hc : c = 42
    · have hlen : ((c :: rest).dropWhile (fun x => decide (x = 42))).length ≤ rest.length := by
        rw [List.dropWhile_cons_of_pos (by simpa using hc)]
        exact (List.dropWhile_suffix _).length_le
      simp only [List.length_cons]
      omega
    · rw [List.dropWhile_cons_of_neg (by simpa using hc)]
      have := scanChunkEnd_pos c rest hc
      simp only [List.length_cons]
      omega

theorem checkPattern_fuel : ∀ (fuel fuel2 : Nat) (pattern : List Nat),
    pattern.length ≤ fuel → pattern.length ≤ fuel2 →
    checkPattern fuel pattern = checkPattern fuel2 pattern := by
  intro fuel
  induction fuel with
  | zero =>
    intro fuel2 pattern h1 _
    have hp : pattern = [] := List.length_eq_zero.mp (by omega)
    subst hp
    cases fuel2 <;> rfl
  | succ n ih =>
    intro fuel2 pattern h1 h2
    cases fuel2 with
    | zero =>
      have hp : pattern = [] := List.length_eq_zero.mp (by omega)
      subst hp
      rfl
    | succ n2 =>
      rw [checkPattern, checkPattern]
      split
      · rfl
      · rename_i hne
        have := scanChunk_length pattern hne
        split
        · rfl
        · exact ih _ _ (by omega) (by omega)

theorem pathMatchLoop_fuel : ∀ (fuel fuel2 : Nat) (pattern name : List Nat),
    pattern.length < fuel → pattern.length < fuel2 →
    pathMatchLoop fuel pattern name = pathMatchLoop fuel2 pattern name := by
  intro fuel
  induction fuel with
  | zero => intro fuel2 pattern name h1 _; omega
  | succ n ih =>
    intro fuel2 pattern name h1 h2
    cases fuel2 with
    | zero => omega
    | succ n2 =>
      rw [pathMatchLoop, pathMatchLoop]
      split
      · rfl
      · rename_i hne
        have hl := scanChunk_length pattern hne
        have hrec : ∀ t, pathMatchLoop n (scanChunk pattern).2.2 t
            = pathMatchLoop n2 (scanChunk pattern).2.2 t :=
          fun t => ih _ _ _ (by omega) (by omega)
        simp only [hrec]

/-- The bound `path.Match` is run with is never what ends it. -/
theorem pathMatch_fuel (pattern name : Str) (fuel : Nat)
    (h : (utf8Bytes pattern).length < fuel) :
    pathMatchLoop fuel (utf8Bytes pattern) (utf8Bytes name) = pathMatch pattern name := by
  unfold pathMatch
  exact pathMatchLoop_fuel _ _ _ _ h (Nat.lt_succ_self _)

theorem matchChunk_fuel (chunk s : List Nat) (fuel : Nat) (h : chunk.length < fuel) :
    matchChunkLoop fuel chunk s false = matchChunk chunk s := by
  unfold matchChunk
  exact matchChunkLoop_fuel _ _ _ _ _ h (Nat.lt_succ_self _)


theorem cleanGlobPath_length (pattern : Str)
    (hm : hasMeta (cleanGlobPath (pathSplit pattern).1) = true) :
    (cleanGlobPath (pathSplit pattern).1).length < pattern.length := by
  have hpre : (pathSplit pattern).1.length ≤ pattern.length :=
    (List.rdropWhile_prefix _ _).length_le
  unfold cleanGlobPath at hm ⊢
  split_ifs at hm ⊢ with h0
  · exact absurd hm (by decide)
  · have hpos : 0 < (pathSplit pattern).1.length := List.length_pos.mpr h0
    rw [List.length_dropLast]
    omega

theorem globWithLimit_fuel (templateFS : List FsNode) : ∀ (fuel fuel2 : Nat) (pattern : Str)
    (depth : Nat), pattern.length < fuel → pattern.length < fuel2 →
    globWithLimit templateFS fuel pattern depth = globWithLimit templateFS fuel2 pattern depth := by
  intro fuel
  induction fuel with
  | zero => intro fuel2 pattern depth h1 _; omega
  | succ n ih =>
    intro fuel2 pattern depth h1 h2
    cases fuel2 with
    | zero => omega
    | succ n2 =>
      rw [globWithLimit, globWithLimit]
      by_cases hm : hasMeta (cleanGlobPath (pathSplit pattern).1) = true
      · have hl := cleanGlobPath_length pattern hm
        simp only
        rw [ih n2 (cleanGlobPath (pathSplit pattern).1) (depth + 1) (by omega) (by omega)]
      · simp only [hm, Bool.not_false, Bool.not_true, if_true]

/-- The bound `fs.Glob` is run with is never what ends it. -/
theorem fsGlob_fuel (templateFS : List FsNode) (pattern : Str) (fuel : Nat)
    (h : pattern.length < fuel) :
    globWithLimit templateFS fuel pattern 0 = fsGlob templateFS pattern := by
  unfold fsGlob
  exact globWithLimit_fuel templateFS _ _ _ _ h (Nat.lt_succ_self _)

/-- Every path of `descendantDirs` names a directory of the store. -/
theorem descendantDirs_lookup (templateFS : List FsNode) (E : List FsNode) :
    ∀ (rel : List Str) (full : List FsNode), (∀ n ∈ E, n ∈ full) →
      lookupDir templateFS ("templates".toList :: "files".toList :: rel) = some full →
      siblingsDistinct full = true →
      ∀ p ∈ descendantDirs rel E,
        ∃ sub, lookupDir templateFS ("templates".toList :: "files".toList :: p) = some sub := by
  induction E using entries_induction with
  | nil => intro rel full _ _ _ p hp; simp [descendantDirs] at hp
  | file name parsed rest ih =>
    intro rel full hsub hl hd p hp
    rw [descendantDirs_file] at hp
    exact ih rel full (fun n hn => hsub n (List.mem_cons_of_mem _ hn)) hl hd p hp
  | dir name sub rest ihs ihr =>
    intro rel full hsub hl hd p hp
    rw [descendantDirs_dir] at hp
    have hm : FsNode.dir name sub ∈ full := hsub _ (List.mem_cons_self _ _)
    have hchild := lookupDir_child templateFS full
      ("templates".toList :: "files".toList :: rel) name sub hl hd hm
    rw [show ("templates".toList :: "files".toList :: rel) ++ [name]
      = "templates".toList :: "files".toList :: (rel ++ [name]) from rfl] at hchild
    rcases List.mem_cons.mp hp with rfl | hp
    · exact ⟨sub, hchild⟩
    · rcases List.mem_append.mp hp with hp | hp
      · exact ihs (rel ++ [name]) sub (fun n hn => hn) hchild
          (siblingsDistinct_of_mem full hd name sub hm) p hp
      · exact ihr rel full (fun n hn => hsub n (List.mem_cons_of_mem _ hn)) hl hd p hp

/-! # The claims -/

/-- C1: for every string `s`, `sanitizeForPath s` is non-empty, consists only
of runes in `[A-Za-z0-9_-]`, contains no `--`, neither starts nor ends with
`-`; it is the literal `action` when mapping, collapsing and trimming leave
nothing, which is the case whenever every rune of `s` is mapped to a hyphen. -/
theorem sanitizeForPath_shape (s : Str) :
    sanitizeForPath s ≠ [] ∧
    (∀ c ∈ sanitizeForPath s,
      ('a'.toNat ≤ c.toNat ∧ c.toNat ≤ 'z'.toNat) ∨ ('A'.toNat ≤ c.toNat ∧ c.toNat ≤ 'Z'.toNat) ∨
      ('0'.toNat ≤ c.toNat ∧ c.toNat ≤ '9'.toNat) ∨ c = '_' ∨ c = '-') ∧
    ¬ "--".toList <:+: sanitizeForPath s ∧
    (sanitizeForPath s).head? ≠ some '-' ∧
    (sanitizeForPath s).getLast? ≠ some '-' ∧
    (stringsTrim (collapseHyphens (stringsMap sanitizeRune s).length (stringsMap sanitizeRune s))
        "-".toList = [] → sanitizeForPath s = "action".toList) ∧
    ((∀ c ∈ s, sanitizeRune c = '-') → sanitizeForPath s = "action".toList) := by
  obtain ⟨hne, hsafe, hdd, hh, hl⟩ := sanitizeForPath_isSanitized s
  refine ⟨hne, ?_, hdd, hh, hl, ?_, sanitizeForPath_all_hyphen s⟩
  · intro c hc
    have := hsafe c hc
    simp only [isPathSafeRune, Bool.or_eq_true, Bool.and_eq_true, decide_eq_true_eq] at this
    rcases this with (((h | h) | h) | h) | h
    · exact Or.inl h
    · exact Or.inr (Or.inl h)
    · exact Or.inr (Or.inr (Or.inl h))
    · exact Or.inr (Or.inr (Or.inr (Or.inr h)))
    · exact Or.inr (Or.inr (Or.inr (Or.inl h)))
  · intro h
    unfold sanitizeForPath
    exact if_pos h

/-- C2: `sanitizeForPath` is idempotent. -/
theorem sanitizeForPath_idempotent (s : Str) :
    sanitizeForPath (sanitizeForPath s) = sanitizeForPath s :=
  sanitizeForPath_fixed _ (sanitizeForPath_isSanitized s)

/-- C3: for every subject and name, `isValidName` returns no error if and only
if the name is non-empty, its first rune is an ASCII letter and every rune is
an ASCII letter, an ASCII digit or `_`; in every other case it returns an
error, in particular for every name that contains one of the six white space
characters the function looks for, or any other Unicode white space. -/
theorem isValidName_spec (subject name : Str) :
    (isValidName subject name = none ↔
      name ≠ [] ∧
      (∀ c, name.head? = some c →
        ('a'.toNat ≤ c.toNat ∧ c.toNat ≤ 'z'.toNat) ∨ ('A'.toNat ≤ c.toNat ∧ c.toNat ≤ 'Z'.toNat)) ∧
      (∀ c ∈ name,
        ('a'.toNat ≤ c.toNat ∧ c.toNat ≤ 'z'.toNat) ∨ ('A'.toNat ≤ c.toNat ∧ c.toNat ≤ 'Z'.toNat) ∨
        ('0'.toNat ≤ c.toNat ∧ c.toNat ≤ '9'.toNat) ∨ c = '_')) ∧
    (isValidName subject name ≠ none → ∃ err, isValidName subject name = some err) ∧
    ((∃ c ∈ name, c ∈ [' ', '\t', '\n', '\r', '\x0c', '\x0b']) →
      ∃ err, isValidName subject name = some err) ∧
    ((∃ c ∈ name, unicodeIsSpace c = true) →
      ∃ err, isValidName subject name = some err) := by
  have hsome : isValidName subject name ≠ none → ∃ err, isValidName subject name = some err := by
    intro h
    cases hv : isValidName subject name with
    | none => exact absurd hv h
    | some e => exact ⟨e, rfl⟩
  refine ⟨?_, hsome, fun h => hsome (isValidName_whitespace subject name h),
    fun h => hsome (isValidName_unicodeSpace subject name h)⟩
  rw [isValidName_eq_none]
  constructor
  · rintro ⟨⟨c, rest, rfl, hc⟩, hall⟩
    refine ⟨by simp, ?_, ?_⟩
    · intro d hd
      simp only [List.head?_cons, Option.some.injEq] at hd
      subst hd
      simpa [isLetter] using hc
    · intro d hd
      have := hall d hd
      simp only [isNameRune, isLetter, isDigit, Bool.or_eq_true, Bool.and_eq_true,
        decide_eq_true_eq] at this
      tauto
  · rintro ⟨hne, hfirst, hall⟩
    cases name with
    | nil => exact absurd rfl hne
    | cons a rest =>
      refine ⟨⟨a, rest, rfl, ?_⟩, ?_⟩
      · have := hfirst a rfl
        simpa [isLetter] using this
      · intro d hd
        have := hall d hd
        simp only [isNameRune, isLetter, isDigit, Bool.or_eq_true, Bool.and_eq_true,
          decide_eq_true_eq]
        tauto

/-- C4 as stated fails: in scenario A, against an empty registry, `validate`
and `collectActionInfo` return an error. -/
theorem scenarioA_validation_fails :
    ((newMetadataCollector (fun _ => false) false).validate
        (Fixture.request "shell" "My Action!" "").getDefaultValues).2
      = some (.name (.invalidChar "action ID".toList '-' 2)) ∧
    ((newMetadataCollector (fun _ => false) false).collectActionInfo Fixture.jsonschema []
        (Fixture.request "shell" "My Action!" "").getDefaultValues).2 ≠ none := by
  refine ⟨by decide, by decide⟩

/-- C4 (the code on scenario A): for non-interactive collection with runtime
shell and ID `My Action!` against a registry that contains no action,
`validate` sanitizes the ID to `My-Action` and `collectActionInfo` returns the
error of `isValidName`, which rejects the hyphen at byte 2 of the sanitized
ID, so `run` returns that error and leaves the state as it was: nothing is
generated in `<root>/My-Action`, the directory `getActionDir` computes.  The
validator of the `Action ID` field rejects the placeholder `my-action` of that
field with the same error. -/
theorem scenarioA_rejected (lib : JsonSchema) (script : List FormAnswer) (root title : Str)
    (templateFS : List FsNode) (w : World) (m : MetadataCollector) :
    ((newMetadataCollector (fun _ => false) false).collectActionInfo lib script
        ({ manager := fun _ => false, runtime := runtimeShell, id := "My Action!".toList,
           title := title, outputDir := root, interactive := false,
           containerPreset := [] } : ScaffoldAction).getDefaultValues).2
      = some (.name (.invalidChar "action ID".toList '-' 2)) ∧
    ((newMetadataCollector (fun _ => false) false).collectActionInfo lib script
        ({ manager := fun _ => false, runtime := runtimeShell, id := "My Action!".toList,
           title := title, outputDir := root, interactive := false,
           containerPreset := [] } : ScaffoldAction).getDefaultValues).1.map (fun v => v.id)
      = some "My-Action".toList ∧
    ({ pathPrefix := root } : DirectoryManager).getActionDir "My Action!".toList
      = filepathJoin [root, "My-Action".toList] ∧
    ({ manager := fun _ => false, runtime := runtimeShell, id := "My Action!".toList,
       title := title, outputDir := root, interactive := false,
       containerPreset := [] } : ScaffoldAction).run lib templateFS script w
      = (some (.collect (.name (.invalidChar "action ID".toList '-' 2))), w) ∧
    sanitizeForPath "My Action!".toList = "My-Action".toList ∧
    isValidName "action ID".toList (sanitizeForPath "My Action!".toList)
      = some (.invalidChar "action ID".toList '-' 2) ∧
    actionIdValidator m "my-action".toList
      = some (.name (.invalidChar "action ID".toList '-' 2)) := by
  refine ⟨?_, ?_, ?_, ?_, ?_, ?_, ?_⟩
  · rfl
  · rfl
  · rfl
  · rfl
  · decide
  · decide
  · rfl

/-- C5 as stated fails: `isValidName` rejects the ID `abc!`, yet the
non-interactive run accepts it as `abc`, reaches `generate` and creates
`out/actions/abc`. -/
theorem run_accepts_id_invalid_before_sanitizing :
    isValidName "action ID".toList "abc!".toList ≠ none ∧
    ((Fixture.request "shell" "abc!" "").run Fixture.jsonschema Fixture.templateFS []
        Fixture.emptyWorld).1 = none ∧
    ((Fixture.request "shell" "abc!" "").run Fixture.jsonschema Fixture.templateFS []
        Fixture.emptyWorld).2.fs.isDir "out/actions/abc".toList = true := by
  refine ⟨by decide, by decide, by decide⟩

/-- C5 (amended): for every artifact ID that is empty or whose sanitized form
fails `isValidName`, the non-interactive `run` returns the error of
`collectActionInfo` and leaves the state as it was: `generate` is not reached
and nothing is created. -/
theorem run_rejects_before_generate (s : ScaffoldAction) (lib : JsonSchema)
    (templateFS : List FsNode) (script : List FormAnswer) (w : World)
    (hni : s.interactive = false)
    (hbad : s.id = [] ∨ isValidName "action ID".toList (sanitizeForPath s.id) ≠ none) :
    ∃ e, s.run lib templateFS script w = (some (.collect e), w) := by
  obtain ⟨e, he⟩ := collectActionInfo_noninteractive (newMetadataCollector s.manager s.interactive)
    lib script s.getDefaultValues hni hbad
  exact ⟨e, run_of_collect_error s lib templateFS script w e he⟩

theorem run_rejects_before_generate_witness :
    ∃ e, (Fixture.request "shell" "My Action!" "").run Fixture.jsonschema Fixture.templateFS []
      Fixture.emptyWorld = (some (.collect e), Fixture.emptyWorld) :=
  run_rejects_before_generate (Fixture.request "shell" "My Action!" "") Fixture.jsonschema
    Fixture.templateFS [] Fixture.emptyWorld rfl (Or.inr (by decide))

/-- C6 (the code at a prefix that is not in cleaned form): the prefix `./out`
names the directory `out`, and the action directory `filepath.Join` computes
for the ID `abc` is `out/abc`, inside that directory.  The creation of the
definition file fails; the deferred function compares the cleaned path with
the prefix as it was given, finds no string prefix, prints the warning about a
directory outside of the expected path and attempts no removal (so none
fails): the directory is still there after `generate` has returned.  With the
prefix `out` the same failure removes the directory. -/
theorem generate_unclean_prefix_keeps_directory :
    ((newGenerator Fixture.templateFS "./out".toList).generate
        (Fixture.request "shell" "abc" "").getDefaultValues Fixture.faultyWorld).1
      = some (.create "out/abc/action.yaml".toList) ∧
    ((newGenerator Fixture.templateFS "./out".toList).generate
        (Fixture.request "shell" "abc" "").getDefaultValues Fixture.faultyWorld).2.warnings
      = [.notRemovingOutside "out/abc".toList] ∧
    ((newGenerator Fixture.templateFS "./out".toList).generate
        (Fixture.request "shell" "abc" "").getDefaultValues Fixture.faultyWorld).2.fs.isDir
        ((newGenerator Fixture.templateFS "./out".toList).dirManager.getActionDir "abc".toList)
      = true ∧
    pathClean "./out".toList = "out".toList ∧
    (newGenerator Fixture.templateFS "./out".toList).dirManager.getActionDir "abc".toList
      = "out/abc".toList ∧
    isUnder (pathClean "./out".toList) "out/abc".toList = true ∧
    stringsHasPrefix "out/abc".toList "./out".toList = false ∧
    ((newGenerator Fixture.templateFS "./out".toList).generate
        (Fixture.request "shell" "abc" "").getDefaultValues Fixture.faultyWorld).2.faults = [] ∧
    ((newGenerator Fixture.templateFS "out".toList).generate
        (Fixture.request "shell" "abc" "").getDefaultValues Fixture.faultyWorld)
      = (some (.create "out/abc/action.yaml".toList),
         { fs := { dirs := ["out".toList], files := [] }, faults := [], warnings := [] }) := by
  refine ⟨by decide, by decide, by decide, by decide, by decide, by decide, by decide,
    by decide, by decide⟩

/-- All-or-nothing for a prefix in cleaned form: for every generator whose
prefix is a string prefix of the action directory
`filepath.Join(prefix, sanitizeForPath(ID))`, every template values and every
state: if `generate` returns an error (from the creation of the directory, the
definition render or the file renders), then after `generate` has returned the
action directory does not exist and no warning was printed, unless the
recursive removal itself failed: then the call of `os.RemoveAll` took a pending
fault, and exactly one warning was printed, the one that reports the failed
cleanup of that directory. -/
theorem generate_all_or_nothing (g : Generator) (values : TemplateValues) (w : World)
    (hp : stringsHasPrefix (g.dirManager.getActionDir values.id) g.dirManager.pathPrefix = true)
    (herr : (g.generate values w).1 ≠ none) :
    ((g.generate values w).2.fs.isDir (g.dirManager.getActionDir values.id) = false ∧
      (g.generate values w).2.warnings = w.warnings) ∨
    ((∃ pre, w.faults = pre ++ true :: (g.generate values w).2.faults) ∧
      (g.generate values w).2.warnings
        = w.warnings ++ [Warning.cleanupFailed (g.dirManager.getActionDir values.id)]) :=
  generate_failure_outcome g values w hp herr

theorem generate_all_or_nothing_witness :
    ((newGenerator Fixture.templateFS "out".toList).generate
        (Fixture.request "shell" "abc" "").getDefaultValues Fixture.faultyWorld).1
      = some (.create "out/abc/action.yaml".toList) ∧
    ((newGenerator Fixture.templateFS "out".toList).generate
        (Fixture.request "shell" "abc" "").getDefaultValues Fixture.faultyWorld).2.fs
      = { dirs := ["out".toList], files := [] } ∧
    ((((newGenerator Fixture.templateFS "out".toList).generate
        (Fixture.request "shell" "abc" "").getDefaultValues Fixture.faultyWorld).2.fs.isDir
        ((newGenerator Fixture.templateFS "out".toList).dirManager.getActionDir
          (Fixture.request "shell" "abc" "").getDefaultValues.id) = false ∧
      ((newGenerator Fixture.templateFS "out".toList).generate
        (Fixture.request "shell" "abc" "").getDefaultValues Fixture.faultyWorld).2.warnings
        = Fixture.faultyWorld.warnings) ∨
     ((∃ pre, Fixture.faultyWorld.faults = pre ++ true ::
        ((newGenerator Fixture.templateFS "out".toList).generate
          (Fixture.request "shell" "abc" "").getDefaultValues Fixture.faultyWorld).2.faults) ∧
      ((newGenerator Fixture.templateFS "out".toList).generate
        (Fixture.request "shell" "abc" "").getDefaultValues Fixture.faultyWorld).2.warnings
        = Fixture.faultyWorld.warnings ++ [Warning.cleanupFailed
            ((newGenerator Fixture.templateFS "out".toList).dirManager.getActionDir
              (Fixture.request "shell" "abc" "").getDefaultValues.id)])) :=
  ⟨by decide, by decide,
   generate_all_or_nothing (newGenerator Fixture.templateFS "out".toList)
     (Fixture.request "shell" "abc" "").getDefaultValues Fixture.faultyWorld
     (by decide) (by decide)⟩

/-- C7 (the code at a directory that exists already): `out/abc` holds the file
`keep.txt`; `ensureActionDir` accepts the directory as it is, the creation of
the definition file fails, and the deferred function of `generate` removes the
whole directory, `keep.txt` included. -/
theorem generate_rollback_removes_existing_contents :
    Fixture.occupiedWorld.fs.isFile "out/abc/keep.txt".toList = true ∧
    (newGenerator Fixture.templateFS "out".toList).dirManager.ensureActionDir
        Fixture.occupiedWorld "abc".toList
      = ("out/abc".toList, none, Fixture.occupiedWorld) ∧
    ((newGenerator Fixture.templateFS "out".toList).generate
        (Fixture.request "shell" "abc" "").getDefaultValues Fixture.occupiedWorld).1
      = some (.create "out/abc/action.yaml".toList) ∧
    ((newGenerator Fixture.templateFS "out".toList).generate
        (Fixture.request "shell" "abc" "").getDefaultValues Fixture.occupiedWorld).2.fs
      = { dirs := ["out".toList], files := [] } := by
  refine ⟨by decide, by decide, by decide, by decide⟩

/-- C8 as stated fails: in the fixture store the shared base directory
`container` holds the template `base.txt.tmpl`, but the directories
`generateFiles` resolves for the presets `go` and `py` are only `container/go`,
`container/go/cmd` and `container/py`, and the files of a complete run for
`go` do not include `base.txt`. -/
theorem generateFiles_skips_container_base :
    (getRuntimeTemplates Fixture.templateFS runtimeContainer).toOption.map
        (fun ts => ts.map (fun t => t.name)) = some ["base.txt.tmpl".toList] ∧
    ((newGenerator Fixture.templateFS "out/actions".toList).resolveDirs
        (Fixture.containerValues "go")).toOption
      = some ["container/go/cmd".toList, "container/go/cmd".toList, "container/go".toList,
              "container/go".toList] ∧
    ((newGenerator Fixture.templateFS "out/actions".toList).resolveDirs
        (Fixture.containerValues "py")).toOption
      = some ["container/py".toList, "container/py".toList] ∧
    ((Fixture.request "container" "abc" "go").run Fixture.jsonschema Fixture.templateFS []
        Fixture.emptyWorld).1 = none ∧
    ((Fixture.request "container" "abc" "go").run Fixture.jsonschema Fixture.templateFS []
        Fixture.emptyWorld).2.fs.files.map (fun f => f.1)
      = ["out/actions/abc/action.yaml".toList, "out/actions/abc/cmd/x.go".toList,
         "out/actions/abc/main.go".toList] := by
  refine ⟨by decide, by decide, by decide, by decide, by decide⟩

/-- C8 (amended): for the container runtime and every preset `p` that names a
directory `files/container/p` of a template store that is a directory tree,
`generateFiles` resolves exactly `container/p` and its descendant
directories: the list it walks is the listing of `getTemplateSubdirectories`
followed by `container/p` once more, every directory of it is `container/p`
or lies below it, and the shared base directory `container` is not among them.
Walking the list, it creates the output directory of every directory and
renders the templates `getRuntimeTemplates` returns for it (for a directory
whose path holds no glob metacharacter, the templates of its entries that
match `*.tmpl`): after a run without error every such template has its output
file, and every file that was not there before is the output of a template of
one of these directories, so a template directly under `container` is rendered
for no preset. -/
theorem generateFiles_container_dirs (g : Generator) (values : TemplateValues)
    (entries : List FsNode) (output : Str) (w : World)
    (hfs : entriesValid g.templateFS = true) (hd : siblingsDistinct g.templateFS = true)
    (hc : values.runtime.type = runtimeContainer)
    (hbase : lookupDir g.templateFS
      ["templates".toList, "files".toList, runtimeContainer, values.containerPreset]
        = some entries) :
    ∃ dirs : List Str,
      g.resolveDirs values = .ok dirs ∧
      dirs = childListings [runtimeContainer, values.containerPreset] entries
        ++ [filesDirOf values, filesDirOf values] ∧
      filesDirOf values = runtimeContainer ++ "/".toList ++ values.containerPreset ∧
      (∀ d, d ∈ dirs ↔ d = filesDirOf values ∨
        ∃ p ∈ descendantDirs [runtimeContainer, values.containerPreset] entries,
          d = joinElements p) ∧
      (∀ d ∈ dirs, d = filesDirOf values ∨ (filesDirOf values ++ "/".toList) <+: d) ∧
      runtimeContainer ∉ dirs ∧
      g.generateFiles output values w
        = g.generateFilesLoop output (filesDirOf values) values dirs w ∧
      (∀ q, (g.generateFiles output values w).2.fs.isFile q = true →
        w.fs.isFile q = true ∨
        ∃ d ∈ dirs, ∃ ts, getRuntimeTemplates g.templateFS d = .ok ts ∧
          ∃ t ∈ ts, q = renderedPath output (filesDirOf values) d t) ∧
      ((g.generateFiles output values w).1 = none → ∀ d ∈ dirs,
        (g.generateFiles output values w).2.fs.isDir
          (filepathJoin [output, stringsTrimPrefix d (filesDirOf values)]) = true ∧
        ∀ ts, getRuntimeTemplates g.templateFS d = .ok ts → ∀ t ∈ ts,
          (g.generateFiles output values w).2.fs.isFile
            (renderedPath output (filesDirOf values) d t) = true) ∧
      (∀ p ∈ descendantDirs [runtimeContainer, values.containerPreset] entries,
        ∃ sub, lookupDir g.templateFS ("templates".toList :: "files".toList :: p) = some sub) ∧
      (∀ (p : List Str) (sub : List FsNode), p ≠ [] → (∀ e ∈ p, hasMeta e = false) →
        lookupDir g.templateFS ("templates".toList :: "files".toList :: p) = some sub →
        getRuntimeTemplates g.templateFS (joinElements p)
          = templatesOfDir (joinElements ("templates".toList :: "files".toList :: p)) sub) := by
  have hall := lookupDir_elements_valid _ g.templateFS entries hfs hbase
  have hp : validElement values.containerPreset = true := hall _ (by simp)
  have hes : ∀ e ∈ [runtimeContainer, values.containerPreset], validElement e = true := by
    intro e he
    exact hall e (List.mem_cons_of_mem _ (List.mem_cons_of_mem _ he))
  have hev := lookupDir_valid _ g.templateFS entries hfs hbase
  have hed := lookupDir_distinct _ g.templateFS entries hd hbase
  have hh := height_lookupDir _ g.templateFS entries hbase
  have hfd := filesDirOf_container values hc
  have hlist := getTemplateSubdirectories_eq g.templateFS (heightOfEntries g.templateFS + 1)
    [runtimeContainer, values.containerPreset] entries hes hev hed hbase (by omega)
  have hres : g.resolveDirs values
      = .ok (childListings [runtimeContainer, values.containerPreset] entries
        ++ [filesDirOf values, filesDirOf values]) := by
    unfold Generator.resolveDirs
    simp only [hfd, hlist, List.append_assoc, List.singleton_append]
  obtain ⟨_, _, hcount, hmem⟩ := listing_properties entries
    [runtimeContainer, values.containerPreset] hev hed hes
  have hunder := resolveDirs_container_under g values hfs hc hp _ hres
  have hloop := generateFilesLoop_files g output (filesDirOf values) values
    (childListings [runtimeContainer, values.containerPreset] entries
      ++ [filesDirOf values, filesDirOf values]) w
  have hgen : g.generateFiles output values w
      = g.generateFilesLoop output (filesDirOf values) values
        (childListings [runtimeContainer, values.containerPreset] entries
          ++ [filesDirOf values, filesDirOf values]) w := by
    unfold Generator.generateFiles
    rw [hres]
  refine ⟨_, hres, rfl, ?_, ?_, ?_, ?_, hgen, ?_, ?_,
    descendantDirs_lookup g.templateFS entries _ entries (fun n hn => hn) hbase hed, ?_⟩
  · simp [filesDirOf, hc]
  · intro d
    constructor
    · intro hdm
      rcases List.mem_append.mp hdm with h | h
      · have := hmem d (List.mem_append_left _ h)
        rw [← hfd] at this
        exact this
      · left
        simp only [List.mem_cons, List.mem_singleton, List.not_mem_nil, or_false, or_self] at h
        exact h
    · rintro (h | ⟨p, hpm, rfl⟩)
      · rw [h]
        exact List.mem_append_right _ (List.mem_cons_self _ _)
      · have h2 := hcount p hpm
        have hpos : 0 < (childListings [runtimeContainer, values.containerPreset] entries
            ++ [joinElements [runtimeContainer, values.containerPreset]]).count
            (joinElements p) := by omega
        have := List.count_pos_iff.mp hpos
        rcases List.mem_append.mp this with h | h
        · exact List.mem_append_left _ h
        · apply List.mem_append_right
          rw [hfd]
          exact List.mem_cons_of_mem _ h
  · intro d hdm
    have := (isUnder_iff _ _).mp (hunder d hdm)
    rw [show filesDirOf values = runtimeContainer ++ "/".toList ++ values.containerPreset by
      simp [filesDirOf, hc]]
    exact this
  · intro hm
    have := hunder _ hm
    rw [container_base_not_under] at this
    cases this
  · rw [hgen]
    exact hloop.2.2.1
  · rw [hgen]
    exact hloop.2.2.2
  · intro p sub hpne hplain hl
    exact getRuntimeTemplates_literal g.templateFS sub p hpne
      (fun e he => lookupDir_elements_valid _ g.templateFS sub hfs hl e
        (List.mem_cons_of_mem _ (List.mem_cons_of_mem _ he)))
      hplain hl (lookupDir_valid _ g.templateFS sub hfs hl)
      (lookupDir_distinct _ g.templateFS sub hd hl)

theorem generateFiles_container_dirs_witness :
    (Fixture.generator.generateFiles Fixture.actionDir Fixture.goValues Fixture.emptyWorld).1
      = none ∧
    (Fixture.generator.generateFiles Fixture.actionDir Fixture.goValues
        Fixture.emptyWorld).2.fs.files.map (fun f => f.1)
      = ["out/actions/abc/cmd/x.go".toList, "out/actions/abc/main.go".toList] ∧
    ∃ dirs : List Str,
      Fixture.generator.resolveDirs Fixture.goValues = .ok dirs ∧
      dirs = childListings [runtimeContainer, Fixture.goValues.containerPreset] Fixture.goEntries
        ++ [filesDirOf Fixture.goValues, filesDirOf Fixture.goValues] ∧
      filesDirOf Fixture.goValues
        = runtimeContainer ++ "/".toList ++ Fixture.goValues.containerPreset ∧
      (∀ d, d ∈ dirs ↔ d = filesDirOf Fixture.goValues ∨
        ∃ p ∈ descendantDirs [runtimeContainer, Fixture.goValues.containerPreset]
            Fixture.goEntries,
          d = joinElements p) ∧
      (∀ d ∈ dirs, d = filesDirOf Fixture.goValues ∨
        (filesDirOf Fixture.goValues ++ "/".toList) <+: d) ∧
      runtimeContainer ∉ dirs ∧
      Fixture.generator.generateFiles Fixture.actionDir Fixture.goValues Fixture.emptyWorld
        = Fixture.generator.generateFilesLoop Fixture.actionDir (filesDirOf Fixture.goValues)
            Fixture.goValues dirs Fixture.emptyWorld ∧
      (∀ q, (Fixture.generator.generateFiles Fixture.actionDir Fixture.goValues
          Fixture.emptyWorld).2.fs.isFile q = true →
        Fixture.emptyWorld.fs.isFile q = true ∨
        ∃ d ∈ dirs, ∃ ts, getRuntimeTemplates Fixture.generator.templateFS d = .ok ts ∧
          ∃ t ∈ ts, q = renderedPath Fixture.actionDir (filesDirOf Fixture.goValues) d t) ∧
      ((Fixture.generator.generateFiles Fixture.actionDir Fixture.goValues
          Fixture.emptyWorld).1 = none → ∀ d ∈ dirs,
        (Fixture.generator.generateFiles Fixture.actionDir Fixture.goValues
          Fixture.emptyWorld).2.fs.isDir
          (filepathJoin [Fixture.actionDir, stringsTrimPrefix d (filesDirOf Fixture.goValues)])
            = true ∧
        ∀ ts, getRuntimeTemplates Fixture.generator.templateFS d = .ok ts → ∀ t ∈ ts,
          (Fixture.generator.generateFiles Fixture.actionDir Fixture.goValues
            Fixture.emptyWorld).2.fs.isFile
            (renderedPath Fixture.actionDir (filesDirOf Fixture.goValues) d t) = true) ∧
      (∀ p ∈ descendantDirs [runtimeContainer, Fixture.goValues.containerPreset]
          Fixture.goEntries,
        ∃ sub, lookupDir Fixture.generator.templateFS
          ("templates".toList :: "files".toList :: p) = some sub) ∧
      (∀ (p : List Str) (sub : List FsNode), p ≠ [] → (∀ e ∈ p, hasMeta e = false) →
        lookupDir Fixture.generator.templateFS ("templates".toList :: "files".toList :: p)
          = some sub →
        getRuntimeTemplates Fixture.generator.templateFS (joinElements p)
          = templatesOfDir (joinElements ("templates".toList :: "files".toList :: p)) sub) :=
  ⟨by decide, by decide,
   generateFiles_container_dirs Fixture.generator Fixture.goValues Fixture.goEntries
     Fixture.actionDir Fixture.emptyWorld (by decide) (by decide) rfl rfl⟩

/-- C9 (the code on numbers): when `jsonschema.ConvertStringToType` returns a
`float64` for the type number, `castParamStrToType` returns that `float64`
unchanged for a scalar, and for an array of numbers a slice of the same length
whose elements are all `float64` values: `res[i] == 0` compares the interface
value with the `int` zero and never holds, so no element becomes `"0.0"`. -/
theorem castParamStrToType_number_keeps_float (lib : JsonSchema)
    (hfloat : ∀ s r, lib.convertStringToType s .number = .ok r → ∃ bits, r = .float64 bits)
    (pdef : DefParameter) (v : Str) (r : GoAny) (h : castParamStrToType lib v pdef = .ok r) :
    (pdef.type = .number → lib.convertStringToType v .number = .ok r ∧ ∃ bits, r = .float64 bits) ∧
    (pdef.type = .array → pdef.items = some .number →
      ∃ items, r = .slice items ∧ items.length = (stringsSplit v ',').length ∧
        ∀ x ∈ items, ∃ bits, x = .float64 bits) := by
  constructor
  · intro ht
    unfold castParamStrToType at h
    rw [ht] at h
    simp only [ne_eq, reduceCtorEq, not_false_eq_true, if_true] at h
    split at h
    · cases h
    · rename_i r2 hr
      simp only [Except.ok.injEq] at h
      subst h
      exact ⟨hr, hfloat v _ hr⟩
  · intro ht hitems
    unfold castParamStrToType at h
    rw [ht] at h
    simp only [ne_eq, not_true_eq_false, if_false] at h
    split at h
    · cases h
    · rename_i res hres
      simp only [Except.ok.injEq] at h
      subst h
      obtain ⟨hl, hall⟩ := castItems_number_float lib hfloat pdef hitems _ res hres
      exact ⟨res, rfl, hl, hall⟩

theorem castParamStrToType_number_keeps_float_witness :
    castParamStrToType Fixture.jsonschema "0".toList (Fixture.parameter .number none)
      = .ok (.float64 0) ∧
    castParamStrToType Fixture.jsonschema "0,1".toList (Fixture.parameter .array (some .number))
      = .ok (.slice [.float64 0, .float64 0x3FF0000000000000]) ∧
    (∃ items, GoAny.slice [.float64 0, .float64 0x3FF0000000000000] = .slice items ∧
      items.length = (stringsSplit "0,1".toList ',').length ∧
      ∀ x ∈ items, ∃ bits, x = .float64 bits) :=
  ⟨rfl, rfl,
   (castParamStrToType_number_keeps_float Fixture.jsonschema
      (fun s r hr => by
        simp only [Fixture.jsonschema, Except.ok.injEq] at hr
        exact ⟨_, hr.symm⟩)
      (Fixture.parameter .array (some .number)) "0,1".toList _ rfl).2 rfl rfl⟩

/-- C10 (the code on aliases): the pieces are compacted before they are
trimmed, so the raw input `a, a, b`, whose pieces `a`, ` a`, ` b` differ,
yields `a`, `a`, `b`; only pieces that are equal before trimming collapse, as
in `a,a,b`. -/
theorem parseAliases_compacts_before_trimming :
    slicesCompact (stringsSplit "a, a, b".toList ',') = ["a".toList, " a".toList, " b".toList] ∧
    parseAliases "a, a, b".toList [] = ["a".toList, "a".toList, "b".toList] ∧
    parseAliases "a,a,b".toList [] = ["a".toList, "b".toList] := by
  refine ⟨by decide, by decide, by decide⟩

/-- C11 (the code at the names `foo` and `Foo`): both names pass the validator
of the name field, the second one because it is compared as entered with the
stored `foo`; each is lower-cased when it is appended, so after the second
iteration the list, which was duplicate-free after the first, holds the name
`foo` twice. -/
theorem collectParameters_lowercases_after_validating :
    parameterNameValidator [] "foo".toList = none ∧
    (collectParameters Fixture.jsonschema [] (Fixture.twoParameters.take 1 ++ [.confirm false])
      ).toOption.map (fun r => r.1.map (fun p => p.name)) = some ["foo".toList] ∧
    parameterNameValidator [Fixture.namedParameter "foo"] "Foo".toList = none ∧
    (collectParameters Fixture.jsonschema [] Fixture.twoParameters).toOption.map
      (fun r => r.1.map (fun p => p.name)) = some ["foo".toList, "foo".toList] ∧
    ¬ ["foo".toList, "foo".toList].Nodup := by
  refine ⟨by decide, by decide, by decide, by decide, by decide⟩

/-- C12 (the code on the container image): in every model that
`collectActionInfo` returns for the container runtime the image is the ID, as
it was before `validate` sanitized it, followed by `:latest`; what was entered
in the container configuration step is overwritten. -/
theorem collectActionInfo_overwrites_image (m : MetadataCollector) (lib : JsonSchema)
    (script : List FormAnswer) (values v : TemplateValues)
    (h : (m.collectActionInfo lib script values).1 = some v)
    (hc : v.runtime.type = runtimeContainer) :
    ∃ rawID, v.runtime.container.image = rawID ++ ":latest".toList ∧
      (v.id = rawID ∨ v.id = sanitizeForPath rawID) :=
  collectActionInfo_image m lib script values v h hc

theorem collectActionInfo_overwrites_image_witness :
    ((newMetadataCollector (fun _ => false) true).attachInteractiveForm Fixture.jsonschema
        (Fixture.request "container" "" "").getDefaultValues Fixture.containerSession
      ).toOption.map (fun v => v.runtime.container.image) = some "nginx:1.25".toList ∧
    Fixture.containerResult.runtime.container.image = "abc:latest".toList ∧
    ∃ rawID, Fixture.containerResult.runtime.container.image = rawID ++ ":latest".toList ∧
      (Fixture.containerResult.id = rawID ∨ Fixture.containerResult.id = sanitizeForPath rawID) :=
  ⟨by decide, rfl,
   collectActionInfo_overwrites_image (newMetadataCollector (fun _ => false) true)
     Fixture.jsonschema Fixture.containerSession
     (Fixture.request "container" "" "").getDefaultValues Fixture.containerResult rfl rfl⟩

/-- C13: in a template store that is a directory tree (every name a valid path
element, no two entries of one directory with the same name), for every base
directory `es` of `templates/files`, `getTemplateSubdirectories` succeeds at
every depth bound that exceeds the height below the base, in particular at the
bound `resolveDirs` passes. The list it returns is, for each child directory in
turn, the child followed by the listing of that child, and then the base: its
last element is the base, the base occurs once, every proper descendant
directory of the base occurs exactly twice, and no other path occurs. -/
theorem getTemplateSubdirectories_listing (templateFS : List FsNode) (es : List Str)
    (entries : List FsNode) (depth : Nat)
    (hv : entriesValid templateFS = true) (hd : siblingsDistinct templateFS = true)
    (hbase : lookupDir templateFS ("templates".toList :: "files".toList :: es) = some entries)
    (hdepth : heightOfEntries entries + 1 ≤ depth) :
    ∃ dirs : List Str,
      getTemplateSubdirectories templateFS depth (joinElements es) = .ok dirs ∧
      getTemplateSubdirectories templateFS (heightOfEntries templateFS + 1) (joinElements es)
        = .ok dirs ∧
      dirs = childListings es entries ++ [joinElements es] ∧
      dirs.getLast? = some (joinElements es) ∧
      dirs.count (joinElements es) = 1 ∧
      (∀ d ∈ descendantDirs es entries, dirs.count (joinElements d) = 2) ∧
      (∀ x ∈ dirs, x = joinElements es ∨ ∃ d ∈ descendantDirs es entries, x = joinElements d) := by
  have hes : ∀ e ∈ es, validElement e = true := by
    intro e he
    exact lookupDir_elements_valid _ templateFS entries hv hbase e
      (List.mem_cons_of_mem _ (List.mem_cons_of_mem _ he))
  have hev := lookupDir_valid _ templateFS entries hv hbase
  have hed := lookupDir_distinct _ templateFS entries hd hbase
  have hh := height_lookupDir _ templateFS entries hbase
  obtain ⟨h1, h2, h3, h4⟩ := listing_properties entries es hev hed hes
  exact ⟨childListings es entries ++ [joinElements es],
    getTemplateSubdirectories_eq templateFS depth es entries hes hev hed hbase hdepth,
    getTemplateSubdirectories_eq templateFS _ es entries hes hev hed hbase (by omega),
    rfl, h1, h2, h3, h4⟩

theorem getTemplateSubdirectories_listing_witness :
    getTemplateSubdirectories Fixture.templateFS 3 "container".toList
      = .ok ["container/go".toList, "container/go/cmd".toList, "container/go/cmd".toList,
             "container/go".toList, "container/py".toList, "container/py".toList,
             "container".toList] ∧
    ∃ dirs : List Str,
      getTemplateSubdirectories Fixture.templateFS 3 (joinElements ["container".toList])
        = .ok dirs ∧
      getTemplateSubdirectories Fixture.templateFS (heightOfEntries Fixture.templateFS + 1)
        (joinElements ["container".toList]) = .ok dirs ∧
      dirs = childListings ["container".toList] Fixture.containerEntries
        ++ [joinElements ["container".toList]] ∧
      dirs.getLast? = some (joinElements ["container".toList]) ∧
      dirs.count (joinElements ["container".toList]) = 1 ∧
      (∀ d ∈ descendantDirs ["container".toList] Fixture.containerEntries,
        dirs.count (joinElements d) = 2) ∧
      (∀ x ∈ dirs, x = joinElements ["container".toList] ∨
        ∃ d ∈ descendantDirs ["container".toList] Fixture.containerEntries,
          x = joinElements d) :=
  ⟨rfl,
   getTemplateSubdirectories_listing Fixture.templateFS ["container".toList]
     Fixture.containerEntries 3 (by decide) (by decide) rfl (by decide)⟩

end Scaffold
